import Mathlib

/-!
# vmsim: page-replacement simulation engine (`os_package.c`)

A shallow embedding of the simulation core of `os_package.c` and a verification
development about it.

Modelling conventions.

* A C array obtained from `calloc(size, ...)` is a `List` whose length is the
  allocated length; the `size` fields of the structures are kept as data.
* `int` values that can be negative (page numbers, the `-1` sentinels, flags) are `Int`;
  indices and counters are `Nat`.  `trace_size` is a C `int`, so a run performs fewer
  than `2^31` accesses; the counters `hits`, `misses`, `page_faults` and the LRU ages
  are bounded by the number of accesses performed and never wrap.
* The narrowing `int page_number = trace[i].address` is `toInt32`; the comparison
  `pm->frames[i] == trace[j].address` (an `int` against an `unsigned long`) converts the
  `int` with `toUInt64`.
* Behaviour the C standard leaves undefined (a store outside an array, `% 0`, a read of
  `reference_bits[hand]` outside the array, `trace[i]` outside the trace) makes the
  model return `none`.  The scanning loops run their index below the `size` field, the
  allocated length; a read they would make outside the list counts as "no match".
* The `while (1)` loops of `clock_replace` and `second_chance_replace` are given
  `size + 1` iterations; `clock_scan_fuel` shows that a larger bound never changes a
  result, and `choose_victim_spec` that the bound is not reached in a run.
* `Event` and the list of cleared slots returned by the scans record what an access did;
  they are not program data and no program value depends on them.
-/

namespace VMSim

/-! ## Data model (lines 15-72) -/

/-- One trace record (lines 15-18).  `address` already holds the page number
    `address / PAGE_SIZE` stored by `add_trace_entry`. -/
structure TraceEntry where
  operation : Char
  address : Nat
  deriving DecidableEq, Repr

/-- One page-table entry (lines 23-28). -/
structure PageTableEntry where
  page_number : Int
  frame_number : Int
  referenced : Int
  valid : Int
  deriving DecidableEq, Repr

/-- The page table (lines 30-36). -/
structure PageTable where
  entries : List PageTableEntry
  size : Nat
  page_faults : Nat
  hits : Nat
  misses : Nat
  deriving DecidableEq, Repr

/-- Physical memory (lines 38-42). -/
structure PhysicalMemory where
  frames : List Int
  size : Nat
  next_frame : Nat
  deriving DecidableEq, Repr

/-- FIFO bookkeeping (lines 44-49). -/
structure FIFOQueue where
  pages : List Int
  frames : List Int
  size : Nat
  next_index : Nat
  deriving DecidableEq, Repr

/-- LRU bookkeeping (lines 51-56). -/
structure LRUQueue where
  pages : List Int
  frames : List Int
  ages : List Int
  size : Nat
  deriving DecidableEq, Repr

/-- Clock bookkeeping (lines 58-64). -/
structure ClockQueue where
  pages : List Int
  frames : List Int
  reference_bits : List Int
  size : Nat
  hand : Nat
  deriving DecidableEq, Repr

/-- Second-Chance bookkeeping (lines 66-72). -/
structure SecondChanceQueue where
  pages : List Int
  frames : List Int
  reference_bits : List Int
  size : Nat
  hand : Nat
  deriving DecidableEq, Repr

/-- The six objects every simulation call receives. -/
structure SimState where
  pt : PageTable
  pm : PhysicalMemory
  fifo : FIFOQueue
  lru : LRUQueue
  clock : ClockQueue
  sc : SecondChanceQueue
  deriving DecidableEq, Repr

/-! ## Machine integers -/

/-- Conversion of an `unsigned long` to `int`: the value modulo `2^32`, read in two's
    complement. -/
def toInt32 (a : Nat) : Int :=
  if a % 2 ^ 32 < 2 ^ 31 then ((a % 2 ^ 32 : Nat) : Int) else ((a % 2 ^ 32 : Nat) : Int) - 2 ^ 32

/-- Conversion of an `int` to `unsigned long` (sign extension, then modulo `2^64`). -/
def toUInt64 (x : Int) : Nat := (x % 2 ^ 64).toNat

/-! ## Array access -/

/-- The store `xs[i] = v`; `none` when `i` is outside the array. -/
def store {α : Type} (xs : List α) (i : Nat) (v : α) : Option (List α) :=
  if i < xs.length then some (xs.set i v) else none

/-- The in-place update `xs[i] = f xs[i]` at an index the enclosing loop has just read. -/
def upd {α : Type} (xs : List α) (i : Nat) (f : α → α) : List α :=
  match xs[i]? with
  | some x => xs.set i (f x)
  | none => xs

/-- A `for (j = start; j < start + n; j++) if (p j) break;` loop: the value of `j` at the
    `break`, or `none` when the loop runs to its end. -/
def find_from (p : Nat → Bool) : Nat → Nat → Option Nat
  | 0, _ => none
  | n + 1, j => if p j then some j else find_from p n (j + 1)

/-! ## Construction (lines 237-317) -/

/-- The entry written by the initialisation loop of `create_page_table`. -/
def empty_entry : PageTableEntry :=
  { page_number := -1, frame_number := -1, referenced := 0, valid := 0 }

/-- Lines 237-251. -/
def create_page_table (size : Nat) : PageTable :=
  { entries := List.replicate size empty_entry, size := size,
    page_faults := 0, hits := 0, misses := 0 }

/-- Lines 253-260. -/
def create_physical_memory (size : Nat) : PhysicalMemory :=
  { frames := List.replicate size (-1), size := size, next_frame := 0 }

/-- Lines 262-273. -/
def create_fifo_queue (size : Nat) : FIFOQueue :=
  { pages := List.replicate size (-1), frames := List.replicate size (-1),
    size := size, next_index := 0 }

/-- Lines 275-287. -/
def create_lru_queue (size : Nat) : LRUQueue :=
  { pages := List.replicate size (-1), frames := List.replicate size (-1),
    ages := List.replicate size 0, size := size }

/-- Lines 289-302. -/
def create_clock_queue (size : Nat) : ClockQueue :=
  { pages := List.replicate size (-1), frames := List.replicate size (-1),
    reference_bits := List.replicate size 0, size := size, hand := 0 }

/-- Lines 304-317. -/
def create_second_chance_queue (size : Nat) : SecondChanceQueue :=
  { pages := List.replicate size (-1), frames := List.replicate size (-1),
    reference_bits := List.replicate size 0, size := size, hand := 0 }

/-- The state `main` builds before each pass (lines 130-135 and 151-156). -/
def fresh (num_frames : Nat) : SimState :=
  { pt := create_page_table num_frames, pm := create_physical_memory num_frames,
    fifo := create_fifo_queue num_frames, lru := create_lru_queue num_frames,
    clock := create_clock_queue num_frames, sc := create_second_chance_queue num_frames }

/-! ## Victim selection (lines 356-420) -/

/-- Lines 356-360.  `% fifo->size` with `size == 0` is undefined. -/
def fifo_replace (fifo : FIFOQueue) : Option (Nat × FIFOQueue) :=
  if fifo.size = 0 then none
  else some (fifo.next_index, { fifo with next_index := (fifo.next_index + 1) % fifo.size })

/-- The loop of `lru_replace` (lines 365-370): `n` iterations remain, `i` is the loop
    variable, `oldest_age` and `replaced_index` the two locals. -/
def lru_scan (ages : List Int) : Nat → Nat → Int → Nat → Nat
  | 0, _, _, replaced_index => replaced_index
  | n + 1, i, oldest_age, replaced_index =>
    match ages[i]? with
    | some a =>
      if a > oldest_age then lru_scan ages n (i + 1) a i
      else lru_scan ages n (i + 1) oldest_age replaced_index
    | none => lru_scan ages n (i + 1) oldest_age replaced_index

/-- Lines 362-372. -/
def lru_replace (lru : LRUQueue) : Nat :=
  lru_scan lru.ages lru.size 0 (-1) 0

/-- The `while (1)` loop of `clock_replace` (lines 375-384).  The first argument bounds
    the number of iterations (`none` when it is used up, and when `reference_bits[hand]`
    lies outside the array or `size` is 0).  The results are the returned index, the
    slots whose bit the `else` branch cleared (in order: not program data, kept for the
    statements about the scan) and the queue on return. -/
def clock_scan : Nat → ClockQueue → Option (Nat × List Nat × ClockQueue)
  | 0, _ => none
  | fuel + 1, clock =>
    match clock.reference_bits[clock.hand]? with
    | none => none
    | some b =>
      if clock.size = 0 then none
      else if b = 0 then
        some (clock.hand, [], { clock with hand := (clock.hand + 1) % clock.size })
      else
        match clock_scan fuel { clock with
            reference_bits := clock.reference_bits.set clock.hand 0,
            hand := (clock.hand + 1) % clock.size } with
        | some (victim, cleared, clock1) => some (victim, clock.hand :: cleared, clock1)
        | none => none

/-- Lines 374-385.  The loop is given `size + 1` iterations; `clock_scan_fuel` shows
    that more iterations never change a result. -/
def clock_replace (clock : ClockQueue) : Option (Nat × List Nat × ClockQueue) :=
  clock_scan (clock.size + 1) clock

/-- The `while (1)` loop of `second_chance_replace` (lines 388-397), as `clock_scan`. -/
def second_chance_scan : Nat → SecondChanceQueue → Option (Nat × List Nat × SecondChanceQueue)
  | 0, _ => none
  | fuel + 1, sc =>
    match sc.reference_bits[sc.hand]? with
    | none => none
    | some b =>
      if sc.size = 0 then none
      else if b = 0 then
        some (sc.hand, [], { sc with hand := (sc.hand + 1) % sc.size })
      else
        match second_chance_scan fuel { sc with
            reference_bits := sc.reference_bits.set sc.hand 0,
            hand := (sc.hand + 1) % sc.size } with
        | some (victim, cleared, sc1) => some (victim, sc.hand :: cleared, sc1)
        | none => none

/-- Lines 387-398. -/
def second_chance_replace (sc : SecondChanceQueue) :
    Option (Nat × List Nat × SecondChanceQueue) :=
  second_chance_scan (sc.size + 1) sc

/-- The test of line 407 for frame `i` and trace position `j`. -/
def min_match (tr : List TraceEntry) (frames : List Int) (i j : Nat) : Bool :=
  match frames[i]?, tr[j]? with
  | some f, some t => toUInt64 f == t.address
  | _, _ => false

/-- The inner loop of `min_replace` (lines 406-414): the `j` at which it breaks. -/
def min_next_use (tr : List TraceEntry) (trace_size current_index : Nat)
    (frames : List Int) (i : Nat) : Option Nat :=
  find_from (min_match tr frames i) (trace_size - current_index) current_index

/-- The outer loop of `min_replace` (lines 404-419): `n` iterations remain, `i` is the
    loop variable, `farthest` and `replaced_index` the two locals.  When the inner loop
    ends without `break`, `j` is `trace_size` unless the loop started beyond it. -/
def min_scan (tr : List TraceEntry) (trace_size current_index : Nat) (frames : List Int) :
    Nat → Nat → Nat → Int → Nat
  | 0, _, _, replaced_index => if replaced_index = -1 then 0 else replaced_index.toNat
  | n + 1, i, farthest, replaced_index =>
    match min_next_use tr trace_size current_index frames i with
    | none =>
      if current_index ≤ trace_size then i
      else min_scan tr trace_size current_index frames n (i + 1) farthest replaced_index
    | some j =>
      if j > farthest then min_scan tr trace_size current_index frames n (i + 1) j i
      else min_scan tr trace_size current_index frames n (i + 1) farthest replaced_index

/-- Lines 400-420. -/
def min_replace (tr : List TraceEntry) (trace_size current_index : Nat)
    (_pt : PageTable) (pm : PhysicalMemory) : Nat :=
  min_scan tr trace_size current_index pm.frames pm.size 0 current_index (-1)


/-! ## The simulation (lines 422-557) -/

/-- What one access did: which branch of the loop body ran.  Not program data. -/
inductive Event where
  /-- Lines 429-436: entry `j` matched. -/
  | hit (page_number : Int) (j : Nat)
  /-- Line 445: a free frame was taken. -/
  | fill (page_number : Int) (frame_number : Nat)
  /-- Lines 447-459: `frame_number` came from a `*_replace` call; `removed` is the
      page number of the entry the invalidation loop cleared, `cleared` the slots whose
      reference bit the scan of Second-Chance or Clock cleared. -/
  | evict (page_number : Int) (frame_number : Nat) (removed : Option Int) (cleared : List Nat)
  deriving DecidableEq, Repr

/-- The test of lines 429 and 498 on entry `j`. -/
def page_test (entries : List PageTableEntry) (page_number : Int) (j : Nat) : Bool :=
  match entries[j]? with
  | some e => e.valid != 0 && e.page_number == page_number
  | none => false

/-- The test of lines 455 and 524 on entry `j`. -/
def frame_test (entries : List PageTableEntry) (frame_number : Int) (j : Nat) : Bool :=
  match entries[j]? with
  | some e => e.valid != 0 && e.frame_number == frame_number
  | none => false

/-- The lookup loop (lines 428-437): the index `j` at the `break`. -/
def lookup (pt : PageTable) (page_number : Int) : Option Nat :=
  find_from (page_test pt.entries page_number) pt.size 0

/-- The `switch` of lines 447-453.  With `algorithm` outside 0..4 no case runs,
    `frame_number` stays `-1` and the stores of lines 462-466 are out of bounds. -/
def choose_victim (algorithm : Nat) (tr : List TraceEntry) (trace_size i : Nat)
    (s : SimState) : Option (Nat × List Nat × SimState) :=
  match algorithm with
  | 0 =>
    match fifo_replace s.fifo with
    | some (frame_number, fifo) => some (frame_number, [], { s with fifo := fifo })
    | none => none
  | 1 => some (lru_replace s.lru, [], s)
  | 2 => some (min_replace tr trace_size i s.pt s.pm, [], s)
  | 3 =>
    match second_chance_replace s.sc with
    | some (frame_number, cleared, sc) => some (frame_number, cleared, { s with sc := sc })
    | none => none
  | 4 =>
    match clock_replace s.clock with
    | some (frame_number, cleared, clock) =>
      some (frame_number, cleared, { s with clock := clock })
    | none => none
  | _ => none

/-- The loop of lines 454-459: the index `j` at the `break`. -/
def owner (pt : PageTable) (frame_number : Nat) : Option Nat :=
  find_from (frame_test pt.entries (frame_number : Int)) pt.size 0

/-- Lines 454-459. -/
def invalidate (pt : PageTable) (frame_number : Nat) : PageTable :=
  match owner pt frame_number with
  | some j => { pt with entries := upd pt.entries j (fun e => { e with valid := 0 }) }
  | none => pt

/-- Lines 462-466. -/
def install (s : SimState) (frame_number : Nat) (page_number : Int) : Option SimState :=
  match store s.pt.entries frame_number
      { page_number := page_number, frame_number := (frame_number : Int),
        referenced := 1, valid := 1 },
    store s.pm.frames frame_number page_number with
  | some entries, some frames =>
    some { s with pt := { s.pt with entries := entries }, pm := { s.pm with frames := frames } }
  | _, _ => none

/-- The ageing loop of lines 476-478 (the same text at 544-546): `n` iterations remain,
    `j` is the loop variable. -/
def age_all (frames : List Int) : Nat → Nat → List Int → List Int
  | 0, _, ages => ages
  | n + 1, j, ages =>
    match frames[j]? with
    | some f =>
      if f != -1 then age_all frames n (j + 1) (upd ages j (fun a => a + 1))
      else age_all frames n (j + 1) ages
    | none => age_all frames n (j + 1) ages

/-- Lines 469-487. -/
def record_install (algorithm : Nat) (s : SimState) (frame_number : Nat) (page_number : Int) :
    Option SimState :=
  if algorithm = 0 then
    match store s.fifo.pages frame_number page_number,
      store s.fifo.frames frame_number (frame_number : Int) with
    | some pages, some frames =>
      some { s with fifo := { s.fifo with pages := pages, frames := frames } }
    | _, _ => none
  else if algorithm = 1 then
    match store s.lru.pages frame_number page_number,
      store s.lru.frames frame_number (frame_number : Int),
      store s.lru.ages frame_number 0 with
    | some pages, some frames, some ages =>
      some { s with lru := { s.lru with
        pages := pages, frames := frames, ages := age_all frames s.lru.size 0 ages } }
    | _, _, _ => none
  else if algorithm = 3 then
    match store s.sc.pages frame_number page_number,
      store s.sc.frames frame_number (frame_number : Int),
      store s.sc.reference_bits frame_number 1 with
    | some pages, some frames, some bits =>
      some { s with sc := { s.sc with pages := pages, frames := frames, reference_bits := bits } }
    | _, _, _ => none
  else if algorithm = 4 then
    match store s.clock.pages frame_number page_number,
      store s.clock.frames frame_number (frame_number : Int),
      store s.clock.reference_bits frame_number 1 with
    | some pages, some frames, some bits =>
      some { s with clock := { s.clock with
        pages := pages, frames := frames, reference_bits := bits } }
    | _, _, _ => none
  else some s

/-- The body of the `for` loop of `simulate_virtual_memory` (lines 424-488) for loop
    variable `i`. -/
def access (algorithm : Nat) (tr : List TraceEntry) (trace_size i : Nat) (s : SimState) :
    Option (Event × SimState) :=
  match tr[i]? with
  | none => none
  | some t =>
    let page_number := toInt32 t.address
    match lookup s.pt page_number with
    | some j =>
      some (Event.hit page_number j,
        { s with pt := { s.pt with
            entries := upd s.pt.entries j (fun e => { e with referenced := 1 }),
            hits := s.pt.hits + 1 } })
    | none =>
      let s1 := { s with pt := { s.pt with
        misses := s.pt.misses + 1, page_faults := s.pt.page_faults + 1 } }
      if s1.pm.next_frame < s1.pm.size then
        let frame_number := s1.pm.next_frame
        let s2 := { s1 with pm := { s1.pm with next_frame := s1.pm.next_frame + 1 } }
        match install s2 frame_number page_number with
        | none => none
        | some s3 =>
          match record_install algorithm s3 frame_number page_number with
          | none => none
          | some s4 => some (Event.fill page_number frame_number, s4)
      else
        match choose_victim algorithm tr trace_size i s1 with
        | none => none
        | some (frame_number, cleared, s2) =>
          let removed := (owner s2.pt frame_number).bind
            (fun j => (s2.pt.entries[j]?).map (fun e => e.page_number))
          match install { s2 with pt := invalidate s2.pt frame_number }
              frame_number page_number with
          | none => none
          | some s3 =>
            match record_install algorithm s3 frame_number page_number with
            | none => none
            | some s4 => some (Event.evict page_number frame_number removed cleared, s4)

/-- The `for` loop of `simulate_virtual_memory` (line 423) with `n` iterations remaining
    and loop variable `i`; the events of the accesses are collected in order. -/
def simulate_from (algorithm : Nat) (tr : List TraceEntry) (trace_size : Nat) :
    Nat → Nat → SimState → Option (List Event × SimState)
  | 0, _, s => some ([], s)
  | n + 1, i, s =>
    match access algorithm tr trace_size i s with
    | none => none
    | some (e, s1) =>
      match simulate_from algorithm tr trace_size n (i + 1) s1 with
      | none => none
      | some (es, s2) => some (e :: es, s2)

/-- Lines 422-490 together with the events of the run. -/
def simulate_virtual_memory_log (s : SimState) (algorithm : Nat) (tr : List TraceEntry)
    (trace_size : Nat) : Option (List Event × SimState) :=
  simulate_from algorithm tr trace_size trace_size 0 s

/-- Lines 422-490: the state the call leaves behind. -/
def simulate_virtual_memory (s : SimState) (algorithm : Nat) (tr : List TraceEntry)
    (trace_size : Nat) : Option SimState :=
  (simulate_virtual_memory_log s algorithm tr trace_size).map (fun r => r.2)

/-- Build a trace of loads from page numbers. -/
def loads (pages : List Nat) : List TraceEntry :=
  pages.map (fun p => { operation := 'l', address := p })

/-- Lines 492-557, written out as in the source: one access, `trace[step]`.  The
    argument `trace_size` is the global of line 21, which line 519 hands to
    `min_replace`. -/
def simulate_virtual_memory_step (s : SimState) (algorithm : Nat) (tr : List TraceEntry)
    (trace_size step : Nat) : Option SimState :=
  match tr[step]? with
  | none => none
  | some t =>
    let page_number := toInt32 t.address
    -- lines 496-506
    match find_from (page_test s.pt.entries page_number) s.pt.size 0 with
    | some j =>
      some { s with pt := { s.pt with
        entries := upd s.pt.entries j (fun e => { e with referenced := 1 }),
        hits := s.pt.hits + 1 } }
    | none =>
      -- lines 509-510
      let pt1 : PageTable := { s.pt with
        misses := s.pt.misses + 1, page_faults := s.pt.page_faults + 1 }
      -- lines 513-529
      let placed : Option (Nat × SimState) :=
        if s.pm.next_frame < s.pm.size then
          some (s.pm.next_frame,
            { s with pt := pt1, pm := { s.pm with next_frame := s.pm.next_frame + 1 } })
        else
          let chosen : Option (Nat × SimState) :=
            match algorithm with
            | 0 => (fifo_replace s.fifo).map (fun r => (r.1, { s with pt := pt1, fifo := r.2 }))
            | 1 => some (lru_replace s.lru, { s with pt := pt1 })
            | 2 => some (min_replace tr trace_size step pt1 s.pm, { s with pt := pt1 })
            | 3 => (second_chance_replace s.sc).map
                (fun r => (r.1, { s with pt := pt1, sc := r.2.2 }))
            | 4 => (clock_replace s.clock).map
                (fun r => (r.1, { s with pt := pt1, clock := r.2.2 }))
            | _ => none
          chosen.map (fun r =>
            match find_from (frame_test r.2.pt.entries (r.1 : Int)) r.2.pt.size 0 with
            | some j =>
              (r.1, { r.2 with pt := { r.2.pt with
                entries := upd r.2.pt.entries j (fun e => { e with valid := 0 }) } })
            | none => r)
      match placed with
      | none => none
      | some (frame_number, s2) =>
        -- lines 531-535
        match store s2.pt.entries frame_number
            { page_number := page_number, frame_number := (frame_number : Int),
              referenced := 1, valid := 1 },
          store s2.pm.frames frame_number page_number with
        | some entries, some frames =>
          let s3 : SimState := { s2 with
            pt := { s2.pt with entries := entries }, pm := { s2.pm with frames := frames } }
          -- lines 537-555
          if algorithm = 0 then
            match store s3.fifo.pages frame_number page_number,
              store s3.fifo.frames frame_number (frame_number : Int) with
            | some pages, some qframes =>
              some { s3 with fifo := { s3.fifo with pages := pages, frames := qframes } }
            | _, _ => none
          else if algorithm = 1 then
            match store s3.lru.pages frame_number page_number,
              store s3.lru.frames frame_number (frame_number : Int),
              store s3.lru.ages frame_number 0 with
            | some pages, some qframes, some ages =>
              some { s3 with lru := { s3.lru with
                pages := pages, frames := qframes,
                ages := age_all qframes s3.lru.size 0 ages } }
            | _, _, _ => none
          else if algorithm = 3 then
            match store s3.sc.pages frame_number page_number,
              store s3.sc.frames frame_number (frame_number : Int),
              store s3.sc.reference_bits frame_number 1 with
            | some pages, some qframes, some bits =>
              some { s3 with sc := { s3.sc with
                pages := pages, frames := qframes, reference_bits := bits } }
            | _, _, _ => none
          else if algorithm = 4 then
            match store s3.clock.pages frame_number page_number,
              store s3.clock.frames frame_number (frame_number : Int),
              store s3.clock.reference_bits frame_number 1 with
            | some pages, some qframes, some bits =>
              some { s3 with clock := { s3.clock with
                pages := pages, frames := qframes, reference_bits := bits } }
            | _, _, _ => none
          else some s3
        | _, _ => none

/-- The driver loop `for step = start, ..., start + n - 1` calling
    `simulate_virtual_memory_step` once per step. -/
def run_steps (algorithm : Nat) (tr : List TraceEntry) (trace_size : Nat) :
    Nat → Nat → SimState → Option SimState
  | 0, _, s => some s
  | n + 1, step, s =>
    match simulate_virtual_memory_step s algorithm tr trace_size step with
    | none => none
    | some s1 => run_steps algorithm tr trace_size n (step + 1) s1

/-! ## Correspondence of the two hand-scanning queues -/

/-- A Second-Chance queue read as a Clock queue (the two structures have the same fields). -/
def sc_as_clock (sc : SecondChanceQueue) : ClockQueue :=
  { pages := sc.pages, frames := sc.frames, reference_bits := sc.reference_bits,
    size := sc.size, hand := sc.hand }

/-- A Clock queue read as a Second-Chance queue. -/
def clock_as_sc (clock : ClockQueue) : SecondChanceQueue :=
  { pages := clock.pages, frames := clock.frames, reference_bits := clock.reference_bits,
    size := clock.size, hand := clock.hand }


/-! ## Invariant of the reachable states -/

/-- Shape of the reference bits and hand of the queue the run uses (Second-Chance or
    Clock) when `next_frame` frames have been handed out: the bits are 1 on the slots
    below some `h` and 0 from `h` on; while frames are free `h` is `next_frame` and the
    hand rests at 0, afterwards the hand is `h % N`. -/
def ring (N next_frame : Nat) (bits : List Int) (hand : Nat) : Prop :=
  ∃ h, h ≤ N ∧ (∀ j, j < N → bits[j]? = some (if j < h then 1 else 0)) ∧
    (if next_frame < N then h = next_frame ∧ hand = 0 else 1 ≤ h ∧ hand = h % N)

/-- Sizes and array lengths of a state built for `N` frames, with the FIFO cursor in
    range and the LRU ages non-negative. -/
structure Shape (N : Nat) (s : SimState) : Prop where
  pt_size : s.pt.size = N
  pt_len : s.pt.entries.length = N
  pm_size : s.pm.size = N
  pm_len : s.pm.frames.length = N
  fifo_size : s.fifo.size = N
  fifo_pages : s.fifo.pages.length = N
  fifo_frames : s.fifo.frames.length = N
  fifo_next : s.fifo.next_index < N
  lru_size : s.lru.size = N
  lru_pages : s.lru.pages.length = N
  lru_frames : s.lru.frames.length = N
  lru_ages : s.lru.ages.length = N
  lru_nonneg : ∀ a, a ∈ s.lru.ages → 0 ≤ a
  clock_size : s.clock.size = N
  clock_pages : s.clock.pages.length = N
  clock_frames : s.clock.frames.length = N
  clock_bits : s.clock.reference_bits.length = N
  sc_size : s.sc.size = N
  sc_pages : s.sc.pages.length = N
  sc_frames : s.sc.frames.length = N
  sc_bits : s.sc.reference_bits.length = N

/-- The invariant of a run with `N` frames under policy `algorithm`. -/
structure Inv (N algorithm : Nat) (s : SimState) : Prop where
  shape : Shape N s
  next_le : s.pm.next_frame ≤ N
  faults : s.pt.misses = s.pt.page_faults
  resident : ∀ i e, s.pt.entries[i]? = some e → i < s.pm.next_frame →
    e.valid = 1 ∧ e.frame_number = (i : Int) ∧ s.pm.frames[i]? = some e.page_number
  vacant : ∀ i e, s.pt.entries[i]? = some e → s.pm.next_frame ≤ i →
    e.valid = 0 ∧ s.pm.frames[i]? = some (-1)
  clock_ring : algorithm = 4 → ring N s.pm.next_frame s.clock.reference_bits s.clock.hand
  sc_ring : algorithm = 3 → ring N s.pm.next_frame s.sc.reference_bits s.sc.hand

/-- The state after a miss has been placed in frame `frame_number` (lines 440-466),
    before the bookkeeping of the policy. -/
def miss_state (s : SimState) (frame_number : Nat) (page_number : Int) (next_frame : Nat) :
    SimState :=
  { s with
    pt := { s.pt with
      entries := s.pt.entries.set frame_number
        { page_number := page_number, frame_number := (frame_number : Int),
          referenced := 1, valid := 1 },
      misses := s.pt.misses + 1, page_faults := s.pt.page_faults + 1 },
    pm := { s.pm with
      frames := s.pm.frames.set frame_number page_number, next_frame := next_frame } }

/-- The three ways an access at index `i` can take state `s` to `s1` with event `e`:
    a hit on entry `j`, a miss placed in the next free frame, or a miss placed in the
    frame a `*_replace` call returned. -/
def Stepped (N algorithm : Nat) (tr : List TraceEntry) (trace_size i : Nat) (s : SimState)
    (e : Event) (s1 : SimState) : Prop :=
  ∃ t, tr[i]? = some t ∧
    ((∃ j, lookup s.pt (toInt32 t.address) = some j ∧ e = Event.hit (toInt32 t.address) j ∧
        s1 = { s with pt := { s.pt with
          entries := upd s.pt.entries j (fun x => { x with referenced := 1 }),
          hits := s.pt.hits + 1 } }) ∨
     (lookup s.pt (toInt32 t.address) = none ∧ s.pm.next_frame < N ∧
        e = Event.fill (toInt32 t.address) s.pm.next_frame ∧
        record_install algorithm
          (miss_state s s.pm.next_frame (toInt32 t.address) (s.pm.next_frame + 1))
          s.pm.next_frame (toInt32 t.address) = some s1) ∨
     (lookup s.pt (toInt32 t.address) = none ∧ s.pm.next_frame = N ∧
        ∃ v cl s2 e0, choose_victim algorithm tr trace_size i s = some (v, cl, s2) ∧ v < N ∧
          s.pt.entries[v]? = some e0 ∧
          e = Event.evict (toInt32 t.address) v (some e0.page_number) cl ∧
          record_install algorithm (miss_state s2 v (toInt32 t.address) N) v
            (toInt32 t.address) = some s1))

/-- Whether the access called a `*_replace` function (line 447-453). -/
def Event.is_evict : Event → Bool
  | Event.evict _ _ _ _ => true
  | _ => false

/-- The page number the loop body works with at a trace record (lines 424 and 493). -/
def page_of (t : TraceEntry) : Int := toInt32 t.address

/-- Along a run in which every access so far was a hit or a free-frame fill, the frames
    handed out hold exactly the distinct page numbers seen. -/
def Filling (tr : List TraceEntry) (i : Nat) (es : List Event) (s : SimState) : Prop :=
  (∀ e, e ∈ es → e.is_evict = false) ∧
  s.pm.next_frame = ((tr.take i).map page_of).toFinset.card ∧
  (∀ p, p ∈ (tr.take i).map page_of ↔ ∃ j, j < s.pm.next_frame ∧ s.pm.frames[j]? = some p) ∧
  s.pt.page_faults = s.pm.next_frame


/-- The evictions of a run in order: the frame reused and the page number removed. -/
def evictions : List Event → List (Nat × Option Int)
  | [] => []
  | Event.evict _ frame_number removed _ :: es => (frame_number, removed) :: evictions es
  | _ :: es => evictions es

/-- Eviction order equals visitation order: the `(k+1)`-th eviction reuses frame `k % N`
    and removes the page of `trace[k]`, for every `k < length - N`. -/
def FifoOrder (N : Nat) (tr : List TraceEntry) (es : List Event) : Prop :=
  evictions es = (List.range (tr.length - N)).map (fun k => (k % N, (tr[k]?).map page_of))

/-- State of a FIFO run over a trace without repeated pages after `i` accesses. -/
def FifoRun (N : Nat) (tr : List TraceEntry) (i : Nat) (es : List Event) (s : SimState) :
    Prop :=
  evictions es = (List.range (i - N)).map (fun k => (k % N, (tr[k]?).map page_of)) ∧
  s.pm.next_frame = min i N ∧
  s.fifo.next_index = (i - N) % N ∧
  (∀ k, k < i → i ≤ k + N → s.pm.frames[k % N]? = (tr[k]?).map page_of) ∧
  (∀ j, j < s.pm.next_frame → ∃ k, k < i ∧ s.pm.frames[j]? = (tr[k]?).map page_of)

/-- Frame `r` is the lowest-indexed frame among those whose age is greatest. -/
def FirstOldest (ages : List Int) (r : Nat) : Prop :=
  ∃ o : Int, ages[r]? = some o ∧ (∀ (j : Nat) (a : Int), ages[j]? = some a → a ≤ o) ∧
    (∀ (j : Nat) (a : Int), j < r → ages[j]? = some a → a < o)

/-! ## The farthest-next-use rule, in the words of the specification -/

/-- Page `p` is the page of trace record `j`. -/
def occurs_at (tr : List TraceEntry) (p : Int) (j : Nat) : Prop :=
  ∃ t, tr[j]? = some t ∧ (t.address : Int) = p

/-- Index `j` is the first occurrence of page `p` at or after index `i`. -/
def first_use (tr : List TraceEntry) (i : Nat) (p : Int) (j : Nat) : Prop :=
  i ≤ j ∧ occurs_at tr p j ∧ ∀ m, i ≤ m → m < j → ¬ occurs_at tr p m

/-- Page `p` does not occur at or after index `i`. -/
def never_used (tr : List TraceEntry) (i : Nat) (p : Int) : Prop :=
  ∀ j, i ≤ j → ¬ occurs_at tr p j

/-- Frame `r` is the victim of the rule: the lowest frame whose page is never used again
    if there is one, otherwise the frame whose page is used again last. -/
def MinVictim (tr : List TraceEntry) (i : Nat) (frames : List Int) (r : Nat) : Prop :=
  ∃ pr : Int, frames[r]? = some pr ∧
    ((never_used tr i pr ∧
        ∀ (g : Nat) (pg : Int), g < r → frames[g]? = some pg → ¬ never_used tr i pg) ∨
     ((∀ (g : Nat) (pg : Int), frames[g]? = some pg → ¬ never_used tr i pg) ∧
        ∃ jr, first_use tr i pr jr ∧
          ∀ (g : Nat) (pg : Int) (jg : Nat), g ≠ r → frames[g]? = some pg →
            first_use tr i pg jg → jg < jr))

/-! ## Events of the hand-scanning policies -/

/-- The reference bits the run's policy scans: those of the Second-Chance queue under
    algorithm 3, those of the Clock queue otherwise. -/
def policy_bits (algorithm : Nat) (s : SimState) : List Int :=
  if algorithm = 3 then s.sc.reference_bits else s.clock.reference_bits

/-- The hand of the run's policy. -/
def policy_hand (algorithm : Nat) (s : SimState) : Nat :=
  if algorithm = 3 then s.sc.hand else s.clock.hand

/-- The access installed a page into frame `f`. -/
def Event.installs (e : Event) (f : Nat) : Bool :=
  match e with
  | Event.hit _ _ => false
  | Event.fill _ g => g == f
  | Event.evict _ g _ _ => g == f

/-- The access got frame `f` back from the replace call as the victim. -/
def Event.victim (e : Event) (f : Nat) : Bool :=
  match e with
  | Event.evict _ g _ _ => g == f
  | _ => false

/-- How many times the scan of the access cleared the reference bit of frame `f`. -/
def Event.clears (e : Event) (f : Nat) : Nat :=
  match e with
  | Event.evict _ _ _ cleared => cleared.count f
  | _ => 0

/-- Clears of the bit of frame `f` over a stretch of events. -/
def clears (f : Nat) (es : List Event) : Nat :=
  (es.map (fun e => e.clears f)).sum

/-- Clears of the bit of frame `f` since the last install into `f`. -/
def pending (f : Nat) (es : List Event) : Nat :=
  es.foldl (fun c e => if e.installs f then 0 else c + e.clears f) 0

/-- Every frame returned as a victim has had its bit cleared exactly once since the
    install before: for every way of cutting the events into an install into `f`, a
    stretch without install into `f`, and an access whose victim is `f`. -/
def ClearedOnce (es : List Event) : Prop :=
  ∀ (pre mid post : List Event) (ea eb : Event) (f : Nat),
    es = pre ++ ea :: mid ++ eb :: post → ea.installs f = true → eb.victim f = true →
    (∀ e, e ∈ mid → e.installs f = false) →
    clears f mid + eb.clears f = 1

/-- The clears since the last install agree with the bit: none while the bit is set, one
    once it is 0. -/
def Counted (algorithm : Nat) (es : List Event) (s : SimState) : Prop :=
  ∀ (f : Nat) (b : Int), f < s.pm.next_frame → (policy_bits algorithm s)[f]? = some b →
    pending f es = (if b = 0 then 1 else 0)

/-- At every access whose victim is `f`, the clears of `f` since its last install,
    those of the access's own scan included, number one. -/
def VictimsOnce (es : List Event) : Prop :=
  ∀ (pre post : List Event) (eb : Event) (f : Nat),
    es = pre ++ eb :: post → eb.victim f = true → pending f pre + eb.clears f = 1

/-- The state with the Second-Chance and Clock queues exchanged: what a run under
    algorithm 3 keeps in `sc` a run under algorithm 4 keeps in `clock`. -/
def swap_queues (s : SimState) : SimState :=
  { s with clock := sc_as_clock s.sc, sc := clock_as_sc s.clock }

/-- At most one valid page-table entry has any given `frame_number`. -/
def OneOwner (pt : PageTable) : Prop :=
  ∀ (i j : Nat) (ei ej : PageTableEntry), pt.entries[i]? = some ei → pt.entries[j]? = some ej →
    ei.valid ≠ 0 → ej.valid ≠ 0 → ei.frame_number = ej.frame_number → i = j

/-- No valid page-table entry has `frame_number` equal to `v`. -/
def NoOwner (pt : PageTable) (v : Nat) : Prop :=
  ∀ (j : Nat) (e : PageTableEntry), pt.entries[j]? = some e → e.valid ≠ 0 →
    e.frame_number ≠ (v : Int)

/-! ## `main` (lines 99-169) -/

/-- Line 10. -/
def PAGE_SIZE : Nat := 4096

/-- Line 11: `1 << 24`. -/
def PHYSICAL_MEMORY_SIZE_24BIT : Nat := 2 ^ 24

/-- Line 12: `1 << 20`. -/
def PHYSICAL_MEMORY_SIZE_20BIT : Nat := 2 ^ 20

/-- Lines 100-120 of `main`: the checks on `argc` and on the two values `atoi` returned,
    and the frame count.  `none` is `return 1`; otherwise the result is `algorithm` and
    `num_frames`.  Nothing here reads the trace or builds a state. -/
def main_config (argc algorithm physical_address_bits : Int) : Option (Nat × Nat) :=
  if argc ≠ 3 then none
  else if algorithm < 0 ∨ algorithm > 4 then none
  else if physical_address_bits ≠ 20 ∧ physical_address_bits ≠ 24 then none
  else
    let physical_memory_size :=
      if physical_address_bits = 20 then PHYSICAL_MEMORY_SIZE_20BIT
      else PHYSICAL_MEMORY_SIZE_24BIT
    some (algorithm.toNat, physical_memory_size / PAGE_SIZE)

/-- How `main` ends. -/
inductive MainOutcome where
  /-- One of the `return 1` of lines 104, 110, 116 and 127. -/
  | returned (code : Nat)
  /-- The aggregate pass ran into undefined behaviour. -/
  | undefined
  /-- The aggregate pass left `pt_graph` and its queues in state `s`; lines 142-143 and
      lines 722-725 of `visualize_and_graph` divide by `total`. -/
  | reported (s : SimState) (total : Nat)
  deriving DecidableEq, Repr

/-- Lines 99-143 of `main`.  `collected` is the trace `list_processes_and_trace` leaves in
    the global `trace` (its length is `trace_size`); it is consulted only after the
    checks of `main_config` have passed. -/
def main (argc algorithm physical_address_bits : Int) (collected : List TraceEntry) :
    MainOutcome :=
  match main_config argc algorithm physical_address_bits with
  | none => MainOutcome.returned 1
  | some (alg, num_frames) =>
    if collected.length = 0 then MainOutcome.returned 1
    else
      match simulate_virtual_memory (fresh num_frames) alg collected collected.length with
      | none => MainOutcome.undefined
      | some s => MainOutcome.reported s (s.pt.hits + s.pt.misses)

/-! ## LRU bookkeeping along a run -/

/-- The test of lines 477 and 545 on slot `j`: the LRU queue has had a page put in. -/
def lru_occupied (frames : List Int) (j : Nat) : Bool :=
  match frames[j]? with
  | some f => f != -1
  | none => false

/-- In an LRU run the queue's `frames` array marks exactly the frames handed out. -/
def LruLink (N : Nat) (s : SimState) : Prop :=
  ∀ j, j < N → s.lru.frames[j]? = some (if j < s.pm.next_frame then (j : Int) else -1)

/-! ## Fill before replace -/

/-- Whether the access was a miss (lines 439-488). -/
def Event.is_miss : Event → Bool
  | Event.hit _ _ => false
  | _ => true

/-- State of a run in terms of its number of misses so far: the events agree with the
    `misses` counter, `next_frame` is that number capped at `N`, and while it is at most
    `N` the FIFO cursor and both hands are 0. -/
def FillFirst (N : Nat) (es : List Event) (s : SimState) : Prop :=
  s.pt.misses = (es.filter (fun e => e.is_miss)).length ∧
  s.pm.next_frame = min s.pt.misses N ∧
  (s.pt.misses ≤ N → s.fifo.next_index = 0 ∧ s.sc.hand = 0 ∧ s.clock.hand = 0)

/-! ## One revolution of the hand -/

/-- The `k` slots the hand passes over from `hand`, in circular order. -/
def passed (size hand k : Nat) : List Nat :=
  (List.range k).map (fun m => (hand + m) % size)

/-- The bits after the slots of `l` have been cleared. -/
def clear_all (bits : List Int) (l : List Nat) : List Int :=
  l.foldl (fun b j => b.set j 0) bits

/-- The queue after the hand has passed over `k` slots. -/
def pass_over (q : ClockQueue) (k : Nat) : ClockQueue :=
  ⟨q.pages, q.frames, clear_all q.reference_bits (passed q.size q.hand k), q.size,
    (q.hand + k) % q.size⟩


/-! ## The step-instrumented pass as the display drives it (lines 639-716) -/

/-- One step of the display loop (lines 640-671, the same text at 685-714): the lookup
    of lines 644-650, the `*_replace` call of lines 654-665 that picks the frame to
    highlight, then `simulate_virtual_memory_step`.  With `algorithm` outside 0..4 no
    case of the `switch` runs. -/
def visualize_step (s : SimState) (algorithm : Nat) (tr : List TraceEntry)
    (trace_size step : Nat) : Option SimState :=
  match tr[step]? with
  | none => none
  | some t =>
    let page_number := toInt32 t.address
    let found := (find_from (page_test s.pt.entries page_number) s.pt.size 0).isSome
    let highlighted : Option SimState :=
      if !found && decide (s.pm.size ≤ s.pm.next_frame) then
        match algorithm with
        | 0 => (fifo_replace s.fifo).map (fun r => { s with fifo := r.2 })
        | 1 => some s
        | 2 => some s
        | 3 => (second_chance_replace s.sc).map (fun r => { s with sc := r.2.2 })
        | 4 => (clock_replace s.clock).map (fun r => { s with clock := r.2.2 })
        | _ => some s
      else some s
    match highlighted with
    | none => none
    | some s1 => simulate_virtual_memory_step s1 algorithm tr trace_size step

/-- The display loop run for `n` steps from step counter `step` (the guard
    `step < trace_size` of lines 639 and 684 holds for each of them). -/
def visualize_run (algorithm : Nat) (tr : List TraceEntry) (trace_size : Nat) :
    Nat → Nat → SimState → Option SimState
  | 0, _, s => some s
  | n + 1, step, s =>
    match visualize_step s algorithm tr trace_size step with
    | none => none
    | some s1 => visualize_run algorithm tr trace_size n (step + 1) s1

/-- The counters a pass ends with: hits, misses, page faults. -/
def counters (s : SimState) : Nat × Nat × Nat :=
  (s.pt.hits, s.pt.misses, s.pt.page_faults)

/-! ## The cyclic order of victims -/

/-- The decision of an access: its event without the list of cleared bits. -/
def Event.decision : Event → Event
  | Event.evict p f r _ => Event.evict p f r []
  | e => e

/-- The LRU ages when `next_frame` frames are in use and `c` is the frame installed
    longest ago: counting from `c` in circular order the ages go down from `next_frame`
    to 1; a free frame has age 0. -/
def AgeOrder (N next_frame c : Nat) (ages : List Int) : Prop :=
  ∀ j, j < N → ages[j]? = some
    (if j < next_frame then (if c ≤ j then (next_frame : Int) - j + c else (c : Int) - j)
     else 0)

/-- Frame `c` is next in the cyclic order, as the queue of the run's policy holds it:
    the FIFO cursor, the frame of greatest LRU age, the Second-Chance or Clock hand. -/
def Cursor (N algorithm : Nat) (s : SimState) (c : Nat) : Prop :=
  if algorithm = 0 then s.fifo.next_index = c
  else if algorithm = 1 then LruLink N s ∧ AgeOrder N s.pm.next_frame c s.lru.ages
  else if algorithm = 3 then s.sc.hand = c
  else s.clock.hand = c

/-- The victims of the evictions of a run are the frames `0, 1, ..., N-1, 0, 1, ...`. -/
def CyclicVictims (N : Nat) (es : List Event) : Prop :=
  (evictions es).map (fun r => r.1) = (List.range (evictions es).length).map (fun k => k % N)

/-- A run of `i` accesses under a policy, set against the FIFO run of the same accesses:
    same decisions, same page table and frames, and the policy's queue points at the
    frame of the FIFO cursor. -/
def Paired (N algorithm : Nat) (tr : List TraceEntry) (ts i : Nat) (es : List Event)
    (s : SimState) : Prop :=
  ∃ es0 f, simulate_from 0 tr ts i 0 (fresh N) = some (es0, f) ∧ Inv N 0 f ∧
    es.map Event.decision = es0 ∧ s.pt = f.pt ∧ s.pm = f.pm ∧
    Cursor N algorithm s f.fifo.next_index ∧
    (f.pm.next_frame < N → f.fifo.next_index = 0) ∧
    CyclicVictims N es0 ∧ f.fifo.next_index = (evictions es0).length % N

/-! ## No page resident twice -/

/-- Any two valid page-table entries with the same `page_number` are the same entry. -/
def NoTwice (pt : PageTable) : Prop :=
  ∀ (i j : Nat) (ei ej : PageTableEntry), pt.entries[i]? = some ei → pt.entries[j]? = some ej →
    ei.valid ≠ 0 → ej.valid ≠ 0 → ei.page_number = ej.page_number → i = j

/-- The frames handed out hold pairwise different page numbers. -/
def DistinctFrames (s : SimState) : Prop :=
  ∀ (i j : Nat) (p : Int), i < s.pm.next_frame → j < s.pm.next_frame →
    s.pm.frames[i]? = some p → s.pm.frames[j]? = some p → i = j

/-! ## Demand paging over sets of pages -/

/-- Serving the accesses `w` from the set `S` of resident pages of a full memory with
    `k` faults: a resident page is a hit, any other page is a fault that replaces some
    resident page `q`.  Every policy's run is such a schedule. -/
inductive Sched : Finset Int → List Int → Nat → Prop
  | done (S : Finset Int) : Sched S [] 0
  | hit {S : Finset Int} {p : Int} {w : List Int} {k : Nat} :
      p ∈ S → Sched S w k → Sched S (p :: w) k
  | evict {S : Finset Int} {p q : Int} {w : List Int} {k : Nat} :
      p ∉ S → q ∈ S → Sched (insert p (S.erase q)) w k → Sched S (p :: w) (k + 1)

/-- Page `a` is used no later than page `b` in `w`: every prefix of `w` that contains
    `b` contains `a`. -/
def NoLater (w : List Int) (a b : Int) : Prop :=
  ∀ n, b ∈ w.take n → a ∈ w.take n

/-- The frames handed out hold page numbers in `[0, 2^31)`. -/
def PagesInRange (s : SimState) : Prop :=
  ∀ (j : Nat) (p : Int), j < s.pm.next_frame → s.pm.frames[j]? = some p → 0 ≤ p ∧ p < 2 ^ 31

/-- Number of misses among the events of a run. -/
def faults (es : List Event) : Nat := (es.filter (fun e => e.is_miss)).length

/-! ## Collecting the trace (lines 171-177) -/

/-- Line 13. -/
def MAX_TRACE_ENTRIES : Nat := 1000000

/-- Lines 171-177: the global `trace` with `trace_size` entries is the list; `address`
    is an `unsigned long`. -/
def add_trace_entry (tr : List TraceEntry) (operation : Char) (address : Nat) :
    List TraceEntry :=
  if tr.length < MAX_TRACE_ENTRIES then
    tr ++ [{ operation := operation, address := address / PAGE_SIZE }]
  else tr
/-! ## Loop lemmas -/

theorem find_from_some {p : Nat → Bool} {n j k : Nat} (h : find_from p n j = some k) :
    j ≤ k ∧ k < j + n ∧ p k = true ∧ ∀ m, j ≤ m → m < k → p m = false := by
  induction n generalizing j with
  | zero => simp [find_from] at h
  | succ n ih =>
    unfold find_from at h
    by_cases hp : p j = true
    · simp only [hp, if_true, Option.some.injEq] at h
      subst h
      exact ⟨le_refl _, by omega, hp, fun m h1 h2 => by omega⟩
    · simp only [hp] at h
      obtain ⟨h1, h2, h3, h4⟩ := ih h
      refine ⟨by omega, by omega, h3, fun m hm1 hm2 => ?_⟩
      by_cases hmj : m = j
      · subst hmj; simpa using hp
      · exact h4 m (by omega) hm2

theorem find_from_none {p : Nat → Bool} {n j : Nat} (h : find_from p n j = none) :
    ∀ m, j ≤ m → m < j + n → p m = false := by
  induction n generalizing j with
  | zero => intro m h1 h2; omega
  | succ n ih =>
    unfold find_from at h
    by_cases hp : p j = true
    · simp [hp] at h
    · simp only [hp] at h
      intro m h1 h2
      by_cases hmj : m = j
      · subst hmj; simpa using hp
      · exact ih h m (by omega) (by omega)

theorem find_from_eq_some {p : Nat → Bool} {n j k : Nat} (h1 : j ≤ k) (h2 : k < j + n)
    (h3 : p k = true) (h4 : ∀ m, j ≤ m → m < k → p m = false) : find_from p n j = some k := by
  cases h : find_from p n j with
  | none => have := find_from_none h k h1 h2; simp [h3] at this
  | some k1 =>
    obtain ⟨a, b, c, d⟩ := find_from_some h
    rcases Nat.lt_trichotomy k1 k with hlt | heq | hgt
    · have := h4 k1 a hlt; simp [c] at this
    · rw [heq]
    · have := d k h1 hgt; simp [h3] at this

theorem find_from_eq_none {p : Nat → Bool} {n j : Nat}
    (h : ∀ m, j ≤ m → m < j + n → p m = false) : find_from p n j = none := by
  cases h1 : find_from p n j with
  | none => rfl
  | some k =>
    obtain ⟨a, b, c, _⟩ := find_from_some h1
    have := h k a b
    simp [c] at this

theorem second_chance_scan_eq (fuel : Nat) (sc : SecondChanceQueue) :
    second_chance_scan fuel sc =
      (clock_scan fuel (sc_as_clock sc)).map (fun r => (r.1, r.2.1, clock_as_sc r.2.2)) := by
  induction fuel generalizing sc with
  | zero => rfl
  | succ fuel ih =>
    unfold second_chance_scan clock_scan
    simp only [sc_as_clock]
    cases sc.reference_bits[sc.hand]? with
    | none => rfl
    | some b =>
      simp only
      by_cases h0 : sc.size = 0
      · simp [h0]
      · simp only [h0, if_false]
        by_cases hb : b = 0
        · simp [hb, clock_as_sc]
        · simp only [hb, if_false]
          rw [ih]
          simp only [sc_as_clock]
          cases clock_scan fuel _ with
          | none => rfl
          | some r => rfl

theorem clock_scan_now {fuel : Nat} {q : ClockQueue} (h0 : q.size ≠ 0)
    (hb : q.reference_bits[q.hand]? = some 0) :
    clock_scan (fuel + 1) q = some (q.hand, [], { q with hand := (q.hand + 1) % q.size }) := by
  unfold clock_scan
  simp [hb, h0]

/-- Once the bounded loop returns, every larger bound gives the same result: the bound
    only cuts off runs that have not returned yet. -/
theorem clock_scan_fuel :
    ∀ (fuel : Nat) (q : ClockQueue) (r : Nat × List Nat × ClockQueue),
      clock_scan fuel q = some r → ∀ fuel', fuel ≤ fuel' → clock_scan fuel' q = some r := by
  intro fuel
  induction fuel with
  | zero => intro q r h; simp [clock_scan] at h
  | succ fuel ih =>
    intro q r h fuel' hle
    obtain ⟨f, rfl⟩ : ∃ f, fuel' = f + 1 := ⟨fuel' - 1, by omega⟩
    unfold clock_scan at h ⊢
    cases hb : q.reference_bits[q.hand]? with
    | none => simp [hb] at h
    | some b =>
      simp only [hb] at h ⊢
      by_cases h0 : q.size = 0
      · simp [h0] at h
      · simp only [h0, if_false] at h ⊢
        by_cases hb0 : b = 0
        · simp only [hb0, if_true] at h ⊢
          exact h
        · simp only [hb0, if_false] at h ⊢
          cases hrec : clock_scan fuel
              { q with reference_bits := q.reference_bits.set q.hand 0,
                       hand := (q.hand + 1) % q.size } with
          | none => simp [hrec] at h
          | some r1 =>
            rw [hrec] at h
            rw [ih _ r1 hrec f (by omega)]
            exact h

theorem clock_scan_sweep (N : Nat) (hN : 0 < N) :
    ∀ (m k : Nat) (q : ClockQueue), k + m = N → q.size = N → q.reference_bits.length = N →
      q.hand = k % N → (∀ j, j < k → q.reference_bits[j]? = some 0) →
      (∀ j, k ≤ j → j < N → q.reference_bits[j]? = some 1) →
      ∀ fuel, m + 1 ≤ fuel →
      clock_scan fuel q = some (0, List.range' k m,
        { q with reference_bits := List.replicate N 0, hand := 1 % N }) := by
  intro m
  induction m with
  | zero =>
    intro k q hk hs hl hh hz _ fuel hf
    obtain ⟨f, rfl⟩ : ∃ f, fuel = f + 1 := ⟨fuel - 1, by omega⟩
    have hkN : k = N := by omega
    subst hkN
    have hh0 : q.hand = 0 := by simpa using hh
    have hbits : q.reference_bits = List.replicate k 0 := by
      apply List.ext_getElem?
      intro n
      by_cases hn : n < k
      · rw [hz n hn]; simp [List.getElem?_replicate, hn]
      · rw [List.getElem?_eq_none (by omega)]; simp [List.getElem?_replicate, hn]
    rw [clock_scan_now (by omega) (by rw [hh0]; exact hz 0 hN)]
    simp [hh0, hs, ← hbits]
  | succ m ih =>
    intro k q hk hs hl hh hz ho fuel hf
    obtain ⟨f, rfl⟩ : ∃ f, fuel = f + 1 := ⟨fuel - 1, by omega⟩
    have hkN : k < N := by omega
    have hhk : q.hand = k := by rw [hh]; exact Nat.mod_eq_of_lt hkN
    unfold clock_scan
    have h1 := ho k (le_refl _) hkN
    rw [hhk, h1]
    have hs0 : q.size ≠ 0 := by omega
    simp only [hs0, if_false, one_ne_zero]
    have key := ih (k + 1)
      ⟨q.pages, q.frames, q.reference_bits.set k 0, q.size, (k + 1) % q.size⟩ (by omega) hs (by simp [hl]) (by simp [hs])
      (by
        intro j hj
        by_cases hjk : j = k
        · subst hjk; simp [List.getElem?_set, hl, hkN]
        · simp only [List.getElem?_set, if_neg (Ne.symm hjk)]; exact hz j (by omega))
      (by
        intro j hj1 hj2
        have : k ≠ j := by omega
        simp only [List.getElem?_set, if_neg this]; exact ho j (by omega) hj2)
      f (by omega)
    rw [key]
    simp [List.range'_succ]


/-! ## Lemmas on the pieces of the loop body -/

theorem store_eq {α : Type} {xs : List α} {i : Nat} (v : α) (h : i < xs.length) :
    store xs i v = some (xs.set i v) := by
  simp [store, h]

theorem upd_length {α : Type} (xs : List α) (i : Nat) (f : α → α) :
    (upd xs i f).length = xs.length := by
  unfold upd
  cases xs[i]? <;> simp

theorem upd_eq {α : Type} {xs : List α} {i : Nat} {x : α} (f : α → α) (h : xs[i]? = some x) :
    upd xs i f = xs.set i (f x) := by
  simp [upd, h]

theorem lookup_some {pt : PageTable} {p : Int} {j : Nat} (h : lookup pt p = some j) :
    j < pt.size ∧ ∃ e, pt.entries[j]? = some e ∧ e.valid ≠ 0 ∧ e.page_number = p := by
  obtain ⟨_, h2, h3, _⟩ := find_from_some h
  refine ⟨by omega, ?_⟩
  unfold page_test at h3
  cases he : pt.entries[j]? with
  | none => simp [he] at h3
  | some e =>
    simp only [he, Bool.and_eq_true, bne_iff_ne, ne_eq, beq_iff_eq] at h3
    exact ⟨e, rfl, h3.1, h3.2⟩

theorem lookup_none {pt : PageTable} {p : Int} (h : lookup pt p = none) :
    ∀ j e, j < pt.size → pt.entries[j]? = some e → e.valid ≠ 0 → e.page_number ≠ p := by
  intro j e hj he hv hp
  have := find_from_none h j (Nat.zero_le _) (by omega)
  simp [page_test, he, hv, hp] at this

theorem lru_scan_lt (ages : List Int) (B : Nat) :
    ∀ (n i : Nat) (o : Int) (r : Nat), r < B → i + n ≤ B → lru_scan ages n i o r < B := by
  intro n
  induction n with
  | zero => intro i o r hr _; simpa [lru_scan] using hr
  | succ n ih =>
    intro i o r hr hi
    unfold lru_scan
    cases ages[i]? with
    | none => exact ih _ _ _ hr (by omega)
    | some a =>
      simp only
      split_ifs
      · exact ih _ _ _ (by omega) (by omega)
      · exact ih _ _ _ hr (by omega)

theorem min_scan_lt (tr : List TraceEntry) (ts ci : Nat) (frames : List Int) (B : Nat)
    (hB : 0 < B) :
    ∀ (n i far : Nat) (r : Int), (r = -1 ∨ (0 ≤ r ∧ r.toNat < B)) → i + n ≤ B →
      min_scan tr ts ci frames n i far r < B := by
  intro n
  induction n with
  | zero =>
    intro i far r hr _
    unfold min_scan
    rcases hr with h | h
    · simp [h, hB]
    · have : r ≠ -1 := by omega
      simp [this, h.2]
  | succ n ih =>
    intro i far r hr hi
    unfold min_scan
    cases min_next_use tr ts ci frames i with
    | none =>
      simp only
      split_ifs
      · omega
      · exact ih _ _ _ hr (by omega)
    | some j =>
      simp only
      split_ifs
      · exact ih _ _ _ (Or.inr ⟨by omega, by simp; omega⟩) (by omega)
      · exact ih _ _ _ hr (by omega)

theorem age_all_length (frames : List Int) :
    ∀ (n j : Nat) (ages : List Int), (age_all frames n j ages).length = ages.length := by
  intro n
  induction n with
  | zero => intro j ages; rfl
  | succ n ih =>
    intro j ages
    unfold age_all
    cases frames[j]? with
    | none => exact ih _ _
    | some f =>
      simp only
      split_ifs
      · rw [ih, upd_length]
      · exact ih _ _

theorem age_all_nonneg (frames : List Int) :
    ∀ (n j : Nat) (ages : List Int), (∀ a, a ∈ ages → 0 ≤ a) →
      ∀ a, a ∈ age_all frames n j ages → 0 ≤ a := by
  intro n
  induction n with
  | zero => intro j ages h a ha; exact h a ha
  | succ n ih =>
    intro j ages h
    unfold age_all
    cases frames[j]? with
    | none => exact ih _ _ h
    | some f =>
      simp only
      split_ifs
      · apply ih
        intro a ha
        unfold upd at ha
        cases hx : ages[j]? with
        | none => rw [hx] at ha; exact h a ha
        | some x =>
          rw [hx] at ha
          rcases List.mem_or_eq_of_mem_set ha with h1 | h1
          · exact h a h1
          · have := h x (List.getElem?_mem hx)
            subst h1
            show 0 ≤ x + 1
            omega
      · exact ih _ _ h


/-! ## The invariant -/

theorem Shape_fresh (N : Nat) (hN : 0 < N) : Shape N (fresh N) := by
  refine ⟨rfl, by simp [fresh, create_page_table], rfl, by simp [fresh, create_physical_memory],
    rfl, by simp [fresh, create_fifo_queue], by simp [fresh, create_fifo_queue], hN,
    rfl, by simp [fresh, create_lru_queue], by simp [fresh, create_lru_queue],
    by simp [fresh, create_lru_queue], ?_,
    rfl, by simp [fresh, create_clock_queue], by simp [fresh, create_clock_queue],
    by simp [fresh, create_clock_queue],
    rfl, by simp [fresh, create_second_chance_queue], by simp [fresh, create_second_chance_queue],
    by simp [fresh, create_second_chance_queue]⟩
  intro a ha
  simp [fresh, create_lru_queue] at ha
  omega

theorem Inv_fresh (N alg : Nat) (hN : 0 < N) : Inv N alg (fresh N) := by
  refine ⟨Shape_fresh N hN, Nat.zero_le _, rfl, ?_, ?_, ?_, ?_⟩
  · intro i e _ hi
    simp [fresh, create_physical_memory] at hi
  · intro i e he _
    simp only [fresh, create_page_table, create_physical_memory, List.getElem?_replicate] at he ⊢
    split_ifs at he with h
    · simp only [Option.some.injEq] at he
      subst he
      simp [empty_entry, h]
  · intro _
    refine ⟨0, Nat.zero_le _, ?_, ?_⟩
    · intro j hj; simp [fresh, create_clock_queue, List.getElem?_replicate, hj]
    · simp [fresh, create_physical_memory, create_clock_queue, hN]
  · intro _
    refine ⟨0, Nat.zero_le _, ?_, ?_⟩
    · intro j hj; simp [fresh, create_second_chance_queue, List.getElem?_replicate, hj]
    · simp [fresh, create_physical_memory, create_second_chance_queue, hN]


theorem choose_victim_pt (alg : Nat) (tr : List TraceEntry) (ts i : Nat) (s : SimState)
    (pt1 : PageTable) :
    choose_victim alg tr ts i { s with pt := pt1 } =
      (choose_victim alg tr ts i s).map (fun r => (r.1, r.2.1, { r.2.2 with pt := pt1 })) := by
  unfold choose_victim
  split
  · cases fifo_replace s.fifo <;> rfl
  · rfl
  · rfl
  · cases second_chance_replace s.sc <;> rfl
  · cases clock_replace s.clock <;> rfl
  · rfl

theorem choose_victim_keeps {alg : Nat} {tr : List TraceEntry} {ts i : Nat} {s s2 : SimState}
    {v : Nat} {cl : List Nat} (h : choose_victim alg tr ts i s = some (v, cl, s2)) :
    s2.pt = s.pt ∧ s2.pm = s.pm := by
  unfold choose_victim at h
  split at h
  · cases hf : fifo_replace s.fifo with
    | none => simp [hf] at h
    | some r =>
      simp only [hf, Option.some.injEq, Prod.mk.injEq] at h
      obtain ⟨_, _, rfl⟩ := h
      exact ⟨rfl, rfl⟩
  · simp only [Option.some.injEq, Prod.mk.injEq] at h
    obtain ⟨_, _, rfl⟩ := h
    exact ⟨rfl, rfl⟩
  · simp only [Option.some.injEq, Prod.mk.injEq] at h
    obtain ⟨_, _, rfl⟩ := h
    exact ⟨rfl, rfl⟩
  · cases hf : second_chance_replace s.sc with
    | none => simp [hf] at h
    | some r =>
      simp only [hf, Option.some.injEq, Prod.mk.injEq] at h
      obtain ⟨_, _, rfl⟩ := h
      exact ⟨rfl, rfl⟩
  · cases hf : clock_replace s.clock with
    | none => simp [hf] at h
    | some r =>
      simp only [hf, Option.some.injEq, Prod.mk.injEq] at h
      obtain ⟨_, _, rfl⟩ := h
      exact ⟨rfl, rfl⟩
  · simp at h

theorem access_hit {alg : Nat} {tr : List TraceEntry} {ts i : Nat} {s : SimState}
    {t : TraceEntry} {j : Nat} (ht : tr[i]? = some t)
    (hl : lookup s.pt (toInt32 t.address) = some j) :
    access alg tr ts i s = some (Event.hit (toInt32 t.address) j,
      { s with pt := { s.pt with
          entries := upd s.pt.entries j (fun e => { e with referenced := 1 }),
          hits := s.pt.hits + 1 } }) := by
  simp [access, ht, hl]

theorem access_fill {alg : Nat} {tr : List TraceEntry} {ts i : Nat} {s : SimState}
    {t : TraceEntry} (ht : tr[i]? = some t)
    (hl : lookup s.pt (toInt32 t.address) = none) (hfree : s.pm.next_frame < s.pm.size)
    (h1 : s.pm.next_frame < s.pt.entries.length) (h2 : s.pm.next_frame < s.pm.frames.length) :
    access alg tr ts i s =
      (record_install alg (miss_state s s.pm.next_frame (toInt32 t.address)
          (s.pm.next_frame + 1)) s.pm.next_frame (toInt32 t.address)).map
        (fun s4 => (Event.fill (toInt32 t.address) s.pm.next_frame, s4)) := by
  simp only [access, ht, hl, hfree, if_true, install, store_eq _ h1, store_eq _ h2, miss_state]
  cases record_install alg _ s.pm.next_frame (toInt32 t.address) <;> rfl

theorem owner_full {pt : PageTable} {N v : Nat} (hsize : pt.size = N)
    (hres : ∀ i e, pt.entries[i]? = some e → i < N → e.valid = 1 ∧ e.frame_number = (i : Int))
    (hlen : pt.entries.length = N) (hv : v < N) : owner pt v = some v := by
  unfold owner
  apply find_from_eq_some (Nat.zero_le _) (by omega)
  · have hv2 : v < pt.entries.length := by omega
    obtain ⟨a, b⟩ := hres v _ (List.getElem?_eq_getElem hv2) hv
    simp [frame_test, List.getElem?_eq_getElem hv2, a, b]
  · intro m _ hm
    have hm2 : m < pt.entries.length := by omega
    obtain ⟨a, b⟩ := hres m _ (List.getElem?_eq_getElem hm2) (by omega)
    simp only [frame_test, List.getElem?_eq_getElem hm2, a, b]
    have : (m : Int) ≠ (v : Int) := by omega
    simp [this]

theorem access_evict {alg : Nat} {tr : List TraceEntry} {ts i : Nat} {s s2 : SimState}
    {t : TraceEntry} {v : Nat} {cl : List Nat} {e0 : PageTableEntry} (ht : tr[i]? = some t)
    (hl : lookup s.pt (toInt32 t.address) = none) (hfull : ¬ s.pm.next_frame < s.pm.size)
    (hc : choose_victim alg tr ts i s = some (v, cl, s2))
    (ho : owner s.pt v = some v) (he : s.pt.entries[v]? = some e0)
    (h2 : v < s.pm.frames.length) :
    access alg tr ts i s =
      (record_install alg (miss_state s2 v (toInt32 t.address) s.pm.next_frame) v
          (toInt32 t.address)).map
        (fun s4 => (Event.evict (toInt32 t.address) v (some e0.page_number) cl, s4)) := by
  obtain ⟨k1, k2⟩ := choose_victim_keeps hc
  have h1 : v < s.pt.entries.length := by
    rw [List.getElem?_eq_some] at he; exact he.1
  have ho' : ∀ (pt1 : PageTable), pt1.entries = s.pt.entries → pt1.size = s.pt.size →
      owner pt1 v = some v := by
    intro pt1 a b
    unfold owner at ho ⊢
    rw [a, b]; exact ho
  have hoo := ho' ⟨s.pt.entries, s.pt.size, s.pt.page_faults + 1, s.pt.hits, s.pt.misses + 1⟩
    rfl rfl
  simp only [access, ht, hl, hfull, if_false, choose_victim_pt, hc, Option.map_some']
  simp only [invalidate, hoo, k1, k2, install, Option.bind_some, he, Option.map_some',
    upd_eq _ he, List.set_set, store_eq _ h2, miss_state]
  rw [store_eq _ (by simpa using h1)]
  simp only [List.set_set]
  cases record_install alg _ v (toInt32 t.address) <;> simp [he]



theorem clock_replace_full {N h : Nat} (q : ClockQueue) (hN : 0 < N) (hs : q.size = N)
    (hl : q.reference_bits.length = N) (hh : h ≤ N) (hand : q.hand = h % N)
    (hpat : ∀ j, j < N → q.reference_bits[j]? = some (if j < h then 1 else 0)) :
    clock_replace q = some (if h = N then 0 else h, if h = N then List.range' 0 N else [],
      { q with reference_bits := if h = N then List.replicate N 0 else q.reference_bits,
               hand := if h = N then 1 % N else (h + 1) % N }) := by
  unfold clock_replace
  by_cases hc : h = N
  · subst hc
    simp only [if_true]
    rw [hs]
    have key := clock_scan_sweep h hN h 0 q (by omega) hs hl (by simpa using hand)
      (fun j hj => by omega) (fun j _ hj => by simpa [hj] using hpat j hj) (h + 1) (le_refl _)
    rw [key]
    simp only [hs]
  · simp only [hc, if_false]
    have hlt : h < N := by omega
    have hq : q.hand = h := by rw [hand]; exact Nat.mod_eq_of_lt hlt
    rw [clock_scan_now (by omega) (by rw [hq]; simpa using hpat h hlt), hq, hs]

theorem second_chance_replace_eq (sc : SecondChanceQueue) :
    second_chance_replace sc =
      (clock_replace (sc_as_clock sc)).map (fun r => (r.1, r.2.1, clock_as_sc r.2.2)) := by
  unfold second_chance_replace clock_replace
  rw [second_chance_scan_eq]
  rfl

theorem record_install_spec {N : Nat} (alg : Nat) {s : SimState} {v : Nat} (p : Int)
    (hs : Shape N s) (hv : v < N) :
    ∃ s', record_install alg s v p = some s' ∧ s'.pt = s.pt ∧ s'.pm = s.pm ∧ Shape N s' ∧
      s'.fifo.next_index = s.fifo.next_index ∧ s'.sc.hand = s.sc.hand ∧
      s'.clock.hand = s.clock.hand ∧
      s'.sc.reference_bits =
        (if alg = 3 then s.sc.reference_bits.set v 1 else s.sc.reference_bits) ∧
      s'.clock.reference_bits =
        (if alg = 4 then s.clock.reference_bits.set v 1 else s.clock.reference_bits) := by
  unfold record_install
  by_cases h0 : alg = 0
  · subst h0
    simp only [if_true, store_eq _ (show v < s.fifo.pages.length by rw [hs.fifo_pages]; exact hv),
      store_eq _ (show v < s.fifo.frames.length by rw [hs.fifo_frames]; exact hv)]
    refine ⟨_, rfl, rfl, rfl, ?_, rfl, rfl, rfl, by simp, by simp⟩
    exact ⟨hs.pt_size, hs.pt_len, hs.pm_size, hs.pm_len, hs.fifo_size,
      by simp [hs.fifo_pages], by simp [hs.fifo_frames], hs.fifo_next,
      hs.lru_size, hs.lru_pages, hs.lru_frames, hs.lru_ages, hs.lru_nonneg,
      hs.clock_size, hs.clock_pages, hs.clock_frames, hs.clock_bits,
      hs.sc_size, hs.sc_pages, hs.sc_frames, hs.sc_bits⟩
  by_cases h1 : alg = 1
  · subst h1
    simp only [if_true, if_neg h0,
      store_eq _ (show v < s.lru.pages.length by rw [hs.lru_pages]; exact hv),
      store_eq _ (show v < s.lru.frames.length by rw [hs.lru_frames]; exact hv),
      store_eq _ (show v < s.lru.ages.length by rw [hs.lru_ages]; exact hv)]
    refine ⟨_, rfl, rfl, rfl, ?_, rfl, rfl, rfl, by simp, by simp⟩
    refine ⟨hs.pt_size, hs.pt_len, hs.pm_size, hs.pm_len, hs.fifo_size,
      hs.fifo_pages, hs.fifo_frames, hs.fifo_next,
      hs.lru_size, by simp [hs.lru_pages], by simp [hs.lru_frames],
      by simp [age_all_length, hs.lru_ages], ?_,
      hs.clock_size, hs.clock_pages, hs.clock_frames, hs.clock_bits,
      hs.sc_size, hs.sc_pages, hs.sc_frames, hs.sc_bits⟩
    apply age_all_nonneg
    intro a ha
    rcases List.mem_or_eq_of_mem_set ha with h | h
    · exact hs.lru_nonneg a h
    · omega
  by_cases h3 : alg = 3
  · subst h3
    simp only [if_true, if_neg h0, if_neg h1,
      store_eq _ (show v < s.sc.pages.length by rw [hs.sc_pages]; exact hv),
      store_eq _ (show v < s.sc.frames.length by rw [hs.sc_frames]; exact hv),
      store_eq _ (show v < s.sc.reference_bits.length by rw [hs.sc_bits]; exact hv)]
    refine ⟨_, rfl, rfl, rfl, ?_, rfl, rfl, rfl, by simp, by simp⟩
    exact ⟨hs.pt_size, hs.pt_len, hs.pm_size, hs.pm_len, hs.fifo_size,
      hs.fifo_pages, hs.fifo_frames, hs.fifo_next,
      hs.lru_size, hs.lru_pages, hs.lru_frames, hs.lru_ages, hs.lru_nonneg,
      hs.clock_size, hs.clock_pages, hs.clock_frames, hs.clock_bits,
      hs.sc_size, by simp [hs.sc_pages], by simp [hs.sc_frames], by simp [hs.sc_bits]⟩
  by_cases h4 : alg = 4
  · subst h4
    simp only [if_true, if_neg h0, if_neg h1, if_neg h3,
      store_eq _ (show v < s.clock.pages.length by rw [hs.clock_pages]; exact hv),
      store_eq _ (show v < s.clock.frames.length by rw [hs.clock_frames]; exact hv),
      store_eq _ (show v < s.clock.reference_bits.length by rw [hs.clock_bits]; exact hv)]
    refine ⟨_, rfl, rfl, rfl, ?_, rfl, rfl, rfl, by simp, by simp⟩
    exact ⟨hs.pt_size, hs.pt_len, hs.pm_size, hs.pm_len, hs.fifo_size,
      hs.fifo_pages, hs.fifo_frames, hs.fifo_next,
      hs.lru_size, hs.lru_pages, hs.lru_frames, hs.lru_ages, hs.lru_nonneg,
      hs.clock_size, by simp [hs.clock_pages], by simp [hs.clock_frames],
      by simp [hs.clock_bits],
      hs.sc_size, hs.sc_pages, hs.sc_frames, hs.sc_bits⟩
  · simp only [if_neg h0, if_neg h1, if_neg h3, if_neg h4]
    exact ⟨_, rfl, rfl, rfl, hs, rfl, rfl, rfl, rfl, rfl⟩



theorem ring_after_replace {N h : Nat} {bits : List Int} (hN : 0 < N) (hh : h ≤ N)
    (hl : bits.length = N)
    (hpat : ∀ j, j < N → bits[j]? = some (if j < h then 1 else 0)) :
    ring N N ((if h = N then List.replicate N 0 else bits).set (if h = N then 0 else h) 1)
      (if h = N then 1 % N else (h + 1) % N) := by
  by_cases hc : h = N
  · simp only [hc, if_true]
    refine ⟨1, hN, ?_, by simp⟩
    intro j hj
    by_cases hj0 : j = 0
    · subst hj0; simp [List.getElem?_set, hN]
    · have : ¬ j < 1 := by omega
      have h0 : (0 : Nat) ≠ j := by omega
      simp [List.getElem?_set, List.getElem?_replicate, this, h0, hj]
  · simp only [hc, if_false]
    have hlt : h < N := by omega
    refine ⟨h + 1, hlt, ?_, by simp⟩
    intro j hj
    by_cases hjh : j = h
    · subst hjh; simp [List.getElem?_set, hl, hj]
    · have h0 : h ≠ j := by omega
      rw [List.getElem?_set, if_neg h0, hpat j hj]
      by_cases hjl : j < h
      · have : j < h + 1 := by omega
        simp [hjl, this]
      · have : ¬ j < h + 1 := by omega
        simp [hjl, this]

theorem choose_victim_spec {N alg : Nat} (tr : List TraceEntry) (ts i : Nat) {s : SimState}
    (hN : 0 < N) (halg : alg ≤ 4) (hs : Shape N s)
    (hc : alg = 4 → ring N N s.clock.reference_bits s.clock.hand)
    (hsc : alg = 3 → ring N N s.sc.reference_bits s.sc.hand) :
    ∃ v cl s2, choose_victim alg tr ts i s = some (v, cl, s2) ∧ v < N ∧ Shape N s2 ∧
      (alg = 4 → ring N N (s2.clock.reference_bits.set v 1) s2.clock.hand) ∧
      (alg = 3 → ring N N (s2.sc.reference_bits.set v 1) s2.sc.hand) := by
  have h5 : alg = 0 ∨ alg = 1 ∨ alg = 2 ∨ alg = 3 ∨ alg = 4 := by omega
  rcases h5 with rfl | rfl | rfl | rfl | rfl
  · refine ⟨s.fifo.next_index, [],
      { s with fifo := { s.fifo with next_index := (s.fifo.next_index + 1) % s.fifo.size } },
      ?_, hs.fifo_next, ?_, by simp, by simp⟩
    · have : s.fifo.size ≠ 0 := by rw [hs.fifo_size]; omega
      simp [choose_victim, fifo_replace, this]
    · exact ⟨hs.pt_size, hs.pt_len, hs.pm_size, hs.pm_len, hs.fifo_size,
        hs.fifo_pages, hs.fifo_frames,
        by show (s.fifo.next_index + 1) % s.fifo.size < N
           rw [hs.fifo_size]; exact Nat.mod_lt _ hN,
        hs.lru_size, hs.lru_pages, hs.lru_frames, hs.lru_ages, hs.lru_nonneg,
        hs.clock_size, hs.clock_pages, hs.clock_frames, hs.clock_bits,
        hs.sc_size, hs.sc_pages, hs.sc_frames, hs.sc_bits⟩
  · refine ⟨lru_replace s.lru, [], s, rfl, ?_, hs, by simp, by simp⟩
    unfold lru_replace
    exact lru_scan_lt _ N _ _ _ _ hN (by rw [hs.lru_size]; omega)
  · refine ⟨min_replace tr ts i s.pt s.pm, [], s, rfl, ?_, hs, by simp, by simp⟩
    unfold min_replace
    exact min_scan_lt _ _ _ _ N hN _ _ _ _ (Or.inl rfl) (by rw [hs.pm_size]; omega)
  · obtain ⟨h, hh, hpat, hrest⟩ := hsc rfl
    simp only [lt_irrefl, if_false] at hrest
    have key := clock_replace_full (sc_as_clock s.sc) hN hs.sc_size hs.sc_bits hh hrest.2 hpat
    refine ⟨if h = N then 0 else h, if h = N then List.range' 0 N else [],
      { s with sc := { s.sc with
          reference_bits := if h = N then List.replicate N 0 else s.sc.reference_bits,
          hand := if h = N then 1 % N else (h + 1) % N } }, ?_, ?_, ?_, by simp, ?_⟩
    · simp only [choose_victim, second_chance_replace_eq, key]
      rfl
    · split_ifs <;> omega
    · exact ⟨hs.pt_size, hs.pt_len, hs.pm_size, hs.pm_len, hs.fifo_size,
        hs.fifo_pages, hs.fifo_frames, hs.fifo_next,
        hs.lru_size, hs.lru_pages, hs.lru_frames, hs.lru_ages, hs.lru_nonneg,
        hs.clock_size, hs.clock_pages, hs.clock_frames, hs.clock_bits,
        hs.sc_size, hs.sc_pages, hs.sc_frames,
        by show (if h = N then List.replicate N 0 else s.sc.reference_bits).length = N
           split_ifs
           · simp
           · exact hs.sc_bits⟩
    · intro _
      exact ring_after_replace hN hh hs.sc_bits hpat
  · obtain ⟨h, hh, hpat, hrest⟩ := hc rfl
    simp only [lt_irrefl, if_false] at hrest
    have key := clock_replace_full s.clock hN hs.clock_size hs.clock_bits hh hrest.2 hpat
    refine ⟨if h = N then 0 else h, if h = N then List.range' 0 N else [],
      { s with clock := { s.clock with
          reference_bits := if h = N then List.replicate N 0 else s.clock.reference_bits,
          hand := if h = N then 1 % N else (h + 1) % N } }, ?_, ?_, ?_, ?_, by simp⟩
    · simp only [choose_victim, key]
    · split_ifs <;> omega
    · exact ⟨hs.pt_size, hs.pt_len, hs.pm_size, hs.pm_len, hs.fifo_size,
        hs.fifo_pages, hs.fifo_frames, hs.fifo_next,
        hs.lru_size, hs.lru_pages, hs.lru_frames, hs.lru_ages, hs.lru_nonneg,
        hs.clock_size, hs.clock_pages, hs.clock_frames,
        by show (if h = N then List.replicate N 0 else s.clock.reference_bits).length = N
           split_ifs
           · simp
           · exact hs.clock_bits,
        hs.sc_size, hs.sc_pages, hs.sc_frames, hs.sc_bits⟩
    · intro _
      exact ring_after_replace hN hh hs.clock_bits hpat



theorem Shape_miss_state {N : Nat} {s : SimState} (hs : Shape N s) (v : Nat) (p : Int)
    (nf : Nat) : Shape N (miss_state s v p nf) :=
  ⟨hs.pt_size, by simp [miss_state, hs.pt_len], hs.pm_size, by simp [miss_state, hs.pm_len],
    hs.fifo_size, hs.fifo_pages, hs.fifo_frames, hs.fifo_next,
    hs.lru_size, hs.lru_pages, hs.lru_frames, hs.lru_ages, hs.lru_nonneg,
    hs.clock_size, hs.clock_pages, hs.clock_frames, hs.clock_bits,
    hs.sc_size, hs.sc_pages, hs.sc_frames, hs.sc_bits⟩

theorem upd_referenced_get {entries : List PageTableEntry} {j i : Nat} {e : PageTableEntry}
    (h : (upd entries j (fun x => { x with referenced := 1 }))[i]? = some e) :
    ∃ e0, entries[i]? = some e0 ∧ e.valid = e0.valid ∧ e.frame_number = e0.frame_number ∧
      e.page_number = e0.page_number := by
  unfold upd at h
  cases hj : entries[j]? with
  | none => rw [hj] at h; exact ⟨e, h, rfl, rfl, rfl⟩
  | some ej =>
    rw [hj] at h
    simp only at h
    by_cases hji : j = i
    · subst hji
      have hlt : j < entries.length := by
        rw [List.getElem?_eq_some] at hj; exact hj.1
      rw [List.getElem?_set_self hlt] at h
      simp only [Option.some.injEq] at h
      subst h
      exact ⟨ej, hj, rfl, rfl, rfl⟩
    · rw [List.getElem?_set_ne hji] at h
      exact ⟨e, h, rfl, rfl, rfl⟩

theorem ring_fill {N nf : Nat} {bits : List Int} {hand : Nat} (hnf : nf < N)
    (hl : bits.length = N) (h : ring N nf bits hand) : ring N (nf + 1) (bits.set nf 1) hand := by
  obtain ⟨h, hh, hpat, hrest⟩ := h
  simp only [hnf, if_true] at hrest
  obtain ⟨rfl, rfl⟩ := hrest
  refine ⟨h + 1, hnf, ?_, ?_⟩
  · intro j hj
    by_cases hjh : j = h
    · subst hjh; simp [List.getElem?_set, hl, hj]
    · have h0 : h ≠ j := by omega
      rw [List.getElem?_set, if_neg h0, hpat j hj]
      by_cases hjl : j < h
      · have : j < h + 1 := by omega
        simp [hjl, this]
      · have : ¬ j < h + 1 := by omega
        simp [hjl, this]
  · split_ifs with hc
    · exact ⟨rfl, rfl⟩
    · have : h + 1 = N := by omega
      rw [this]; simp; omega

theorem Inv_placed {N alg : Nat} {s s' : SimState} {v nf : Nat} {p : Int}
    (h : Inv N alg s) (hv : v < N) (hnf : nf ≤ N)
    (hcase : (v = s.pm.next_frame ∧ nf = v + 1) ∨ (s.pm.next_frame = N ∧ nf = N))
    (hpt : s'.pt = (miss_state s v p nf).pt) (hpm : s'.pm = (miss_state s v p nf).pm)
    (hs' : Shape N s')
    (hc : alg = 4 → ring N nf s'.clock.reference_bits s'.clock.hand)
    (hsc : alg = 3 → ring N nf s'.sc.reference_bits s'.sc.hand) : Inv N alg s' := by
  have hne : (miss_state s v p nf).pm.next_frame = nf := rfl
  refine ⟨hs', by rw [hpm]; exact hnf, ?_, ?_, ?_, ?_, ?_⟩
  · rw [hpt]; simp [miss_state, h.faults]
  · intro i e he hi
    rw [hpt] at he
    rw [hpm] at hi ⊢
    simp only [miss_state] at he hi ⊢
    by_cases hvi : v = i
    · subst hvi
      rw [List.getElem?_set_self (by rw [h.shape.pt_len]; exact hv)] at he
      simp only [Option.some.injEq] at he
      subst he
      simp [List.getElem?_set_self, h.shape.pm_len, hv]
    · rw [List.getElem?_set_ne hvi] at he
      rw [List.getElem?_set_ne hvi]
      exact h.resident i e he (by omega)
  · intro i e he hi
    rw [hpt] at he
    rw [hpm] at hi ⊢
    simp only [miss_state] at he hi ⊢
    have hvi : v ≠ i := by omega
    rw [List.getElem?_set_ne hvi] at he
    rw [List.getElem?_set_ne hvi]
    exact h.vacant i e he (by omega)
  · intro ha; rw [hpm]; exact hc ha
  · intro ha; rw [hpm]; exact hsc ha


theorem access_step {N alg : Nat} {tr : List TraceEntry} (ts : Nat) {i : Nat} {s : SimState}
    (hN : 0 < N) (halg : alg ≤ 4) (h : Inv N alg s) (hi : i < tr.length) :
    ∃ e s', access alg tr ts i s = some (e, s') ∧ Stepped N alg tr ts i s e s' ∧
      Inv N alg s' := by
  have ht : tr[i]? = some tr[i] := List.getElem?_eq_getElem hi
  generalize tr[i] = t at ht
  cases hl : lookup s.pt (toInt32 t.address) with
  | some j =>
    refine ⟨_, _, access_hit ht hl, ⟨t, ht, Or.inl ⟨j, hl, rfl, rfl⟩⟩, ?_⟩
    refine ⟨?_, h.next_le, h.faults, ?_, ?_, h.clock_ring, h.sc_ring⟩
    · have hs := h.shape
      exact ⟨hs.pt_size, by simp [upd_length, hs.pt_len], hs.pm_size, hs.pm_len,
        hs.fifo_size, hs.fifo_pages, hs.fifo_frames, hs.fifo_next,
        hs.lru_size, hs.lru_pages, hs.lru_frames, hs.lru_ages, hs.lru_nonneg,
        hs.clock_size, hs.clock_pages, hs.clock_frames, hs.clock_bits,
        hs.sc_size, hs.sc_pages, hs.sc_frames, hs.sc_bits⟩
    · intro k e he hk
      obtain ⟨e0, a, b, c, d⟩ := upd_referenced_get he
      rw [b, c, d]
      exact h.resident k e0 a hk
    · intro k e he hk
      obtain ⟨e0, a, b, c, d⟩ := upd_referenced_get he
      rw [b]
      exact h.vacant k e0 a hk
  | none =>
    by_cases hfree : s.pm.next_frame < N
    · have hf1 : s.pm.next_frame < s.pm.size := by rw [h.shape.pm_size]; exact hfree
      obtain ⟨s', r1, r2, r3, r4, r5, r6, r7, r8, r9⟩ :=
        record_install_spec alg (toInt32 t.address)
          (Shape_miss_state h.shape s.pm.next_frame (toInt32 t.address) (s.pm.next_frame + 1))
          hfree
      refine ⟨Event.fill (toInt32 t.address) s.pm.next_frame, s', ?_,
        ⟨t, ht, Or.inr (Or.inl ⟨hl, hfree, rfl, r1⟩)⟩, ?_⟩
      · rw [access_fill ht hl hf1 (by rw [h.shape.pt_len]; exact hfree)
          (by rw [h.shape.pm_len]; exact hfree), r1]
        rfl
      · apply Inv_placed h hfree (by omega) (Or.inl ⟨rfl, rfl⟩) r2 r3 r4
        · intro ha
          rw [r9, if_pos ha, r7]
          exact ring_fill hfree h.shape.clock_bits (h.clock_ring ha)
        · intro ha
          rw [r8, if_pos ha, r6]
          exact ring_fill hfree h.shape.sc_bits (h.sc_ring ha)
    · have hfull : s.pm.next_frame = N := le_antisymm h.next_le (by omega)
      have hf1 : ¬ s.pm.next_frame < s.pm.size := by rw [h.shape.pm_size]; exact hfree
      obtain ⟨v, cl, s2, c1, c2, c3, c4, c5⟩ := choose_victim_spec tr ts i hN halg h.shape
        (fun ha => by have := h.clock_ring ha; rwa [hfull] at this)
        (fun ha => by have := h.sc_ring ha; rwa [hfull] at this)
      obtain ⟨k1, k2⟩ := choose_victim_keeps c1
      have hv1 : v < s.pt.entries.length := by rw [h.shape.pt_len]; exact c2
      have he0 : s.pt.entries[v]? = some s.pt.entries[v] := List.getElem?_eq_getElem hv1
      generalize s.pt.entries[v] = e0 at he0
      have hown : owner s.pt v = some v :=
        owner_full h.shape.pt_size
          (fun k e he hk => by
            have := h.resident k e he (by omega)
            exact ⟨this.1, this.2.1⟩)
          h.shape.pt_len c2
      obtain ⟨s', r1, r2, r3, r4, r5, r6, r7, r8, r9⟩ :=
        record_install_spec alg (toInt32 t.address)
          (Shape_miss_state c3 v (toInt32 t.address) N) c2
      refine ⟨Event.evict (toInt32 t.address) v (some e0.page_number) cl, s', ?_,
        ⟨t, ht, Or.inr (Or.inr ⟨hl, hfull, v, cl, s2, e0, c1, c2, he0, rfl, r1⟩)⟩, ?_⟩
      · rw [access_evict ht hl hf1 c1 hown he0 (by rw [h.shape.pm_len]; exact c2), hfull, r1]
        rfl
      · have e1 : (miss_state s2 v (toInt32 t.address) N).pt =
            (miss_state s v (toInt32 t.address) N).pt := by
          simp [miss_state, k1]
        have e2 : (miss_state s2 v (toInt32 t.address) N).pm =
            (miss_state s v (toInt32 t.address) N).pm := by
          simp [miss_state, k2]
        apply Inv_placed h c2 (le_refl _) (Or.inr ⟨hfull, rfl⟩) (r2.trans e1) (r3.trans e2) r4
        · intro ha
          rw [r9, if_pos ha, r7]
          exact c4 ha
        · intro ha
          rw [r8, if_pos ha, r6]
          exact c5 ha



theorem record_install_keeps {alg : Nat} {s s' : SimState} {v : Nat} {p : Int}
    (h : record_install alg s v p = some s') : s'.pt = s.pt ∧ s'.pm = s.pm := by
  unfold record_install at h
  split_ifs at h
  · split at h
    · simp only [Option.some.injEq] at h; subst h; exact ⟨rfl, rfl⟩
    · simp at h
  · split at h
    · simp only [Option.some.injEq] at h; subst h; exact ⟨rfl, rfl⟩
    · simp at h
  · split at h
    · simp only [Option.some.injEq] at h; subst h; exact ⟨rfl, rfl⟩
    · simp at h
  · split at h
    · simp only [Option.some.injEq] at h; subst h; exact ⟨rfl, rfl⟩
    · simp at h
  · simp only [Option.some.injEq] at h; subst h; exact ⟨rfl, rfl⟩

/-- Forward induction along a run: a property of (index, events so far, state) that every
    access preserves holds at the end of the run. -/
theorem run_induction {N alg : Nat} (tr : List TraceEntry) (ts : Nat) (hN : 0 < N)
    (halg : alg ≤ 4) (P : Nat → List Event → SimState → Prop)
    (step : ∀ i es s e s', i < tr.length → Inv N alg s → P i es s →
      Stepped N alg tr ts i s e s' → Inv N alg s' → P (i + 1) (es ++ [e]) s') :
    ∀ (n i0 : Nat) (es0 : List Event) (s0 : SimState), Inv N alg s0 → P i0 es0 s0 →
      i0 + n ≤ tr.length →
      ∃ es s', simulate_from alg tr ts n i0 s0 = some (es, s') ∧ es.length = n ∧
        Inv N alg s' ∧ P (i0 + n) (es0 ++ es) s' := by
  intro n
  induction n with
  | zero =>
    intro i0 es0 s0 hI hP _
    exact ⟨[], s0, rfl, rfl, hI, by simpa using hP⟩
  | succ n ih =>
    intro i0 es0 s0 hI hP hle
    obtain ⟨e, s1, h1, h2, h3⟩ := access_step ts hN halg hI (show i0 < tr.length by omega)
    obtain ⟨es, s', k1, k2, k3, k4⟩ := ih (i0 + 1) (es0 ++ [e]) s1 h3
      (step i0 es0 s0 e s1 (by omega) hI hP h2 h3) (by omega)
    refine ⟨e :: es, s', ?_, by simp [k2], k3, ?_⟩
    · simp [simulate_from, h1, k1]
    · have : i0 + (n + 1) = i0 + 1 + n := by omega
      rw [this]
      simpa using k4

theorem Stepped_counters {N alg : Nat} {tr : List TraceEntry} {ts i : Nat} {s s' : SimState}
    {e : Event} (h : Stepped N alg tr ts i s e s') :
    s'.pt.hits + s'.pt.misses = s.pt.hits + s.pt.misses + 1 := by
  obtain ⟨t, _, h | h | h⟩ := h
  · obtain ⟨j, _, _, rfl⟩ := h
    simp; omega
  · obtain ⟨_, _, _, hr⟩ := h
    rw [(record_install_keeps hr).1]
    simp [miss_state]; omega
  · obtain ⟨_, _, v, cl, s2, e0, hc, _, _, _, hr⟩ := h
    rw [(record_install_keeps hr).1]
    simp [miss_state, (choose_victim_keeps hc).1]; omega

/-- C1: for every frame count `N >= 1`, every policy selector in 0..4 and every trace,
    `simulate_virtual_memory` on freshly created state returns, with `hits + misses`
    equal to the trace length and `misses` equal to `page_faults`. -/
theorem C1_counters (N alg : Nat) (tr : List TraceEntry) (hN : 1 ≤ N) (halg : alg ≤ 4) :
    ∃ s, simulate_virtual_memory (fresh N) alg tr tr.length = some s ∧
      s.pt.hits + s.pt.misses = tr.length ∧ s.pt.misses = s.pt.page_faults := by
  obtain ⟨es, s, h1, _, h3, h4⟩ := run_induction tr tr.length hN halg
    (fun i _ s => s.pt.hits + s.pt.misses = i)
    (fun i es s e s' _ _ hP hS _ => by
      show s'.pt.hits + s'.pt.misses = i + 1
      rw [Stepped_counters hS, hP])
    tr.length 0 [] (fresh N) (Inv_fresh N alg hN) rfl (by omega)
  refine ⟨s, ?_, by simpa using h4, h3.faults⟩
  simp [simulate_virtual_memory, simulate_virtual_memory_log, h1]

/-- C1 at `N = 2`, FIFO, trace of pages 1, 2, 1. -/
theorem C1_counters_witness :
    ∃ s, simulate_virtual_memory (fresh 2) 0 (loads [1, 2, 1]) (loads [1, 2, 1]).length = some s ∧
      s.pt.hits + s.pt.misses = (loads [1, 2, 1]).length ∧ s.pt.misses = s.pt.page_faults :=
  C1_counters 2 0 (loads [1, 2, 1]) (by decide) (by decide)



theorem finish_eq (alg : Nat) (p : Int) (v : Nat) (s1 : SimState) (ev : Event) :
    (match (match find_from (frame_test s1.pt.entries (v : Int)) s1.pt.size 0 with
        | some j => ((v, { s1 with pt := { s1.pt with
            entries := upd s1.pt.entries j (fun e => { e with valid := 0 }) } }) : Nat × SimState)
        | none => (v, s1)) with
      | (frame_number, s2) =>
        match store s2.pt.entries frame_number
            ({ page_number := p, frame_number := (frame_number : Int),
               referenced := 1, valid := 1 } : PageTableEntry),
          store s2.pm.frames frame_number p with
        | some entries, some frames =>
          record_install alg { s2 with
            pt := { s2.pt with entries := entries },
            pm := { s2.pm with frames := frames } } frame_number p
        | _, _ => none) =
      Option.map (fun r => r.2)
        (match install { s1 with pt := invalidate s1.pt v } v p with
        | none => none
        | some s3 =>
          match record_install alg s3 v p with
          | none => none
          | some s4 => some (ev, s4)) := by
  simp only [invalidate, owner, install]
  cases find_from (frame_test s1.pt.entries (v : Int)) s1.pt.size 0 with
  | none =>
    simp only
    cases store s1.pt.entries v _ with
    | none => rfl
    | some entries =>
      cases store s1.pm.frames v p with
      | none => rfl
      | some frames =>
        simp only
        cases record_install alg _ v p <;> rfl
  | some j =>
    simp only
    cases store (upd s1.pt.entries j _) v _ with
    | none => rfl
    | some entries =>
      cases store s1.pm.frames v p with
      | none => rfl
      | some frames =>
        simp only
        cases record_install alg _ v p <;> rfl

theorem step_eq_access (s : SimState) (alg : Nat) (tr : List TraceEntry) (ts i : Nat) :
    simulate_virtual_memory_step s alg tr ts i = (access alg tr ts i s).map (fun r => r.2) := by
  unfold simulate_virtual_memory_step access
  cases h : tr[i]? with
  | none => rfl
  | some t =>
    simp only [lookup]
    split
    · rfl
    · by_cases h1 : s.pm.next_frame < s.pm.size
      · simp only [h1, if_true, install]
        cases hs1 : store s.pt.entries s.pm.next_frame
            ({ page_number := toInt32 t.address, frame_number := (s.pm.next_frame : Int),
               referenced := 1, valid := 1 } : PageTableEntry) with
        | none => rfl
        | some entries =>
          cases hs2 : store s.pm.frames s.pm.next_frame (toInt32 t.address) with
          | none => rfl
          | some frames =>
            simp only [record_install]
            split_ifs
            · split <;> simp_all
            · split <;> simp_all
            · split <;> simp_all
            · split <;> simp_all
            · rfl
      · simp only [h1, if_false]
        rcases alg with _ | _ | _ | _ | _ | n
        · simp only [choose_victim]
          cases hf : fifo_replace s.fifo with
          | none => rfl
          | some r => exact finish_eq 0 _ r.1 _ _
        · exact finish_eq 1 _ _ _ _
        · exact finish_eq 2 _ _ _ _
        · simp only [choose_victim]
          cases hf : second_chance_replace s.sc with
          | none => rfl
          | some r => exact finish_eq 3 _ r.1 _ _
        · simp only [choose_victim]
          cases hf : clock_replace s.clock with
          | none => rfl
          | some r => exact finish_eq 4 _ r.1 _ _
        · rfl

theorem run_steps_eq (alg : Nat) (tr : List TraceEntry) (ts : Nat) :
    ∀ (n i : Nat) (s : SimState),
      run_steps alg tr ts n i s = (simulate_from alg tr ts n i s).map (fun r => r.2) := by
  intro n
  induction n with
  | zero => intro i s; rfl
  | succ n ih =>
    intro i s
    unfold run_steps simulate_from
    rw [step_eq_access]
    cases access alg tr ts i s with
    | none => rfl
    | some r =>
      simp only [Option.map_some']
      rw [ih]
      cases simulate_from alg tr ts n (i + 1) r.2 <;> rfl


theorem simulate_returns {N : Nat} (alg : Nat) (tr : List TraceEntry) (hN : 0 < N) (halg : alg ≤ 4) :
    ∃ es s, simulate_from alg tr tr.length tr.length 0 (fresh N) = some (es, s) ∧
      Inv N alg s := by
  obtain ⟨es, s, h1, _, h3, _⟩ := run_induction tr tr.length hN halg (fun _ _ _ => True)
    (fun _ _ _ _ _ _ _ _ _ _ => trivial) tr.length 0 [] (fresh N) (Inv_fresh N alg hN)
    trivial (by omega)
  exact ⟨es, s, h1, h3⟩

/-- C2: for every `N >= 1`, every policy in 0..4 and every trace of length `n` (with the
    global `trace_size` equal to `n`), calling `simulate_virtual_memory_step` for
    `step = 0, ..., n-1` in order on fresh state returns exactly the state that one call
    of `simulate_virtual_memory` on fresh state returns: the same counters, page-table
    entries, physical-memory array and policy bookkeeping. -/
theorem C2_steps_equal_batch (N alg : Nat) (tr : List TraceEntry) (hN : 1 ≤ N)
    (halg : alg ≤ 4) :
    ∃ s, simulate_virtual_memory (fresh N) alg tr tr.length = some s ∧
      run_steps alg tr tr.length tr.length 0 (fresh N) = some s := by
  obtain ⟨es, s, h1, _⟩ := simulate_returns alg tr hN halg
  refine ⟨s, ?_, ?_⟩
  · simp [simulate_virtual_memory, simulate_virtual_memory_log, h1]
  · rw [run_steps_eq, h1]
    rfl

/-- C2 at `N = 2`, MIN, trace of pages 1, 2, 3, 1. -/
theorem C2_steps_equal_batch_witness :
    ∃ s, simulate_virtual_memory (fresh 2) 2 (loads [1, 2, 3, 1]) (loads [1, 2, 3, 1]).length
        = some s ∧
      run_steps 2 (loads [1, 2, 3, 1]) (loads [1, 2, 3, 1]).length
        (loads [1, 2, 3, 1]).length 0 (fresh 2) = some s :=
  C2_steps_equal_batch 2 2 (loads [1, 2, 3, 1]) (by decide) (by decide)


theorem lookup_some_resident {N alg : Nat} {s : SimState} {p : Int} {j : Nat}
    (h : Inv N alg s) (hl : lookup s.pt p = some j) :
    j < s.pm.next_frame ∧ s.pm.frames[j]? = some p := by
  obtain ⟨_, e, he, hv, hp⟩ := lookup_some hl
  by_cases hj : j < s.pm.next_frame
  · obtain ⟨_, _, c⟩ := h.resident j e he hj
    exact ⟨hj, by rw [c, hp]⟩
  · exact absurd (h.vacant j e he (by omega)).1 hv

theorem lookup_none_resident {N alg : Nat} {s : SimState} {p : Int}
    (h : Inv N alg s) (hl : lookup s.pt p = none) :
    ∀ j, j < s.pm.next_frame → s.pm.frames[j]? ≠ some p := by
  intro j hj hc
  have hjN : j < N := lt_of_lt_of_le hj h.next_le
  have hlen : j < s.pt.entries.length := by rw [h.shape.pt_len]; exact hjN
  obtain ⟨a, _, c⟩ := h.resident j _ (List.getElem?_eq_getElem hlen) hj
  rw [c] at hc
  simp only [Option.some.injEq] at hc
  exact lookup_none hl j _ (by rw [h.shape.pt_size]; exact hjN)
    (List.getElem?_eq_getElem hlen) (by rw [a]; decide) hc

/-- What an access does to the physical memory and to the fault counter. -/
theorem Stepped_pm {N alg : Nat} {tr : List TraceEntry} {ts i : Nat} {s s' : SimState}
    {e : Event} (hI : Inv N alg s) (h : Stepped N alg tr ts i s e s') :
    ∃ t, tr[i]? = some t ∧
      ((∃ j, lookup s.pt (page_of t) = some j ∧ e = Event.hit (page_of t) j ∧ s'.pm = s.pm ∧
          s'.pt.page_faults = s.pt.page_faults) ∨
       (lookup s.pt (page_of t) = none ∧ s.pm.next_frame < N ∧
          e = Event.fill (page_of t) s.pm.next_frame ∧
          s'.pm.frames = s.pm.frames.set s.pm.next_frame (page_of t) ∧
          s'.pm.next_frame = s.pm.next_frame + 1 ∧
          s'.pt.page_faults = s.pt.page_faults + 1) ∨
       (lookup s.pt (page_of t) = none ∧ s.pm.next_frame = N ∧
          ∃ v cl s2 old, choose_victim alg tr ts i s = some (v, cl, s2) ∧ v < N ∧
            s.pm.frames[v]? = some old ∧
            e = Event.evict (page_of t) v (some old) cl ∧
            s'.pm.frames = s.pm.frames.set v (page_of t) ∧
            s'.pm.next_frame = N ∧
            s'.pt.page_faults = s.pt.page_faults + 1)) := by
  obtain ⟨t, ht, h | h | h⟩ := h
  · obtain ⟨j, a, b, rfl⟩ := h
    exact ⟨t, ht, Or.inl ⟨j, a, b, rfl, rfl⟩⟩
  · obtain ⟨a, b, c, hr⟩ := h
    obtain ⟨k1, k2⟩ := record_install_keeps hr
    refine ⟨t, ht, Or.inr (Or.inl ⟨a, b, c, ?_, ?_, ?_⟩)⟩
    · rw [k2]; rfl
    · rw [k2]; rfl
    · rw [k1]; rfl
  · obtain ⟨a, b, v, cl, s2, e0, hc, hv, he, hev, hr⟩ := h
    obtain ⟨k1, k2⟩ := record_install_keeps hr
    obtain ⟨c1, c2⟩ := choose_victim_keeps hc
    refine ⟨t, ht, Or.inr (Or.inr ⟨a, b, v, cl, s2, e0.page_number, hc, hv,
      (hI.resident v e0 he (by omega)).2.2, hev, ?_, ?_, ?_⟩)⟩
    · rw [k2]; simp [miss_state, c2, page_of]
    · rw [k2]; rfl
    · rw [k1]; simp [miss_state, c1]


theorem take_succ_map_pages (tr : List TraceEntry) {i : Nat} {t : TraceEntry}
    (ht : tr[i]? = some t) :
    (tr.take (i + 1)).map page_of = (tr.take i).map page_of ++ [page_of t] := by
  rw [List.take_succ, ht]
  simp

theorem Filling_step {N alg : Nat} {tr : List TraceEntry} {ts i : Nat} {s s' : SimState}
    {e : Event} {es : List Event}
    (hd : ((tr.map page_of).dedup).length ≤ N)
    (hI : Inv N alg s) (hP : Filling tr i es s) (hS : Stepped N alg tr ts i s e s') :
    Filling tr (i + 1) (es ++ [e]) s' := by
  obtain ⟨P1, P2, P3, P4⟩ := hP
  obtain ⟨t, ht, h | h | h⟩ := Stepped_pm hI hS
  · obtain ⟨j, a, rfl, c, d⟩ := h
    obtain ⟨r1, r2⟩ := lookup_some_resident hI a
    have hmem : page_of t ∈ (tr.take i).map page_of := (P3 _).2 ⟨j, r1, r2⟩
    refine ⟨?_, ?_, ?_, ?_⟩
    · intro e he
      rcases List.mem_append.1 he with h | h
      · exact P1 e h
      · simp only [List.mem_singleton] at h; subst h; rfl
    · rw [c, P2, take_succ_map_pages tr ht]
      congr 1
      ext x
      simp only [List.mem_toFinset, List.mem_append, List.mem_singleton]
      constructor
      · intro h; exact Or.inl h
      · rintro (h | h)
        · exact h
        · rw [h]; exact hmem
    · intro p
      rw [c, take_succ_map_pages tr ht, List.mem_append, List.mem_singleton, ← P3]
      constructor
      · rintro (h | h)
        · exact h
        · rw [h]; exact hmem
      · intro h; exact Or.inl h
    · rw [c, d, P4]
  · obtain ⟨a, b, rfl, c, d, f⟩ := h
    have hnot : page_of t ∉ (tr.take i).map page_of := by
      intro hm
      obtain ⟨j, hj, hjp⟩ := (P3 _).1 hm
      exact lookup_none_resident hI a j hj hjp
    refine ⟨?_, ?_, ?_, ?_⟩
    · intro e he
      rcases List.mem_append.1 he with h | h
      · exact P1 e h
      · simp only [List.mem_singleton] at h; subst h; rfl
    · rw [d, P2, take_succ_map_pages tr ht, List.toFinset_append]
      simp only [List.toFinset_cons, List.toFinset_nil, insert_emptyc_eq]
      rw [Finset.union_comm, ← Finset.insert_eq, Finset.card_insert_of_not_mem]
      simpa using hnot
    · intro p
      rw [c, d, take_succ_map_pages tr ht, List.mem_append, List.mem_singleton, P3]
      have hlen : s.pm.next_frame < s.pm.frames.length := by rw [hI.shape.pm_len]; exact b
      constructor
      · rintro (⟨j, hj, hjp⟩ | h)
        · refine ⟨j, by omega, ?_⟩
          rw [List.getElem?_set_ne (by omega)]; exact hjp
        · exact ⟨s.pm.next_frame, by omega, by rw [h, List.getElem?_set_self hlen]⟩
      · rintro ⟨j, hj, hjp⟩
        by_cases hjn : j = s.pm.next_frame
        · subst hjn
          rw [List.getElem?_set_self hlen] at hjp
          simp only [Option.some.injEq] at hjp
          exact Or.inr hjp.symm
        · rw [List.getElem?_set_ne (by omega)] at hjp
          exact Or.inl ⟨j, by omega, hjp⟩
    · rw [f, d, P4]
  · exfalso
    obtain ⟨a, b, _⟩ := h
    have hnot : page_of t ∉ (tr.take i).map page_of := by
      intro hm
      obtain ⟨j, hj, hjp⟩ := (P3 _).1 hm
      exact lookup_none_resident hI a j hj hjp
    have h1 : ((tr.take (i + 1)).map page_of).toFinset.card = N + 1 := by
      rw [take_succ_map_pages tr ht, List.toFinset_append]
      simp only [List.toFinset_cons, List.toFinset_nil, insert_emptyc_eq]
      rw [Finset.union_comm, ← Finset.insert_eq, Finset.card_insert_of_not_mem, ← P2, b]
      simpa using hnot
    have h2 : ((tr.take (i + 1)).map page_of).toFinset ⊆ (tr.map page_of).toFinset := by
      intro x hx
      simp only [List.mem_toFinset, List.mem_map] at hx ⊢
      obtain ⟨y, hy, rfl⟩ := hx
      exact ⟨y, List.mem_of_mem_take hy, rfl⟩
    have h3 := Finset.card_le_card h2
    rw [h1, List.card_toFinset] at h3
    omega

/-- C3 (amended): for every policy in 0..4, every `N >= 1` and every trace whose page
    numbers, narrowed to `int` as line 424 does, take at most `N` distinct values, the
    run from fresh state never calls a `*_replace` function and ends with `page_faults`
    equal to the number of those distinct values. -/
theorem C3_no_eviction_when_pages_fit (N alg : Nat) (tr : List TraceEntry) (hN : 1 ≤ N)
    (halg : alg ≤ 4) (hd : ((tr.map page_of).dedup).length ≤ N) :
    ∃ es s, simulate_virtual_memory_log (fresh N) alg tr tr.length = some (es, s) ∧
      (∀ e, e ∈ es → e.is_evict = false) ∧
      s.pt.page_faults = ((tr.map page_of).dedup).length := by
  obtain ⟨es, s, h1, _, _, P1, P2, _, P4⟩ := run_induction tr tr.length hN halg (Filling tr)
    (fun i es s e s' _ hI hP hS _ => Filling_step hd hI hP hS)
    tr.length 0 [] (fresh N) (Inv_fresh N alg hN)
    ⟨by simp, by simp [fresh, create_physical_memory],
      by simp [fresh, create_physical_memory], rfl⟩ (by omega)
  refine ⟨es, s, h1, by simpa using P1, ?_⟩
  rw [P4, P2]
  simp [List.card_toFinset]


/-- C3 (amended) at `N = 2`, FIFO, trace of pages 1, 2, 1. -/
theorem C3_no_eviction_when_pages_fit_witness :
    ((((loads [1, 2, 1]).map page_of).dedup).length ≤ 2) ∧
    ∃ es s, simulate_virtual_memory_log (fresh 2) 0 (loads [1, 2, 1]) (loads [1, 2, 1]).length
        = some (es, s) ∧
      (∀ e, e ∈ es → e.is_evict = false) ∧
      s.pt.page_faults = (((loads [1, 2, 1]).map page_of).dedup).length :=
  ⟨by decide, C3_no_eviction_when_pages_fit 2 0 (loads [1, 2, 1]) (by decide) (by decide)
    (by decide)⟩

/-- C3 as stated fails: the trace of the two distinct page numbers 0 and 2^32 fits
    `N = 2` frames, yet the run (FIFO) ends with `page_faults = 1`, not 2: line 424
    narrows 2^32 to the `int` 0, so the second access is a hit. -/
theorem C3_counterexample :
    (((loads [0, 4294967296]).map (fun t => t.address)).dedup).length ≤ 2 ∧
    ∃ s, simulate_virtual_memory (fresh 2) 0 (loads [0, 4294967296])
        (loads [0, 4294967296]).length = some s ∧
      s.pt.page_faults = 1 ∧
      (((loads [0, 4294967296]).map (fun t => t.address)).dedup).length = 2 := by
  refine ⟨by decide, _, rfl, by decide, by decide⟩


theorem evictions_append (es : List Event) (e : Event) :
    evictions (es ++ [e]) = evictions es ++ evictions [e] := by
  induction es with
  | nil => rfl
  | cons a es ih =>
    cases a <;> simp [evictions, ih]

theorem record_install_fifo_next {alg : Nat} {s s' : SimState} {v : Nat} {p : Int}
    (h : record_install alg s v p = some s') : s'.fifo.next_index = s.fifo.next_index := by
  unfold record_install at h
  split_ifs at h
  · split at h
    · simp only [Option.some.injEq] at h; subst h; rfl
    · simp at h
  · split at h
    · simp only [Option.some.injEq] at h; subst h; rfl
    · simp at h
  · split at h
    · simp only [Option.some.injEq] at h; subst h; rfl
    · simp at h
  · split at h
    · simp only [Option.some.injEq] at h; subst h; rfl
    · simp at h
  · simp only [Option.some.injEq] at h; subst h; rfl

theorem choose_victim_fifo {N : Nat} {tr : List TraceEntry} {ts i : Nat} {s s2 : SimState}
    {v : Nat} {cl : List Nat} (hs : s.fifo.size = N)
    (h : choose_victim 0 tr ts i s = some (v, cl, s2)) :
    v = s.fifo.next_index ∧ s2.fifo.next_index = (s.fifo.next_index + 1) % N := by
  simp only [choose_victim, fifo_replace] at h
  split_ifs at h with h0
  simp only [Option.some.injEq, Prod.mk.injEq] at h
  obtain ⟨rfl, _, rfl⟩ := h
  exact ⟨rfl, by simp [hs]⟩

theorem nodup_pages_ne {tr : List TraceEntry} (hn : (tr.map page_of).Nodup) {k i : Nat}
    {t : TraceEntry} (hki : k < i) (ht : tr[i]? = some t) :
    (tr[k]?).map page_of ≠ some (page_of t) := by
  intro hc
  have hi : i < tr.length := by
    rw [List.getElem?_eq_some] at ht; exact ht.1
  have hk : k < tr.length := by omega
  have h1 : (tr.map page_of)[k]? = some (page_of t) := by
    rw [List.getElem?_map]; exact hc
  have h2 : (tr.map page_of)[i]? = some (page_of t) := by
    rw [List.getElem?_map, ht]; rfl
  have := (List.nodup_iff_getElem?_ne_getElem?.1 hn) k i hki (by simpa using hi)
  exact this (h1.trans h2.symm)


theorem Stepped_fifo {N : Nat} {tr : List TraceEntry} {ts i : Nat} {s s' : SimState}
    {e : Event} (hI : Inv N 0 s) (h : Stepped N 0 tr ts i s e s') :
    (e.is_evict = false → s'.fifo.next_index = s.fifo.next_index) ∧
    (∀ p v r cl, e = Event.evict p v r cl →
      v = s.fifo.next_index ∧ s'.fifo.next_index = (s.fifo.next_index + 1) % N) := by
  obtain ⟨t, ht, h | h | h⟩ := h
  · obtain ⟨j, _, rfl, rfl⟩ := h
    exact ⟨fun _ => rfl, fun p v r cl hc => by cases hc⟩
  · obtain ⟨_, _, rfl, hr⟩ := h
    exact ⟨fun _ => by rw [record_install_fifo_next hr]; rfl, fun p v r cl hc => by cases hc⟩
  · obtain ⟨_, _, v, cl, s2, e0, hc, _, _, rfl, hr⟩ := h
    obtain ⟨a, b⟩ := choose_victim_fifo hI.shape.fifo_size hc
    refine ⟨fun hh => by simp [Event.is_evict] at hh, fun p v' r cl' heq => ?_⟩
    simp only [Event.evict.injEq] at heq
    obtain ⟨_, rfl, _, _⟩ := heq
    exact ⟨a, by rw [record_install_fifo_next hr]; exact b⟩

theorem mod_ne_of_close {N k i : Nat} (h1 : k < i) (h2 : i < k + N) : k % N ≠ i % N := by
  intro hc
  have := Nat.sub_mod_eq_zero_of_mod_eq hc.symm
  rw [Nat.mod_eq_of_lt (by omega)] at this
  omega

theorem FifoRun_step {N : Nat} {tr : List TraceEntry} {ts i : Nat} {s s' : SimState}
    {e : Event} {es : List Event} (hN : 0 < N) (hn : (tr.map page_of).Nodup)
    (hI : Inv N 0 s) (hP : FifoRun N tr i es s) (hS : Stepped N 0 tr ts i s e s') :
    FifoRun N tr (i + 1) (es ++ [e]) s' := by
  obtain ⟨P1, P2, P3, P4, P5⟩ := hP
  obtain ⟨F1, F2⟩ := Stepped_fifo hI hS
  obtain ⟨t, ht, h | h | h⟩ := Stepped_pm hI hS
  · exfalso
    obtain ⟨j, a, _, _, _⟩ := h
    obtain ⟨r1, r2⟩ := lookup_some_resident hI a
    obtain ⟨k, hk, hk2⟩ := P5 j r1
    rw [r2] at hk2
    exact nodup_pages_ne hn hk ht hk2.symm
  · obtain ⟨a, b, rfl, c, d, _⟩ := h
    have hiN : i < N := by
      rw [P2] at b
      exact lt_of_not_ge (fun hge => by rw [min_eq_right hge] at b; omega)
    have hnf : s.pm.next_frame = i := by rw [P2]; exact min_eq_left (le_of_lt hiN)
    have hlen : i < s.pm.frames.length := by rw [hI.shape.pm_len]; exact hiN
    refine ⟨?_, ?_, ?_, ?_, ?_⟩
    · rw [evictions_append, P1]
      have h0 : i + 1 - N = 0 := by omega
      have h1 : i - N = 0 := by omega
      simp [evictions, h0, h1]
    · rw [d, hnf]; exact (min_eq_left hiN).symm
    · rw [F1 rfl, P3]
      have h0 : i + 1 - N = 0 := by omega
      have h1 : i - N = 0 := by omega
      rw [h0, h1]
    · intro k hk1 hk2
      rw [c, hnf]
      by_cases hki : k = i
      · subst hki
        rw [Nat.mod_eq_of_lt hiN, List.getElem?_set_self hlen, ht]
        rfl
      · have hkN : k < N := by omega
        rw [Nat.mod_eq_of_lt hkN, List.getElem?_set_ne (by omega)]
        have := P4 k (by omega) (by omega)
        rwa [Nat.mod_eq_of_lt hkN] at this
    · intro j hj
      rw [c, hnf]
      rw [d, hnf] at hj
      by_cases hji : j = i
      · subst hji
        exact ⟨j, by omega, by rw [List.getElem?_set_self hlen, ht]; rfl⟩
      · obtain ⟨k, hk, hk2⟩ := P5 j (by omega)
        exact ⟨k, by omega, by rw [List.getElem?_set_ne (by omega)]; exact hk2⟩
  · obtain ⟨a, b, v, cl, s2, old, hc, hv, hold, rfl, c, d, _⟩ := h
    obtain ⟨hv1, hv2⟩ := F2 _ _ _ _ rfl
    have hiN : N ≤ i := by
      rw [P2] at b
      exact le_of_not_lt (fun hlt => by rw [min_eq_left (le_of_lt hlt)] at b; omega)
    have hvi : v = i % N := by
      rw [hv1, P3]
      conv_rhs => rw [show i = (i - N) + N by omega]
      rw [Nat.add_mod_right]
    have hlen : v < s.pm.frames.length := by rw [hI.shape.pm_len]; exact hv
    have hold2 : some old = (tr[i - N]?).map page_of := by
      rw [← hold, hv1, P3]
      exact P4 (i - N) (by omega) (by omega)
    refine ⟨?_, ?_, ?_, ?_, ?_⟩
    · rw [evictions_append, P1]
      have h0 : i + 1 - N = (i - N) + 1 := by omega
      rw [h0, List.range_succ, List.map_append]
      simp only [evictions, List.map_cons, List.map_nil, hold2, hv1, P3]
    · rw [d]; exact (min_eq_right (by omega)).symm
    · rw [hv2, P3, Nat.mod_add_mod]
      congr 1
      omega
    · intro k hk1 hk2
      rw [c]
      by_cases hki : k = i
      · subst hki
        rw [← hvi, List.getElem?_set_self hlen, ht]
        rfl
      · rw [hvi, List.getElem?_set_ne (Ne.symm (mod_ne_of_close (by omega) (by omega)))]
        exact P4 k (by omega) (by omega)
    · intro j hj
      rw [c]
      rw [d] at hj
      by_cases hjv : j = v
      · subst hjv
        exact ⟨i, by omega, by rw [List.getElem?_set_self hlen, ht]; rfl⟩
      · obtain ⟨k, hk, hk2⟩ := P5 j (by omega)
        exact ⟨k, by omega, by rw [List.getElem?_set_ne (Ne.symm hjv)]; exact hk2⟩

/-- C4 (amended): under FIFO (algorithm 0) with `N >= 1` frames, for every trace whose
    page numbers are pairwise distinct after the narrowing to `int` of line 424, the
    `(k+1)`-th eviction of the run reuses frame `k % N` and removes the page of
    `trace[k]`, the page visited `(k+1)`-th, and there are `length - N` evictions. -/
theorem C4_fifo_eviction_order (N : Nat) (tr : List TraceEntry) (hN : 1 ≤ N)
    (hn : (tr.map page_of).Nodup) :
    ∃ es s, simulate_virtual_memory_log (fresh N) 0 tr tr.length = some (es, s) ∧
      FifoOrder N tr es := by
  obtain ⟨es, s, h1, _, _, P1, _⟩ := run_induction tr tr.length hN (by omega) (FifoRun N tr)
    (fun i es s e s' _ hI hP hS _ => FifoRun_step hN hn hI hP hS)
    tr.length 0 [] (fresh N) (Inv_fresh N 0 hN)
    ⟨by simp [evictions], by simp [fresh, create_physical_memory],
      by simp [fresh, create_fifo_queue],
      fun k hk => by omega, fun j hj => by simp [fresh, create_physical_memory] at hj⟩
    (by omega)
  exact ⟨es, s, h1, by simpa [FifoOrder] using P1⟩

/-- C4 (amended) at `N = 2`, trace of pages 5, 6, 7, 8. -/
theorem C4_fifo_eviction_order_witness :
    ((loads [5, 6, 7, 8]).map page_of).Nodup ∧
    ∃ es s, simulate_virtual_memory_log (fresh 2) 0 (loads [5, 6, 7, 8])
        (loads [5, 6, 7, 8]).length = some (es, s) ∧
      FifoOrder 2 (loads [5, 6, 7, 8]) es :=
  ⟨by decide, C4_fifo_eviction_order 2 (loads [5, 6, 7, 8]) (by decide) (by decide)⟩

/-- C4 as stated fails: with `N = 1` and the pairwise distinct page numbers
    0, 2^32, 1, 2 the run has two evictions, the second of which removes page 1 (the
    third page visited), not the second page visited: line 424 narrows 2^32 to the
    `int` 0, so the second access is a hit. -/
theorem C4_counterexample :
    ((loads [0, 4294967296, 1, 2]).map (fun t => t.address)).Nodup ∧
    ∃ es s, simulate_virtual_memory_log (fresh 1) 0 (loads [0, 4294967296, 1, 2])
        (loads [0, 4294967296, 1, 2]).length = some (es, s) ∧
      evictions es = [(0, some 0), (0, some 1)] ∧
      ¬ FifoOrder 1 (loads [0, 4294967296, 1, 2]) es := by
  refine ⟨by decide, _, _, rfl, by decide, ?_⟩
  unfold FifoOrder
  decide



theorem lru_scan_spec (ages : List Int) :
    ∀ (n i : Nat) (o : Int) (r : Nat), i + n = ages.length → r < i → ages[r]? = some o →
      (∀ j a, j < i → ages[j]? = some a → a ≤ o) →
      (∀ j a, j < r → ages[j]? = some a → a < o) →
      FirstOldest ages (lru_scan ages n i o r) := by
  intro n
  induction n with
  | zero =>
    intro i o r hi hr ho h1 h2
    refine ⟨o, ho, ?_, h2⟩
    intro j a hj
    have : j < ages.length := by
      rw [List.getElem?_eq_some] at hj; exact hj.1
    exact h1 j a (by omega) hj
  | succ n ih =>
    intro i o r hi hr ho h1 h2
    unfold lru_scan
    have hlt : i < ages.length := by omega
    rw [List.getElem?_eq_getElem hlt]
    simp only
    split_ifs with hgt
    · apply ih (i + 1) _ i (by omega) (by omega) (List.getElem?_eq_getElem hlt)
      · intro j a hj hja
        by_cases hji : j = i
        · subst hji
          rw [List.getElem?_eq_getElem hlt] at hja
          simp only [Option.some.injEq] at hja
          omega
        · have := h1 j a (by omega) hja
          omega
      · intro j a hj hja
        have := h1 j a hj hja
        omega
    · apply ih (i + 1) o r (by omega) (by omega) ho
      · intro j a hj hja
        by_cases hji : j = i
        · subst hji
          rw [List.getElem?_eq_getElem hlt] at hja
          simp only [Option.some.injEq] at hja
          omega
        · exact h1 j a (by omega) hja
      · exact h2

theorem lru_replace_spec {N : Nat} {lru : LRUQueue} (hN : 0 < N) (hs : lru.size = N)
    (hl : lru.ages.length = N) (hnn : ∀ a, a ∈ lru.ages → 0 ≤ a) :
    FirstOldest lru.ages (lru_replace lru) := by
  unfold lru_replace
  obtain ⟨n, hn⟩ : ∃ n, lru.size = n + 1 := ⟨lru.size - 1, by omega⟩
  rw [hn]
  unfold lru_scan
  have hlt : 0 < lru.ages.length := by omega
  rw [List.getElem?_eq_getElem hlt]
  have h0 : (0 : Int) ≤ lru.ages[0] := hnn _ (List.getElem_mem hlt)
  have hgt : lru.ages[0] > -1 := by omega
  simp only [hgt, if_true]
  apply lru_scan_spec lru.ages n 1 _ 0 (by omega) (by omega) (List.getElem?_eq_getElem hlt)
  · intro j a hj hja
    have : j = 0 := by omega
    subst this
    rw [List.getElem?_eq_getElem hlt] at hja
    simp only [Option.some.injEq] at hja
    omega
  · intro j a hj; omega

theorem access_hit_keeps_lru {alg : Nat} {tr : List TraceEntry} {ts i : Nat} {s s' : SimState}
    {p : Int} {j : Nat} (h : access alg tr ts i s = some (Event.hit p j, s')) :
    s'.lru = s.lru := by
  unfold access at h
  cases ht : tr[i]? with
  | none => simp [ht] at h
  | some t =>
    simp only [ht] at h
    cases hl : lookup s.pt (toInt32 t.address) with
    | some j1 =>
      simp only [hl, Option.some.injEq, Prod.mk.injEq] at h
      obtain ⟨_, rfl⟩ := h
      rfl
    | none =>
      simp only [hl] at h
      split_ifs at h
      · split at h
        · simp at h
        · split at h
          · simp at h
          · simp at h
      · split at h
        · simp at h
        · split at h
          · simp at h
          · split at h
            · simp at h
            · simp at h



theorem run_prefix {N alg : Nat} (tr : List TraceEntry) (ts : Nat) (hN : 0 < N)
    (halg : alg ≤ 4) {k : Nat} (hk : k ≤ tr.length) :
    ∃ es s, simulate_from alg tr ts k 0 (fresh N) = some (es, s) ∧ Inv N alg s := by
  obtain ⟨es, s, h1, _, h3, _⟩ := run_induction tr ts hN halg (fun _ _ _ => True)
    (fun _ _ _ _ _ _ _ _ _ _ => trivial) k 0 [] (fresh N) (Inv_fresh N alg hN)
    trivial (by omega)
  exact ⟨es, s, h1, h3⟩

theorem lru_example (A B C D : Nat)
    (hAB : page_of ⟨'l', A⟩ ≠ page_of ⟨'l', B⟩) (hAC : page_of ⟨'l', A⟩ ≠ page_of ⟨'l', C⟩)
    (hAD : page_of ⟨'l', A⟩ ≠ page_of ⟨'l', D⟩) (hBC : page_of ⟨'l', B⟩ ≠ page_of ⟨'l', C⟩)
    (hBD : page_of ⟨'l', B⟩ ≠ page_of ⟨'l', D⟩) (hCD : page_of ⟨'l', C⟩ ≠ page_of ⟨'l', D⟩) :
    ∃ s, simulate_virtual_memory_log (fresh 3) 1 (loads [A, B, C, A, D]) 5 =
        some ([Event.fill (toInt32 A) 0, Event.fill (toInt32 B) 1, Event.fill (toInt32 C) 2,
          Event.hit (toInt32 A) 0, Event.evict (toInt32 D) 0 (some (toInt32 A)) []], s) ∧
      s.pm.frames = [toInt32 D, toInt32 B, toInt32 C] ∧ s.pt.hits = 1 ∧ s.pt.misses = 4 := by
  simp only [page_of] at hAB hAC hAD hBC hBD hCD
  have e1 : simulate_virtual_memory_log (fresh 3) 1 (loads [A, B, C, A, D]) 5 =
      simulate_from 1 (loads [A, B, C, A, D]) 5 5 0 (fresh 3) := rfl
  rw [e1]
  simp [simulate_from, access, loads, lookup, find_from, page_test, fresh, create_page_table,
    create_physical_memory, create_fifo_queue, create_lru_queue, create_clock_queue,
    create_second_chance_queue, empty_entry, install, store, record_install, age_all, upd,
    choose_victim, lru_replace, lru_scan, invalidate, owner, frame_test,
    hAB, hAC, hAD, hBC, hBD, hCD, Ne.symm hAB, Ne.symm hAC, Ne.symm hAD, Ne.symm hBC,
    Ne.symm hBD, Ne.symm hCD]

/-- C5 (amended): under LRU (algorithm 1), in the state before any access `k` of a run from fresh
    state with `N >= 1` frames, the access returns; if it is a hit no frame's age
    changes, and if it evicts, the victim is `lru_replace`'s result, the lowest-indexed
    frame among those whose age is greatest.  With `N = 3` and the trace `[A,B,C,A,D]`
    of four pages whose `int` page numbers differ, the events are three fills, a hit on
    frame 0 and the eviction of frame 0 holding `A` on the miss of `D`; the run ends with
    frames `[D,B,C]`, `hits = 1` and `misses = 4`. -/
theorem C5_lru_age_rule (N : Nat) (tr : List TraceEntry) (k : Nat) (hN : 1 ≤ N)
    (hk : k < tr.length) :
    (∃ es s, simulate_from 1 tr tr.length k 0 (fresh N) = some (es, s) ∧
      ∃ e s', access 1 tr tr.length k s = some (e, s') ∧
        (∀ p j, e = Event.hit p j → s'.lru.ages = s.lru.ages) ∧
        (∀ p v r cl, e = Event.evict p v r cl →
          v = lru_replace s.lru ∧ v < N ∧ FirstOldest s.lru.ages v)) ∧
    (∀ A B C D : Nat,
      page_of ⟨'l', A⟩ ≠ page_of ⟨'l', B⟩ → page_of ⟨'l', A⟩ ≠ page_of ⟨'l', C⟩ →
      page_of ⟨'l', A⟩ ≠ page_of ⟨'l', D⟩ → page_of ⟨'l', B⟩ ≠ page_of ⟨'l', C⟩ →
      page_of ⟨'l', B⟩ ≠ page_of ⟨'l', D⟩ → page_of ⟨'l', C⟩ ≠ page_of ⟨'l', D⟩ →
      ∃ s, simulate_virtual_memory_log (fresh 3) 1 (loads [A, B, C, A, D]) 5 =
          some ([Event.fill (toInt32 A) 0, Event.fill (toInt32 B) 1,
            Event.fill (toInt32 C) 2, Event.hit (toInt32 A) 0,
            Event.evict (toInt32 D) 0 (some (toInt32 A)) []], s) ∧
        s.pm.frames = [toInt32 D, toInt32 B, toInt32 C] ∧ s.pt.hits = 1 ∧
        s.pt.misses = 4) := by
  refine ⟨?_, lru_example⟩
  obtain ⟨es, s, h1, hI⟩ := run_prefix tr tr.length hN (by omega : 1 ≤ 4) (le_of_lt hk)
  obtain ⟨e, s', h2, hS, _⟩ := access_step tr.length hN (by omega : 1 ≤ 4) hI hk
  refine ⟨es, s, h1, e, s', h2, ?_, ?_⟩
  · intro p j he
    subst he
    rw [access_hit_keeps_lru h2]
  · intro p v r cl he
    subst he
    obtain ⟨t, _, h | h | h⟩ := hS
    · obtain ⟨_, _, hc, _⟩ := h; cases hc
    · obtain ⟨_, _, hc, _⟩ := h; cases hc
    · obtain ⟨_, _, v', cl', s2, e0, hc, hv, _, heq, _⟩ := h
      simp only [Event.evict.injEq] at heq
      obtain ⟨_, rfl, _, _⟩ := heq
      have hv2 : v = lru_replace s.lru := by
        simp only [choose_victim, Option.some.injEq, Prod.mk.injEq] at hc
        exact hc.1.symm
      refine ⟨hv2, hv, ?_⟩
      rw [hv2]
      exact lru_replace_spec hN hI.shape.lru_size hI.shape.lru_ages hI.shape.lru_nonneg


/-- C5 at `N = 3`, trace of pages 1, 2, 3, 1, 4, before the access of page 4. -/
theorem C5_lru_age_rule_witness :
    4 < (loads [1, 2, 3, 1, 4]).length ∧
    ((∃ es s, simulate_from 1 (loads [1, 2, 3, 1, 4]) (loads [1, 2, 3, 1, 4]).length 4 0
        (fresh 3) = some (es, s) ∧
      ∃ e s', access 1 (loads [1, 2, 3, 1, 4]) (loads [1, 2, 3, 1, 4]).length 4 s
          = some (e, s') ∧
        (∀ p j, e = Event.hit p j → s'.lru.ages = s.lru.ages) ∧
        (∀ p v r cl, e = Event.evict p v r cl →
          v = lru_replace s.lru ∧ v < 3 ∧ FirstOldest s.lru.ages v)) ∧
    (∀ A B C D : Nat,
      page_of ⟨'l', A⟩ ≠ page_of ⟨'l', B⟩ → page_of ⟨'l', A⟩ ≠ page_of ⟨'l', C⟩ →
      page_of ⟨'l', A⟩ ≠ page_of ⟨'l', D⟩ → page_of ⟨'l', B⟩ ≠ page_of ⟨'l', C⟩ →
      page_of ⟨'l', B⟩ ≠ page_of ⟨'l', D⟩ → page_of ⟨'l', C⟩ ≠ page_of ⟨'l', D⟩ →
      ∃ s, simulate_virtual_memory_log (fresh 3) 1 (loads [A, B, C, A, D]) 5 =
          some ([Event.fill (toInt32 A) 0, Event.fill (toInt32 B) 1,
            Event.fill (toInt32 C) 2, Event.hit (toInt32 A) 0,
            Event.evict (toInt32 D) 0 (some (toInt32 A)) []], s) ∧
        s.pm.frames = [toInt32 D, toInt32 B, toInt32 C] ∧ s.pt.hits = 1 ∧
        s.pt.misses = 4)) :=
  ⟨by decide, C5_lru_age_rule 3 (loads [1, 2, 3, 1, 4]) 4 (by decide) (by decide)⟩


/-- C5 as stated fails: 0, 2^32, 1, 2 are four distinct pages, yet with `N = 3` the LRU
    run over `[A,B,C,A,D] = [0, 2^32, 1, 0, 2]` evicts nothing: line 424 narrows 2^32 to
    the `int` 0, so the second access is a hit on frame 0, and the run ends with frames
    `[0, 1, 2]`, `hits = 2` and `misses = 3`, not with frames `[D,B,C]`, `hits = 1` and
    `misses = 4`. -/
theorem C5_counterexample :
    [0, 4294967296, 1, 2].Nodup ∧
    (simulate_virtual_memory_log (fresh 3) 1 (loads [0, 4294967296, 1, 0, 2]) 5).map
        (fun r => (r.1, r.2.pm.frames, r.2.pt.hits, r.2.pt.misses)) =
      some ([Event.fill 0 0, Event.hit 0 0, Event.fill 1 1, Event.hit 0 0, Event.fill 2 2],
        [0, 1, 2], 2, 3) := by
  refine ⟨by decide, by decide⟩

theorem toUInt64_of_nonneg {f : Int} (h0 : 0 ≤ f) (h1 : f < 2 ^ 31) :
    (toUInt64 f : Int) = f := by
  unfold toUInt64
  have : f % 2 ^ 64 = f := Int.emod_eq_of_lt h0 (by omega)
  rw [this]
  exact Int.toNat_of_nonneg h0

theorem min_match_iff {tr : List TraceEntry} {frames : List Int} {g j : Nat} {f : Int}
    (hf : frames[g]? = some f) (h0 : 0 ≤ f) (h1 : f < 2 ^ 31) :
    min_match tr frames g j = true ↔ occurs_at tr f j := by
  unfold min_match occurs_at
  rw [hf]
  cases ht : tr[j]? with
  | none => simp
  | some t =>
    simp only [beq_iff_eq, Option.some.injEq, exists_eq_left']
    have key := toUInt64_of_nonneg h0 h1
    constructor
    · intro h; rw [← h]; exact key
    · intro h
      have : ((toUInt64 f : Nat) : Int) = (t.address : Int) := by rw [key, h]
      exact Int.ofNat_inj.1 this

theorem occurs_at_lt {tr : List TraceEntry} {p : Int} {j : Nat} (h : occurs_at tr p j) :
    j < tr.length := by
  obtain ⟨t, ht, _⟩ := h
  rw [List.getElem?_eq_some] at ht
  exact ht.1

theorem min_next_use_none {tr : List TraceEntry} {frames : List Int} {i g : Nat} {f : Int}
    (hf : frames[g]? = some f) (h0 : 0 ≤ f) (h1 : f < 2 ^ 31)
    (h : min_next_use tr tr.length i frames g = none) : never_used tr i f := by
  intro j hj hocc
  have hlt := occurs_at_lt hocc
  have := find_from_none h j hj (by omega)
  rw [(min_match_iff hf h0 h1).2 hocc] at this
  cases this

theorem min_next_use_some {tr : List TraceEntry} {frames : List Int} {i g j : Nat} {f : Int}
    (hf : frames[g]? = some f) (h0 : 0 ≤ f) (h1 : f < 2 ^ 31)
    (h : min_next_use tr tr.length i frames g = some j) : first_use tr i f j := by
  obtain ⟨a, _, c, d⟩ := find_from_some h
  refine ⟨a, (min_match_iff hf h0 h1).1 c, ?_⟩
  intro m hm1 hm2 hocc
  have := d m hm1 hm2
  rw [(min_match_iff hf h0 h1).2 hocc] at this
  cases this

theorem first_use_unique {tr : List TraceEntry} {i : Nat} {p : Int} {j j' : Nat}
    (h : first_use tr i p j) (h' : first_use tr i p j') : j = j' := by
  obtain ⟨a, b, c⟩ := h
  obtain ⟨a', b', c'⟩ := h'
  rcases Nat.lt_trichotomy j j' with hlt | heq | hgt
  · exact absurd b (c' j a hlt)
  · exact heq
  · exact absurd b' (c j' a' hgt)

theorem first_use_not_never {tr : List TraceEntry} {i : Nat} {p : Int} {j : Nat}
    (h : first_use tr i p j) : ¬ never_used tr i p :=
  fun hn => hn j h.1 h.2.1

theorem occurs_at_same {tr : List TraceEntry} {p q : Int} {j : Nat}
    (h : occurs_at tr p j) (h' : occurs_at tr q j) : p = q := by
  obtain ⟨t, ht, hp⟩ := h
  obtain ⟨t', ht', hq⟩ := h'
  rw [ht] at ht'
  simp only [Option.some.injEq] at ht'
  subst ht'
  rw [← hp, ← hq]


theorem nodup_index_eq {frames : List Int} (hd : frames.Nodup) {a b : Nat} {p : Int}
    (ha : frames[a]? = some p) (hb : frames[b]? = some p) : a = b := by
  have hal : a < frames.length := by rw [List.getElem?_eq_some] at ha; exact ha.1
  have hbl : b < frames.length := by rw [List.getElem?_eq_some] at hb; exact hb.1
  rcases Nat.lt_trichotomy a b with hlt | heq | hgt
  · exact absurd (ha.trans hb.symm) ((List.nodup_iff_getElem?_ne_getElem?.1 hd) a b hlt hbl)
  · exact heq
  · exact absurd (hb.trans ha.symm) ((List.nodup_iff_getElem?_ne_getElem?.1 hd) b a hgt hal)

theorem min_scan_spec (tr : List TraceEntry) (i : Nat) (frames : List Int)
    (hi : i ≤ tr.length) (hpages : ∀ f, f ∈ frames → 0 ≤ f ∧ f < 2 ^ 31) (hd : frames.Nodup)
    (hN : 0 < frames.length) :
    ∀ (n g far : Nat) (rep : Int), g + n = frames.length →
      (∀ (g' : Nat) (pg : Int), g' < g → frames[g']? = some pg →
        ∃ j, first_use tr i pg j ∧ j ≤ far) →
      ((rep = -1 ∧ far = i) ∨
        (∃ g0 : Nat, rep = (g0 : Int) ∧ g0 < g ∧
          ∃ p0 : Int, frames[g0]? = some p0 ∧ first_use tr i p0 far)) →
      MinVictim tr i frames (min_scan tr tr.length i frames n g far rep) := by
  intro n
  induction n with
  | zero =>
    intro g far rep hg hall hrep
    have hgN : g = frames.length := by omega
    subst hgN
    have hall' : ∀ (g' : Nat) (pg : Int), frames[g']? = some pg →
        ∃ j, first_use tr i pg j ∧ j ≤ far := by
      intro g' pg h
      have : g' < frames.length := by rw [List.getElem?_eq_some] at h; exact h.1
      exact hall g' pg this h
    unfold min_scan
    rcases hrep with ⟨h1, h2⟩ | ⟨g0, h1, h2, p0, h3, h4⟩
    · subst h1 h2
      simp only [if_true]
      refine ⟨frames[0], List.getElem?_eq_getElem hN, Or.inr ⟨?_, ?_⟩⟩
      · intro g pg h
        obtain ⟨j, hj, _⟩ := hall' g pg h
        exact first_use_not_never hj
      · obtain ⟨j0, hj0, hle0⟩ := hall' 0 _ (List.getElem?_eq_getElem hN)
        have hj0i : j0 = far := le_antisymm hle0 hj0.1
        subst hj0i
        refine ⟨j0, hj0, ?_⟩
        intro g pg jg hne hg' hfu
        exfalso
        obtain ⟨j, hj, hle⟩ := hall' g pg hg'
        have hjj : j = j0 := le_antisymm hle hj.1
        subst hjj
        have hpp : pg = frames[0] := occurs_at_same hj.2.1 hj0.2.1
        subst hpp
        exact hne (nodup_index_eq hd hg' (List.getElem?_eq_getElem hN))
    · subst h1
      have hne1 : ((g0 : Nat) : Int) ≠ -1 := by omega
      simp only [hne1, if_false, Int.toNat_ofNat]
      refine ⟨p0, h3, Or.inr ⟨?_, far, h4, ?_⟩⟩
      · intro g pg h
        obtain ⟨j, hj, _⟩ := hall' g pg h
        exact first_use_not_never hj
      · intro g pg jg hne hg' hfu
        obtain ⟨j, hj, hle⟩ := hall' g pg hg'
        have hjj : jg = j := first_use_unique hfu hj
        subst hjj
        rcases Nat.lt_or_ge jg far with hlt | hge
        · exact hlt
        · exfalso
          have hjf : jg = far := le_antisymm hle hge
          subst hjf
          have hpp : pg = p0 := occurs_at_same hfu.2.1 h4.2.1
          subst hpp
          exact hne (nodup_index_eq hd hg' h3)
  | succ n ih =>
    intro g far rep hg hall hrep
    have hgl : g < frames.length := by omega
    have hfg : frames[g]? = some frames[g] := List.getElem?_eq_getElem hgl
    obtain ⟨hp0, hp1⟩ := hpages _ (List.getElem_mem hgl)
    unfold min_scan
    cases hm : min_next_use tr tr.length i frames g with
    | none =>
      simp only [hi, if_true]
      refine ⟨frames[g], hfg, Or.inl ⟨min_next_use_none hfg hp0 hp1 hm, ?_⟩⟩
      intro g' pg hg' h
      obtain ⟨j, hj, _⟩ := hall g' pg hg' h
      exact first_use_not_never hj
    | some j =>
      simp only
      have hfu := min_next_use_some hfg hp0 hp1 hm
      split_ifs with hgt
      · apply ih (g + 1) j (g : Int) (by omega)
        · intro g' pg hg' h
          by_cases hgg : g' = g
          · subst hgg
            rw [hfg] at h
            simp only [Option.some.injEq] at h
            subst h
            exact ⟨j, hfu, le_refl _⟩
          · obtain ⟨j', hj', hle⟩ := hall g' pg (by omega) h
            exact ⟨j', hj', by omega⟩
        · exact Or.inr ⟨g, rfl, by omega, frames[g], hfg, hfu⟩
      · apply ih (g + 1) far rep (by omega)
        · intro g' pg hg' h
          by_cases hgg : g' = g
          · subst hgg
            rw [hfg] at h
            simp only [Option.some.injEq] at h
            subst h
            exact ⟨j, hfu, by omega⟩
          · exact hall g' pg (by omega) h
        · rcases hrep with h | ⟨g0, h1, h2, h3⟩
          · exact Or.inl h
          · exact Or.inr ⟨g0, h1, by omega, h3⟩

theorem min_replace_spec (tr : List TraceEntry) (i : Nat) (pt : PageTable)
    (pm : PhysicalMemory) (hi : i < tr.length) (hsize : pm.size = pm.frames.length)
    (hN : 1 ≤ pm.size)
    (hpages : ∀ f, f ∈ pm.frames → 0 ≤ f ∧ f < 2 ^ 31) (hd : pm.frames.Nodup) :
    MinVictim tr i pm.frames (min_replace tr tr.length i pt pm) := by
  unfold min_replace
  apply min_scan_spec tr i pm.frames (le_of_lt hi) hpages hd (by omega) pm.size 0 i (-1)
    (by omega)
  · intro g' pg hg'; omega
  · exact Or.inl ⟨rfl, rfl⟩



theorem toInt32_of_lt {a : Nat} (h : a < 2 ^ 31) : toInt32 a = (a : Int) := by
  unfold toInt32
  have h1 : a % 2 ^ 32 = a := Nat.mod_eq_of_lt (by omega)
  rw [h1, if_pos h]

theorem toUInt64_natCast {a : Nat} (h : a < 2 ^ 31) : toUInt64 (a : Int) = a := by
  have h0 : (0 : Int) ≤ (a : Int) := by omega
  have := toUInt64_of_nonneg h0 (by exact_mod_cast h)
  exact_mod_cast this

set_option maxHeartbeats 4000000 in
theorem min_example (A B C D : Nat) (hA : A < 2 ^ 31) (hB : B < 2 ^ 31) (hC : C < 2 ^ 31)
    (hD : D < 2 ^ 31) (hAB : A ≠ B) (hAC : A ≠ C) (hAD : A ≠ D) (hBC : B ≠ C) (hBD : B ≠ D)
    (hCD : C ≠ D) :
    ∃ s, simulate_virtual_memory_log (fresh 3) 2 (loads [A, B, C, A, B, D, A, B, C]) 9 =
        some ([Event.fill A 0, Event.fill B 1, Event.fill C 2, Event.hit A 0, Event.hit B 1,
          Event.evict D 2 (some (C : Int)) [], Event.hit A 0, Event.hit B 1,
          Event.evict C 0 (some (A : Int)) []], s) := by
  have e1 : simulate_virtual_memory_log (fresh 3) 2 (loads [A, B, C, A, B, D, A, B, C]) 9 =
      simulate_from 2 (loads [A, B, C, A, B, D, A, B, C]) 9 9 0 (fresh 3) := rfl
  rw [e1]
  simp [simulate_from, access, loads, lookup, find_from, page_test, fresh, create_page_table,
    create_physical_memory, create_fifo_queue, create_lru_queue, create_clock_queue,
    create_second_chance_queue, empty_entry, install, store, record_install, upd,
    choose_victim, min_replace, min_scan, min_next_use, min_match, invalidate, owner,
    frame_test, toInt32_of_lt hA, toInt32_of_lt hB, toInt32_of_lt hC, toInt32_of_lt hD,
    toUInt64_natCast hA, toUInt64_natCast hB, toUInt64_natCast hC, toUInt64_natCast hD,
    hAB, hAC, hAD, hBC, hBD, hCD, Ne.symm hAB, Ne.symm hAC, Ne.symm hAD, Ne.symm hBC,
    Ne.symm hBD, Ne.symm hCD]


/-- C6: when all `N >= 1` frames hold distinct pages with page numbers in `[0, 2^31)`,
    `min_replace` at a trace index `i < trace_size` returns the lowest frame whose page does not occur
    in `trace[i..trace_size-1]` if there is such a frame, and otherwise the frame whose
    page's first occurrence at or after `i` is the latest.  With `N = 3` and the trace
    `[A,B,C,A,B,D,A,B,C]` of four distinct pages below `2^31`, the victim chosen on the
    miss of `D` (index 5) is frame 2, holding `C`. -/
theorem C6_min_victim (tr : List TraceEntry) (i : Nat) (pt : PageTable) (pm : PhysicalMemory)
    (hi : i < tr.length) (hsize : pm.size = pm.frames.length) (hN : 1 ≤ pm.size)
    (hpages : ∀ f, f ∈ pm.frames → 0 ≤ f ∧ f < 2 ^ 31) (hd : pm.frames.Nodup) :
    MinVictim tr i pm.frames (min_replace tr tr.length i pt pm) ∧
    (∀ A B C D : Nat, A < 2 ^ 31 → B < 2 ^ 31 → C < 2 ^ 31 → D < 2 ^ 31 →
      A ≠ B → A ≠ C → A ≠ D → B ≠ C → B ≠ D → C ≠ D →
      ∃ s, simulate_virtual_memory_log (fresh 3) 2 (loads [A, B, C, A, B, D, A, B, C]) 9 =
        some ([Event.fill A 0, Event.fill B 1, Event.fill C 2, Event.hit A 0, Event.hit B 1,
          Event.evict D 2 (some (C : Int)) [], Event.hit A 0, Event.hit B 1,
          Event.evict C 0 (some (A : Int)) []], s)) :=
  ⟨min_replace_spec tr i pt pm hi hsize hN hpages hd, min_example⟩

/-- C6 at the state of the example before the miss of `D`: frames `[1,2,3]`, index 5 of
    the trace of pages 1, 2, 3, 1, 2, 4, 1, 2, 3. -/
theorem C6_min_victim_witness :
    MinVictim (loads [1, 2, 3, 1, 2, 4, 1, 2, 3]) 5 [1, 2, 3]
      (min_replace (loads [1, 2, 3, 1, 2, 4, 1, 2, 3])
        (loads [1, 2, 3, 1, 2, 4, 1, 2, 3]).length 5 (create_page_table 3)
        { frames := [1, 2, 3], size := 3, next_frame := 3 }) ∧
    (∀ A B C D : Nat, A < 2 ^ 31 → B < 2 ^ 31 → C < 2 ^ 31 → D < 2 ^ 31 →
      A ≠ B → A ≠ C → A ≠ D → B ≠ C → B ≠ D → C ≠ D →
      ∃ s, simulate_virtual_memory_log (fresh 3) 2 (loads [A, B, C, A, B, D, A, B, C]) 9 =
        some ([Event.fill A 0, Event.fill B 1, Event.fill C 2, Event.hit A 0, Event.hit B 1,
          Event.evict D 2 (some (C : Int)) [], Event.hit A 0, Event.hit B 1,
          Event.evict C 0 (some (A : Int)) []], s)) :=
  C6_min_victim (loads [1, 2, 3, 1, 2, 4, 1, 2, 3]) 5 (create_page_table 3)
    { frames := [1, 2, 3], size := 3, next_frame := 3 } (by decide) rfl (by decide)
    (by decide) (by decide)


theorem choose_victim_clock_eq {N h : Nat} (tr : List TraceEntry) (ts i : Nat) {s : SimState}
    (hN : 0 < N) (hs : Shape N s) (hh : h ≤ N) (hand : s.clock.hand = h % N)
    (hpat : ∀ j, j < N → s.clock.reference_bits[j]? = some (if j < h then 1 else 0)) :
    choose_victim 4 tr ts i s = some (if h = N then 0 else h,
      if h = N then List.range' 0 N else [],
      { s with clock := { s.clock with
          reference_bits := if h = N then List.replicate N 0 else s.clock.reference_bits,
          hand := if h = N then 1 % N else (h + 1) % N } }) := by
  have key := clock_replace_full s.clock hN hs.clock_size hs.clock_bits hh hand hpat
  simp only [choose_victim, key]

theorem choose_victim_sc_eq {N h : Nat} (tr : List TraceEntry) (ts i : Nat) {s : SimState}
    (hN : 0 < N) (hs : Shape N s) (hh : h ≤ N) (hand : s.sc.hand = h % N)
    (hpat : ∀ j, j < N → s.sc.reference_bits[j]? = some (if j < h then 1 else 0)) :
    choose_victim 3 tr ts i s = some (if h = N then 0 else h,
      if h = N then List.range' 0 N else [],
      { s with sc := { s.sc with
          reference_bits := if h = N then List.replicate N 0 else s.sc.reference_bits,
          hand := if h = N then 1 % N else (h + 1) % N } }) := by
  have key := clock_replace_full (sc_as_clock s.sc) hN hs.sc_size hs.sc_bits hh hand hpat
  simp only [choose_victim, second_chance_replace_eq, key]
  rfl

theorem policy_ring {N alg : Nat} {s : SimState} (halg : alg = 3 ∨ alg = 4)
    (hI : Inv N alg s) : ring N s.pm.next_frame (policy_bits alg s) (policy_hand alg s) := by
  rcases halg with rfl | rfl
  · simpa [policy_bits, policy_hand] using hI.sc_ring rfl
  · simpa [policy_bits, policy_hand] using hI.clock_ring rfl

/-- What an access does to the reference bits of the run's hand-scanning policy. -/
theorem Stepped_ring {N alg : Nat} {tr : List TraceEntry} {ts i : Nat} {s s' : SimState}
    {e : Event} (hN : 0 < N) (halg : alg = 3 ∨ alg = 4) (hI : Inv N alg s)
    (h : Stepped N alg tr ts i s e s') :
    (∃ p j, e = Event.hit p j ∧ policy_bits alg s' = policy_bits alg s ∧
        policy_hand alg s' = policy_hand alg s ∧ s'.pm.next_frame = s.pm.next_frame) ∨
    (∃ p, e = Event.fill p s.pm.next_frame ∧ s.pm.next_frame < N ∧
        policy_bits alg s' = (policy_bits alg s).set s.pm.next_frame 1 ∧
        policy_hand alg s' = policy_hand alg s ∧
        s'.pm.next_frame = s.pm.next_frame + 1) ∨
    (∃ p r h, s.pm.next_frame = N ∧ s'.pm.next_frame = N ∧ 1 ≤ h ∧ h ≤ N ∧
        policy_hand alg s = h % N ∧
        (∀ j, j < N → (policy_bits alg s)[j]? = some (if j < h then 1 else 0)) ∧
        e = Event.evict p (if h = N then 0 else h) r
          (if h = N then List.range' 0 N else []) ∧
        policy_bits alg s' =
          (if h = N then List.replicate N 0 else policy_bits alg s).set
            (if h = N then 0 else h) 1 ∧
        policy_hand alg s' = (if h = N then 1 % N else (h + 1) % N)) := by
  obtain ⟨t, ht, h | h | h⟩ := h
  · obtain ⟨j, _, rfl, rfl⟩ := h
    exact Or.inl ⟨_, j, rfl, rfl, rfl, rfl⟩
  · obtain ⟨_, hfree, rfl, hr⟩ := h
    obtain ⟨s'', r1, r2, r3, r4, r5, r6, r7, r8, r9⟩ :=
      record_install_spec alg (toInt32 t.address)
        (Shape_miss_state hI.shape s.pm.next_frame (toInt32 t.address) (s.pm.next_frame + 1))
        hfree
    rw [hr] at r1
    simp only [Option.some.injEq] at r1
    subst r1
    refine Or.inr (Or.inl ⟨_, rfl, hfree, ?_, ?_, by rw [r3]; rfl⟩)
    · rcases halg with rfl | rfl
      · simp only [policy_bits, if_true, r8]; rfl
      · simp only [policy_bits, r9]; rfl
    · rcases halg with rfl | rfl
      · simp only [policy_hand, if_true, r6]; rfl
      · simp only [policy_hand, r7]; rfl
  · obtain ⟨_, hfull, v, cl, s2, e0, hc, hv, he0, rfl, hr⟩ := h
    obtain ⟨h, hh, hpat, hrest⟩ := policy_ring halg hI
    rw [hfull] at hrest
    simp only [lt_irrefl, if_false] at hrest
    obtain ⟨hh1, hhand⟩ := hrest
    have halg4 : alg ≤ 4 := by rcases halg with rfl | rfl <;> omega
    have hs2 : Shape N s2 := by
      obtain ⟨v', cl', s2', c1, _, c3, _, _⟩ := choose_victim_spec tr ts i hN
        halg4 hI.shape
        (fun ha => by have := hI.clock_ring ha; rwa [hfull] at this)
        (fun ha => by have := hI.sc_ring ha; rwa [hfull] at this)
      rw [hc] at c1
      simp only [Option.some.injEq, Prod.mk.injEq] at c1
      obtain ⟨_, _, rfl⟩ := c1
      exact c3
    obtain ⟨s'', r1, r2, r3, r4, r5, r6, r7, r8, r9⟩ :=
      record_install_spec alg (toInt32 t.address)
        (Shape_miss_state hs2 v (toInt32 t.address) N) hv
    rw [hr] at r1
    simp only [Option.some.injEq] at r1
    subst r1
    rcases halg with rfl | rfl
    · simp only [policy_bits, policy_hand, if_true] at hpat hhand ⊢
      have key := choose_victim_sc_eq tr ts i hN hI.shape hh hhand hpat
      rw [hc] at key
      simp only [Option.some.injEq, Prod.mk.injEq] at key
      obtain ⟨rfl, rfl, rfl⟩ := key
      refine Or.inr (Or.inr ⟨_, _, h, hfull, by rw [r3]; rfl, hh1, hh, hhand, hpat, rfl, ?_, ?_⟩)
      · rw [r8]; rfl
      · rw [r6]; rfl
    · simp only [policy_bits, policy_hand] at hpat hhand ⊢
      simp only [show ¬ (4 = 3) by decide, if_false] at hpat hhand ⊢
      have key := choose_victim_clock_eq tr ts i hN hI.shape hh hhand hpat
      rw [hc] at key
      simp only [Option.some.injEq, Prod.mk.injEq] at key
      obtain ⟨rfl, rfl, rfl⟩ := key
      refine Or.inr (Or.inr ⟨_, _, h, hfull, by rw [r3]; rfl, hh1, hh, hhand, hpat, rfl, ?_, ?_⟩)
      · rw [r9]; rfl
      · rw [r7]; rfl



theorem pending_snoc (f : Nat) (es : List Event) (e : Event) :
    pending f (es ++ [e]) = if e.installs f then 0 else pending f es + e.clears f := by
  simp [pending, List.foldl_append]

theorem foldl_no_install (f : Nat) (mid : List Event)
    (h : ∀ e, e ∈ mid → e.installs f = false) (c : Nat) :
    mid.foldl (fun c e => if e.installs f then 0 else c + e.clears f) c = c + clears f mid := by
  induction mid generalizing c with
  | nil => simp [clears]
  | cons a mid ih =>
    have ha : a.installs f = false := h a (List.mem_cons_self _ _)
    simp only [List.foldl_cons, ha, Bool.false_eq_true, if_false]
    rw [ih (fun e he => h e (List.mem_cons_of_mem _ he))]
    simp only [clears, List.map_cons, List.sum_cons]
    exact Nat.add_assoc _ _ _

theorem pending_after_install (f : Nat) (pre mid : List Event) (ea : Event)
    (ha : ea.installs f = true) (h : ∀ e, e ∈ mid → e.installs f = false) :
    pending f (pre ++ ea :: mid) = clears f mid := by
  have : pre ++ ea :: mid = (pre ++ [ea]) ++ mid := by simp
  rw [this]
  unfold pending
  rw [List.foldl_append]
  have h0 : (pre ++ [ea]).foldl (fun c e => if e.installs f then 0 else c + e.clears f) 0 = 0 := by
    simp [List.foldl_append, ha]
  rw [h0, foldl_no_install f mid h 0]
  omega

theorem snoc_split {es pre post : List Event} {e eb : Event}
    (h : es ++ [e] = pre ++ eb :: post) :
    (post = [] ∧ pre = es ∧ eb = e) ∨ (∃ post', post = post' ++ [e] ∧ es = pre ++ eb :: post') := by
  rcases List.eq_nil_or_concat post with hp | ⟨post', x, hp⟩
  · subst hp
    have h2 : es ++ [e] = pre ++ [eb] := h
    obtain ⟨a, b⟩ := List.append_inj' h2 rfl
    simp only [List.cons.injEq, and_true] at b
    exact Or.inl ⟨rfl, a.symm, b.symm⟩
  · rw [List.concat_eq_append] at hp
    subst hp
    have h2 : es ++ [e] = (pre ++ eb :: post') ++ [x] := by rw [h]; simp
    obtain ⟨a, b⟩ := List.append_inj' h2 rfl
    simp only [List.cons.injEq, and_true] at b
    subst b
    exact Or.inr ⟨post', rfl, a⟩

theorem count_range' (f N : Nat) (hf : f < N) : (List.range' 0 N).count f = 1 :=
  List.count_eq_one_of_mem (List.nodup_range' 0 N) (by simp [List.mem_range', hf])

theorem ClearedOnce_of_VictimsOnce {es : List Event} (h : VictimsOnce es) : ClearedOnce es := by
  intro pre mid post ea eb f hes ha hb hmid
  have h1 : es = (pre ++ ea :: mid) ++ eb :: post := by simp [hes]
  have := h (pre ++ ea :: mid) post eb f h1 hb
  rwa [pending_after_install f pre mid ea ha hmid] at this


theorem Counted_step {N alg : Nat} {tr : List TraceEntry} {ts i : Nat} {s s' : SimState}
    {e : Event} {es : List Event} (hN : 0 < N) (halg : alg = 3 ∨ alg = 4)
    (hI : Inv N alg s) (hC : Counted alg es s) (hV : VictimsOnce es)
    (hS : Stepped N alg tr ts i s e s') :
    Counted alg (es ++ [e]) s' ∧ VictimsOnce (es ++ [e]) := by
  have hlen : (policy_bits alg s).length = N := by
    rcases halg with rfl | rfl
    · simpa [policy_bits] using hI.shape.sc_bits
    · simpa [policy_bits] using hI.shape.clock_bits
  rcases Stepped_ring hN halg hI hS with ⟨p, j, rfl, hb, _, hn⟩ | ⟨p, rfl, hfree, hb, _, hn⟩ |
      ⟨p, r, h, hfull, hn, h1, hh, _, hpat, rfl, hb, _⟩
  · refine ⟨?_, ?_⟩
    · intro f b hf hfb
      rw [pending_snoc]
      simp only [Event.installs, Event.clears, Bool.false_eq_true, if_false, Nat.add_zero]
      rw [hn] at hf
      rw [hb] at hfb
      exact hC f b hf hfb
    · intro pre post eb f hes hvic
      rcases snoc_split hes with ⟨_, _, rfl⟩ | ⟨post', _, hes'⟩
      · simp [Event.victim] at hvic
      · exact hV pre post' eb f hes' hvic
  · refine ⟨?_, ?_⟩
    · intro f b hf hfb
      rw [pending_snoc]
      rw [hn] at hf
      rw [hb] at hfb
      by_cases hfn : s.pm.next_frame = f
      · subst hfn
        rw [List.getElem?_set_self (by rw [hlen]; exact hfree)] at hfb
        simp only [Option.some.injEq] at hfb
        subst hfb
        simp [Event.installs]
      · rw [List.getElem?_set_ne hfn] at hfb
        simp only [Event.installs, beq_iff_eq, hfn, if_false, Event.clears, Nat.add_zero]
        exact hC f b (by omega) hfb
    · intro pre post eb f hes hvic
      rcases snoc_split hes with ⟨_, _, rfl⟩ | ⟨post', _, hes'⟩
      · simp [Event.victim] at hvic
      · exact hV pre post' eb f hes' hvic
  · have hvN : (if h = N then 0 else h) < N := by split_ifs <;> omega
    have hvictim : pending (if h = N then 0 else h) es +
        (if h = N then List.range' 0 N else []).count (if h = N then 0 else h) = 1 := by
      by_cases hc : h = N
      · simp only [hc, if_true]
        rw [count_range' 0 N hN]
        have := hC 0 1 (by omega) (by rw [hpat 0 hN]; simp [hc, hN])
        rw [this]; simp
      · simp only [hc, if_false, List.count_nil, Nat.add_zero]
        have := hC h 0 (by omega) (by rw [hpat h (by omega)]; simp)
        rw [this]; simp
    refine ⟨?_, ?_⟩
    · intro f b hf hfb
      rw [pending_snoc]
      rw [hn] at hf
      rw [hb] at hfb
      by_cases hfv : (if h = N then 0 else h) = f
      · subst hfv
        rw [List.getElem?_set_self (by split_ifs <;> simp [hlen] <;> omega)] at hfb
        simp only [Option.some.injEq] at hfb
        subst hfb
        simp [Event.installs]
      · rw [List.getElem?_set_ne hfv] at hfb
        simp only [Event.installs, beq_iff_eq, hfv, if_false, Event.clears]
        by_cases hc : h = N
        · simp only [hc, if_true] at hfb ⊢
          rw [List.getElem?_replicate, if_pos hf] at hfb
          simp only [Option.some.injEq] at hfb
          subst hfb
          rw [count_range' f N hf]
          have := hC f 1 (by omega) (by rw [hpat f hf]; simp [hc, hf])
          rw [this]; simp
        · simp only [hc, if_false] at hfb ⊢
          simp only [List.count_nil, Nat.add_zero]
          exact hC f b (by omega) hfb
    · intro pre post eb f hes hvic
      rcases snoc_split hes with ⟨_, rfl, rfl⟩ | ⟨post', _, hes'⟩
      · simp only [Event.victim, beq_iff_eq] at hvic
        subst hvic
        simpa [Event.clears] using hvictim
      · exact hV pre post' eb f hes' hvic


theorem install_sets_bit {N alg : Nat} {tr : List TraceEntry} {ts i : Nat} {s s' : SimState}
    {e : Event} (hN : 0 < N) (halg : alg = 3 ∨ alg = 4) (hI : Inv N alg s)
    (hS : Stepped N alg tr ts i s e s') (f : Nat) (hf : e.installs f = true) :
    (policy_bits alg s')[f]? = some 1 := by
  have hlen : (policy_bits alg s).length = N := by
    rcases halg with rfl | rfl
    · simpa [policy_bits] using hI.shape.sc_bits
    · simpa [policy_bits] using hI.shape.clock_bits
  rcases Stepped_ring hN halg hI hS with ⟨p, j, rfl, hb, _, hn⟩ | ⟨p, rfl, hfree, hb, _, hn⟩ |
      ⟨p, r, h, hfull, hn, h1, hh, _, hpat, rfl, hb, _⟩
  · simp [Event.installs] at hf
  · simp only [Event.installs, beq_iff_eq] at hf
    subst hf
    rw [hb, List.getElem?_set_self (by rw [hlen]; exact hfree)]
  · simp only [Event.installs, beq_iff_eq] at hf
    subst hf
    rw [hb, List.getElem?_set_self (by split_ifs <;> simp [hlen] <;> omega)]

/-- C7: under Second-Chance (algorithm 3) and Clock (algorithm 4), in every run from
    fresh state with `N >= 1` (here: after any number `k` of accesses), an install sets
    the frame's reference bit to 1, and for every install into a frame `f` and every
    later access that gets `f` back as the victim with no install into `f` in between,
    the replace scans of the accesses in between and of that access clear the bit of
    `f` exactly once.  This holds for every installed page, hit afterwards or not. -/
theorem C7_bit_cleared_once (N alg : Nat) (tr : List TraceEntry) (k : Nat) (hN : 1 ≤ N)
    (halg : alg = 3 ∨ alg = 4) (hk : k ≤ tr.length) :
    ∃ es s, simulate_from alg tr tr.length k 0 (fresh N) = some (es, s) ∧ ClearedOnce es ∧
      ∀ e f, es.getLast? = some e → e.installs f = true →
        (policy_bits alg s)[f]? = some 1 := by
  have halg4 : alg ≤ 4 := by rcases halg with rfl | rfl <;> omega
  obtain ⟨es, s, h1, _, _, P1, P2, P3⟩ := run_induction tr tr.length hN halg4
    (fun _ es s => Counted alg es s ∧ VictimsOnce es ∧
      ∀ e f, es.getLast? = some e → e.installs f = true → (policy_bits alg s)[f]? = some 1)
    (fun i es s e s' _ hI hP hS _ => by
      obtain ⟨a, b⟩ := Counted_step hN halg hI hP.1 hP.2.1 hS
      refine ⟨a, b, ?_⟩
      intro e' f he' hf
      simp only [List.getLast?_append, List.getLast?_singleton, Option.or_some, Option.getD_some,
        Option.some.injEq] at he'
      subst he'
      exact install_sets_bit hN halg hI hS f hf)
    k 0 [] (fresh N) (Inv_fresh N alg hN)
    ⟨fun f b hf => by simp [fresh, create_physical_memory] at hf,
      fun pre post eb f hes => by simp at hes,
      fun e f he => by simp at he⟩ (by omega)
  refine ⟨es, s, h1, ClearedOnce_of_VictimsOnce (by simpa using P2), by simpa using P3⟩

/-- C7 on the whole run with `N = 2`, Second-Chance, trace of pages 1, 2, 3, 2, 4. -/
theorem C7_bit_cleared_once_witness :
    ∃ es s, simulate_from 3 (loads [1, 2, 3, 2, 4]) (loads [1, 2, 3, 2, 4]).length 5 0
        (fresh 2) = some (es, s) ∧ ClearedOnce es ∧
      ∀ e f, es.getLast? = some e → e.installs f = true →
        (policy_bits 3 s)[f]? = some 1 :=
  C7_bit_cleared_once 2 3 (loads [1, 2, 3, 2, 4]) 5 (by decide) (by decide) (by decide)



/-- C8 fails on the code.  With `N = 2` and the trace of pages 1, 2, 3, 2, 4, under
    Second-Chance (3) and under Clock (4): after the third access the scan has cleared
    the bit of frame 1 (page 2); the fourth access is a hit on page 2 in frame 1 and
    leaves that bit 0 (the hit sets only `referenced` of the page-table entry, line 431);
    the fifth access then gets frame 1 as the victim and removes page 2. -/
theorem C8_hit_leaves_scan_bit :
    (simulate_from 3 (loads [1, 2, 3, 2, 4]) 5 3 0 (fresh 2)).map
        (fun r => r.2.sc.reference_bits) = some [1, 0] ∧
    (simulate_from 3 (loads [1, 2, 3, 2, 4]) 5 4 0 (fresh 2)).map
        (fun r => (r.1.getLast?, r.2.sc.reference_bits)) =
      some (some (Event.hit 2 1), [1, 0]) ∧
    (simulate_virtual_memory_log (fresh 2) 3 (loads [1, 2, 3, 2, 4]) 5).map
        (fun r => r.1.getLast?) = some (some (Event.evict 4 1 (some 2) [])) ∧
    (simulate_from 4 (loads [1, 2, 3, 2, 4]) 5 3 0 (fresh 2)).map
        (fun r => r.2.clock.reference_bits) = some [1, 0] ∧
    (simulate_from 4 (loads [1, 2, 3, 2, 4]) 5 4 0 (fresh 2)).map
        (fun r => (r.1.getLast?, r.2.clock.reference_bits)) =
      some (some (Event.hit 2 1), [1, 0]) ∧
    (simulate_virtual_memory_log (fresh 2) 4 (loads [1, 2, 3, 2, 4]) 5).map
        (fun r => r.1.getLast?) = some (some (Event.evict 4 1 (some 2) [])) := by
  refine ⟨by decide, by decide, by decide, by decide, by decide, by decide⟩



theorem swap_fresh (N : Nat) : swap_queues (fresh N) = fresh N := rfl

theorem install_swap (s : SimState) (v : Nat) (p : Int) :
    install (swap_queues s) v p = (install s v p).map swap_queues := by
  unfold install
  simp only [swap_queues]
  cases store s.pt.entries v _ with
  | none => rfl
  | some entries =>
    cases store s.pm.frames v p with
    | none => rfl
    | some frames => rfl

theorem record_install_swap (s : SimState) (v : Nat) (p : Int) :
    record_install 4 (swap_queues s) v p = (record_install 3 s v p).map swap_queues := by
  unfold record_install
  simp only [show ¬ (4 = 0) by decide, show ¬ (4 = 1) by decide, show ¬ (4 = 3) by decide,
    show ¬ (3 = 0) by decide, show ¬ (3 = 1) by decide, if_false, if_true, swap_queues,
    sc_as_clock]
  cases store s.sc.pages v p with
  | none => rfl
  | some pages =>
    cases store s.sc.frames v (v : Int) with
    | none => rfl
    | some frames =>
      cases store s.sc.reference_bits v 1 with
      | none => rfl
      | some bits => rfl

theorem clock_sc_clock (q : SecondChanceQueue) : clock_as_sc (sc_as_clock q) = q := rfl

theorem choose_victim_swap (tr : List TraceEntry) (ts i : Nat) (s : SimState) :
    choose_victim 4 tr ts i (swap_queues s) =
      (choose_victim 3 tr ts i s).map (fun r => (r.1, r.2.1, swap_queues r.2.2)) := by
  simp only [choose_victim, second_chance_replace_eq, swap_queues]
  cases clock_replace (sc_as_clock s.sc) with
  | none => rfl
  | some r => rfl

theorem access_swap (tr : List TraceEntry) (ts i : Nat) (s : SimState) :
    access 4 tr ts i (swap_queues s) =
      (access 3 tr ts i s).map (fun r => (r.1, swap_queues r.2)) := by
  unfold access
  cases tr[i]? with
  | none => rfl
  | some t =>
    simp only
    have hl : lookup (swap_queues s).pt (toInt32 t.address) = lookup s.pt (toInt32 t.address) :=
      rfl
    rw [hl]
    cases lookup s.pt (toInt32 t.address) with
    | some j => rfl
    | none =>
      simp only
      have hnf : (swap_queues s).pm = s.pm := rfl
      rw [hnf]
      split_ifs
      · have h1 := install_swap
          { s with
            pt := { s.pt with misses := s.pt.misses + 1, page_faults := s.pt.page_faults + 1 },
            pm := { s.pm with next_frame := s.pm.next_frame + 1 } }
          s.pm.next_frame (toInt32 t.address)
        simp only [swap_queues] at h1 ⊢
        rw [h1]
        cases install _ s.pm.next_frame (toInt32 t.address) with
        | none => rfl
        | some s3 =>
          simp only [Option.map_some']
          rw [record_install_swap s3 s.pm.next_frame (toInt32 t.address)]
          cases record_install 3 s3 s.pm.next_frame (toInt32 t.address) <;> rfl
      · have h0 := choose_victim_swap tr ts i
          { s with
            pt := { s.pt with misses := s.pt.misses + 1, page_faults := s.pt.page_faults + 1 } }
        simp only [swap_queues] at h0 ⊢
        rw [h0]
        cases choose_victim 3 tr ts i _ with
        | none => rfl
        | some r =>
          obtain ⟨v, cl, s2⟩ := r
          simp only [Option.map_some']
          have h1 := install_swap { s2 with pt := invalidate s2.pt v } v (toInt32 t.address)
          simp only [swap_queues] at h1
          rw [h1]
          cases install _ v (toInt32 t.address) with
          | none => rfl
          | some s3 =>
            simp only [Option.map_some']
            rw [record_install_swap s3 v (toInt32 t.address)]
            cases record_install 3 s3 v (toInt32 t.address) <;> rfl

theorem simulate_from_swap (tr : List TraceEntry) (ts : Nat) :
    ∀ (n i : Nat) (s : SimState),
      simulate_from 4 tr ts n i (swap_queues s) =
        (simulate_from 3 tr ts n i s).map (fun r => (r.1, swap_queues r.2)) := by
  intro n
  induction n with
  | zero => intro i s; rfl
  | succ n ih =>
    intro i s
    unfold simulate_from
    rw [access_swap]
    cases access 3 tr ts i s with
    | none => rfl
    | some r =>
      obtain ⟨e, s1⟩ := r
      simp only [Option.map_some']
      rw [ih]
      cases simulate_from 3 tr ts n (i + 1) s1 <;> rfl


/-- C9: Second-Chance and Clock are the same algorithm.  For every `N >= 1` and every
    trace, the runs of `simulate_virtual_memory` from fresh state under algorithm 3 and
    under algorithm 4 both return, with the same events (the same hit or miss and the
    same victim frame at every access), the same counters, page table and physical
    memory, and the hand, reference bits, pages and frames of `sc` after the first equal
    to those of `clock` after the second; and `second_chance_replace` is `clock_replace`
    on the queue read as a Clock queue, for every queue. -/
theorem C9_second_chance_is_clock (N : Nat) (tr : List TraceEntry) (hN : 1 ≤ N) :
    (∃ es s3 s4, simulate_virtual_memory_log (fresh N) 3 tr tr.length = some (es, s3) ∧
      simulate_virtual_memory_log (fresh N) 4 tr tr.length = some (es, s4) ∧
      s3.pt = s4.pt ∧ s3.pm = s4.pm ∧ s3.sc.hand = s4.clock.hand ∧
      s3.sc.reference_bits = s4.clock.reference_bits ∧ s3.sc.pages = s4.clock.pages ∧
      s3.sc.frames = s4.clock.frames ∧ s3.sc.size = s4.clock.size ∧
      s4 = swap_queues s3) ∧
    (∀ sc : SecondChanceQueue, second_chance_replace sc =
      (clock_replace (sc_as_clock sc)).map (fun r => (r.1, r.2.1, clock_as_sc r.2.2))) := by
  refine ⟨?_, second_chance_replace_eq⟩
  obtain ⟨es, s3, h1, _⟩ := simulate_returns 3 tr hN (by decide)
  refine ⟨es, s3, swap_queues s3, h1, ?_, rfl, rfl, rfl, rfl, rfl, rfl, rfl, rfl⟩
  have := simulate_from_swap tr tr.length tr.length 0 (fresh N)
  rw [swap_fresh, h1] at this
  exact this

/-- C9 at `N = 2`, trace of pages 1, 2, 3, 2, 4. -/
theorem C9_second_chance_is_clock_witness :
    (∃ es s3 s4, simulate_virtual_memory_log (fresh 2) 3 (loads [1, 2, 3, 2, 4])
        (loads [1, 2, 3, 2, 4]).length = some (es, s3) ∧
      simulate_virtual_memory_log (fresh 2) 4 (loads [1, 2, 3, 2, 4])
        (loads [1, 2, 3, 2, 4]).length = some (es, s4) ∧
      s3.pt = s4.pt ∧ s3.pm = s4.pm ∧ s3.sc.hand = s4.clock.hand ∧
      s3.sc.reference_bits = s4.clock.reference_bits ∧ s3.sc.pages = s4.clock.pages ∧
      s3.sc.frames = s4.clock.frames ∧ s3.sc.size = s4.clock.size ∧
      s4 = swap_queues s3) ∧
    (∀ sc : SecondChanceQueue, second_chance_replace sc =
      (clock_replace (sc_as_clock sc)).map (fun r => (r.1, r.2.1, clock_as_sc r.2.2))) :=
  C9_second_chance_is_clock 2 (loads [1, 2, 3, 2, 4]) (by decide)


theorem Inv_valid_index {N alg : Nat} {s : SimState} (h : Inv N alg s) {i : Nat}
    {e : PageTableEntry} (he : s.pt.entries[i]? = some e) (hv : e.valid ≠ 0) :
    e.frame_number = (i : Int) := by
  by_cases hi : i < s.pm.next_frame
  · exact (h.resident i e he hi).2.1
  · exact absurd (h.vacant i e he (by omega)).1 hv

theorem Inv_one_owner {N alg : Nat} {s : SimState} (h : Inv N alg s) : OneOwner s.pt := by
  intro i j ei ej hi hj vi vj heq
  have a := Inv_valid_index h hi vi
  have b := Inv_valid_index h hj vj
  rw [a, b] at heq
  exact Int.ofNat_inj.1 heq

theorem invalidate_full {N alg : Nat} {s : SimState} (h : Inv N alg s)
    (hfull : s.pm.next_frame = N) {v : Nat} (hv : v < N) :
    ∃ e0, s.pt.entries[v]? = some e0 ∧ e0.valid = 1 ∧ e0.frame_number = (v : Int) ∧
      (invalidate s.pt v).entries = s.pt.entries.set v { e0 with valid := 0 } ∧
      NoOwner (invalidate s.pt v) v := by
  have hv1 : v < s.pt.entries.length := by rw [h.shape.pt_len]; exact hv
  have he0 : s.pt.entries[v]? = some s.pt.entries[v] := List.getElem?_eq_getElem hv1
  generalize s.pt.entries[v] = e0 at he0
  obtain ⟨a, b, _⟩ := h.resident v e0 he0 (by omega)
  have hown : owner s.pt v = some v :=
    owner_full h.shape.pt_size
      (fun k e he hk => by
        have := h.resident k e he (by omega)
        exact ⟨this.1, this.2.1⟩)
      h.shape.pt_len hv
  have hinv : (invalidate s.pt v).entries = s.pt.entries.set v { e0 with valid := 0 } := by
    simp only [invalidate, hown, upd_eq _ he0]
  refine ⟨e0, he0, a, b, hinv, ?_⟩
  intro j e he hval
  rw [hinv] at he
  by_cases hjv : v = j
  · subst hjv
    rw [List.getElem?_set_self hv1] at he
    simp only [Option.some.injEq] at he
    subst he
    exact absurd rfl hval
  · rw [List.getElem?_set_ne hjv] at he
    rw [Inv_valid_index h he hval]
    omega

/-- C10: in every state reachable from fresh state (`N >= 1`, any policy in 0..4, any
    trace, after any number `k` of accesses, by `simulate_virtual_memory` as by
    `simulate_virtual_memory_step`), at most one valid page-table entry has any given
    `frame_number`; and when the next access evicts frame `v`, the entry that owned
    `v` (entry `v`, valid, `frame_number == v`) is made invalid by the loop of lines
    454-459, so that no valid entry has `frame_number == v` in the table the stores of
    lines 462-465 then write to. -/
theorem C10_one_owner_per_frame (N alg : Nat) (tr : List TraceEntry) (k : Nat) (hN : 1 ≤ N)
    (halg : alg ≤ 4) (hk : k ≤ tr.length) :
    ∃ es s, simulate_from alg tr tr.length k 0 (fresh N) = some (es, s) ∧
      run_steps alg tr tr.length k 0 (fresh N) = some s ∧
      OneOwner s.pt ∧
      (∀ p v r cl s', access alg tr tr.length k s = some (Event.evict p v r cl, s') →
        ∃ e0, s.pt.entries[v]? = some e0 ∧ e0.valid = 1 ∧ e0.frame_number = (v : Int) ∧
          (invalidate s.pt v).entries = s.pt.entries.set v { e0 with valid := 0 } ∧
          NoOwner (invalidate s.pt v) v ∧ OneOwner s'.pt) := by
  obtain ⟨es, s, h1, hI⟩ := run_prefix tr tr.length hN halg hk
  refine ⟨es, s, h1, by rw [run_steps_eq, h1]; rfl, Inv_one_owner hI, ?_⟩
  intro p v r cl s' hacc
  have hlt : k < tr.length := by
    by_contra hc
    have : tr[k]? = none := List.getElem?_eq_none (by omega)
    simp [access, this] at hacc
  obtain ⟨e, s'', h2, hS, hI'⟩ := access_step tr.length hN halg hI hlt
  rw [hacc] at h2
  simp only [Option.some.injEq, Prod.mk.injEq] at h2
  obtain ⟨rfl, rfl⟩ := h2
  obtain ⟨t, _, h | h | h⟩ := hS
  · obtain ⟨_, _, hc, _⟩ := h; cases hc
  · obtain ⟨_, _, hc, _⟩ := h; cases hc
  · obtain ⟨_, hfull, v', cl', s2, e1, _, hv, _, heq, _⟩ := h
    simp only [Event.evict.injEq] at heq
    obtain ⟨_, rfl, _, _⟩ := heq
    obtain ⟨e0, a, b, c, d, f⟩ := invalidate_full hI hfull hv
    exact ⟨e0, a, b, c, d, f, Inv_one_owner hI'⟩

/-- C10 at `N = 2`, FIFO, trace of pages 1, 2, 3, before the access of page 3. -/
theorem C10_one_owner_per_frame_witness :
    ∃ es s, simulate_from 0 (loads [1, 2, 3]) (loads [1, 2, 3]).length 2 0 (fresh 2)
        = some (es, s) ∧
      run_steps 0 (loads [1, 2, 3]) (loads [1, 2, 3]).length 2 0 (fresh 2) = some s ∧
      OneOwner s.pt ∧
      (∀ p v r cl s', access 0 (loads [1, 2, 3]) (loads [1, 2, 3]).length 2 s
          = some (Event.evict p v r cl, s') →
        ∃ e0, s.pt.entries[v]? = some e0 ∧ e0.valid = 1 ∧ e0.frame_number = (v : Int) ∧
          (invalidate s.pt v).entries = s.pt.entries.set v { e0 with valid := 0 } ∧
          NoOwner (invalidate s.pt v) v ∧ OneOwner s'.pt) :=
  C10_one_owner_per_frame 2 0 (loads [1, 2, 3]) 2 (by decide) (by decide) (by decide)



/-- C17: frame occupancy mirrors the page directory.  In every state reachable from fresh
    state (`N >= 1`, any policy in 0..4, any trace, after any number `k` of accesses, by
    `simulate_virtual_memory` as by `simulate_virtual_memory_step`), `next_frame <= N`
    and for every index `i < N` entry `i` is valid exactly when `i < next_frame`; when
    it is valid its `frame_number` is `i` and its `page_number` is `pm->frames[i]`; when
    it is not, `pm->frames[i]` is `-1`. -/
theorem C17_frames_mirror_directory (N alg : Nat) (tr : List TraceEntry) (k : Nat)
    (hN : 1 ≤ N) (halg : alg ≤ 4) (hk : k ≤ tr.length) :
    ∃ es s, simulate_from alg tr tr.length k 0 (fresh N) = some (es, s) ∧
      run_steps alg tr tr.length k 0 (fresh N) = some s ∧
      s.pm.next_frame ≤ N ∧
      ∀ i, i < N → ∃ e, s.pt.entries[i]? = some e ∧
        (e.valid ≠ 0 ↔ i < s.pm.next_frame) ∧
        (e.valid ≠ 0 → e.frame_number = (i : Int) ∧ s.pm.frames[i]? = some e.page_number) ∧
        (e.valid = 0 → s.pm.frames[i]? = some (-1)) := by
  obtain ⟨es, s, h1, hI⟩ := run_prefix tr tr.length hN halg hk
  refine ⟨es, s, h1, by rw [run_steps_eq, h1]; rfl, hI.next_le, ?_⟩
  intro i hi
  have hlen : i < s.pt.entries.length := by rw [hI.shape.pt_len]; exact hi
  refine ⟨s.pt.entries[i], List.getElem?_eq_getElem hlen, ?_, ?_, ?_⟩
  · constructor
    · intro hv
      by_contra hc
      exact hv (hI.vacant i _ (List.getElem?_eq_getElem hlen) (by omega)).1
    · intro hlt
      rw [(hI.resident i _ (List.getElem?_eq_getElem hlen) hlt).1]
      decide
  · intro hv
    have hlt : i < s.pm.next_frame := by
      by_contra hc
      exact hv (hI.vacant i _ (List.getElem?_eq_getElem hlen) (by omega)).1
    exact (hI.resident i _ (List.getElem?_eq_getElem hlen) hlt).2
  · intro hv
    have hge : s.pm.next_frame ≤ i := by
      by_contra hc
      have := (hI.resident i _ (List.getElem?_eq_getElem hlen) (by omega)).1
      rw [this] at hv
      exact absurd hv (by decide)
    exact (hI.vacant i _ (List.getElem?_eq_getElem hlen) hge).2

/-- C17 at `N = 2`, LRU, trace of pages 1, 2, 3, after two accesses. -/
theorem C17_frames_mirror_directory_witness :
    ∃ es s, simulate_from 1 (loads [1, 2, 3]) (loads [1, 2, 3]).length 2 0 (fresh 2)
        = some (es, s) ∧
      run_steps 1 (loads [1, 2, 3]) (loads [1, 2, 3]).length 2 0 (fresh 2) = some s ∧
      s.pm.next_frame ≤ 2 ∧
      ∀ i, i < 2 → ∃ e, s.pt.entries[i]? = some e ∧
        (e.valid ≠ 0 ↔ i < s.pm.next_frame) ∧
        (e.valid ≠ 0 → e.frame_number = (i : Int) ∧ s.pm.frames[i]? = some e.page_number) ∧
        (e.valid = 0 → s.pm.frames[i]? = some (-1)) :=
  C17_frames_mirror_directory 2 1 (loads [1, 2, 3]) 2 (by decide) (by decide) (by decide)

/-- C18: for `N >= 1` and every policy in 0..4, before any access `k` of a run from
    fresh state, if the access calls a `*_replace` function (it evicts), then
    `next_frame == N`, all `N` page-table entries are valid, and the index `v` the
    switch of lines 447-453 returned lies in `[0, N)`, inside `entries` and `frames`. -/
theorem C18_victim_in_bounds (N alg : Nat) (tr : List TraceEntry) (k : Nat)
    (hN : 1 ≤ N) (halg : alg ≤ 4) (hk : k ≤ tr.length) :
    ∃ es s, simulate_from alg tr tr.length k 0 (fresh N) = some (es, s) ∧
      ∀ p v r cl s', access alg tr tr.length k s = some (Event.evict p v r cl, s') →
        s.pm.next_frame = N ∧
        (∀ i, i < N → ∃ e, s.pt.entries[i]? = some e ∧ e.valid = 1) ∧
        (∃ s2, choose_victim alg tr tr.length k s = some (v, cl, s2)) ∧
        v < N ∧ v < s.pt.entries.length ∧ v < s.pm.frames.length := by
  obtain ⟨es, s, h1, hI⟩ := run_prefix tr tr.length hN halg hk
  refine ⟨es, s, h1, ?_⟩
  intro p v r cl s' hacc
  have hlt : k < tr.length := by
    by_contra hc
    have : tr[k]? = none := List.getElem?_eq_none (by omega)
    simp [access, this] at hacc
  obtain ⟨e, s'', h2, hS, _⟩ := access_step tr.length hN halg hI hlt
  rw [hacc] at h2
  simp only [Option.some.injEq, Prod.mk.injEq] at h2
  obtain ⟨rfl, rfl⟩ := h2
  obtain ⟨t, _, h | h | h⟩ := hS
  · obtain ⟨_, _, hc, _⟩ := h; cases hc
  · obtain ⟨_, _, hc, _⟩ := h; cases hc
  · obtain ⟨_, hfull, v', cl', s2, e1, hcv, hv, _, heq, _⟩ := h
    simp only [Event.evict.injEq] at heq
    obtain ⟨_, rfl, _, rfl⟩ := heq
    refine ⟨hfull, ?_, ⟨s2, hcv⟩, hv, by rw [hI.shape.pt_len]; exact hv,
      by rw [hI.shape.pm_len]; exact hv⟩
    intro i hi
    have hlen : i < s.pt.entries.length := by rw [hI.shape.pt_len]; exact hi
    exact ⟨_, List.getElem?_eq_getElem hlen,
      (hI.resident i _ (List.getElem?_eq_getElem hlen) (by omega)).1⟩

/-- C18 at `N = 2`, MIN, trace of pages 1, 2, 3, before the access of page 3. -/
theorem C18_victim_in_bounds_witness :
    ∃ es s, simulate_from 2 (loads [1, 2, 3]) (loads [1, 2, 3]).length 2 0 (fresh 2)
        = some (es, s) ∧
      ∀ p v r cl s', access 2 (loads [1, 2, 3]) (loads [1, 2, 3]).length 2 s
          = some (Event.evict p v r cl, s') →
        s.pm.next_frame = 2 ∧
        (∀ i, i < 2 → ∃ e, s.pt.entries[i]? = some e ∧ e.valid = 1) ∧
        (∃ s2, choose_victim 2 (loads [1, 2, 3]) (loads [1, 2, 3]).length 2 s
          = some (v, cl, s2)) ∧
        v < 2 ∧ v < s.pt.entries.length ∧ v < s.pm.frames.length :=
  C18_victim_in_bounds 2 2 (loads [1, 2, 3]) 2 (by decide) (by decide) (by decide)



theorem main_config_some {argc algorithm b : Int} {alg nf : Nat}
    (h : main_config argc algorithm b = some (alg, nf)) :
    argc = 3 ∧ 0 ≤ algorithm ∧ algorithm ≤ 4 ∧ (alg : Int) = algorithm ∧ alg ≤ 4 ∧
      ((b = 20 ∧ nf = 256) ∨ (b = 24 ∧ nf = 4096)) := by
  unfold main_config at h
  by_cases h1 : argc ≠ 3
  · simp [h1] at h
  · by_cases h2 : algorithm < 0 ∨ algorithm > 4
    · simp [h1, h2] at h
    · by_cases h3 : b ≠ 20 ∧ b ≠ 24
      · simp [h1, h2, h3] at h
      · simp only [h1, h2, h3, if_false, Option.some.injEq, Prod.mk.injEq] at h
        obtain ⟨rfl, rfl⟩ := h
        have ha0 : 0 ≤ algorithm := by omega
        refine ⟨by omega, ha0, by omega, Int.toNat_of_nonneg ha0, by omega, ?_⟩
        by_cases hb : b = 20
        · left; exact ⟨hb, by simp [hb, PHYSICAL_MEMORY_SIZE_20BIT, PAGE_SIZE]⟩
        · right
          have hb24 : b = 24 := by
            by_contra hc
            exact h3 ⟨hb, hc⟩
          exact ⟨hb24, by simp [hb24, PHYSICAL_MEMORY_SIZE_24BIT, PAGE_SIZE]⟩

theorem simulate_counters {N : Nat} (alg : Nat) (tr : List TraceEntry) (hN : 0 < N)
    (halg : alg ≤ 4) :
    ∃ s, simulate_virtual_memory (fresh N) alg tr tr.length = some s ∧
      s.pt.hits + s.pt.misses = tr.length := by
  obtain ⟨es, s, h1, _, _, h4⟩ := run_induction tr tr.length hN halg
    (fun i _ s => s.pt.hits + s.pt.misses = i)
    (fun i es s e s' _ _ hP hS _ => by
      show s'.pt.hits + s'.pt.misses = i + 1
      rw [Stepped_counters hS, hP])
    tr.length 0 [] (fresh N) (Inv_fresh N alg hN) rfl (by omega)
  refine ⟨s, ?_, by simpa using h4⟩
  simp [simulate_virtual_memory, simulate_virtual_memory_log, h1]

/-- C13: the aggregate ratios are never computed with a zero denominator.  Whatever the
    arguments and the collected trace, `main` either returns 1 or reaches the report
    with `total = hits + misses` equal to the trace length and strictly positive; it
    never runs into undefined behaviour in the aggregate pass; and with a collected
    trace of length 0 it returns 1. -/
theorem C13_ratio_denominator_positive (argc algorithm physical_address_bits : Int)
    (collected : List TraceEntry) :
    (main argc algorithm physical_address_bits collected = MainOutcome.returned 1 ∨
      ∃ s total, main argc algorithm physical_address_bits collected
          = MainOutcome.reported s total ∧
        total = s.pt.hits + s.pt.misses ∧ total = collected.length ∧ 0 < total) ∧
    (collected.length = 0 →
      main argc algorithm physical_address_bits collected = MainOutcome.returned 1) ∧
    (collected.length ≠ 0 →
      main_config argc algorithm physical_address_bits ≠ none →
      ∃ s total, main argc algorithm physical_address_bits collected
          = MainOutcome.reported s total ∧ 0 < total) := by
  cases hc : main_config argc algorithm physical_address_bits with
  | none =>
    refine ⟨Or.inl (by simp [main, hc]), fun _ => by simp [main, hc], fun _ h => absurd rfl h⟩
  | some r =>
    obtain ⟨alg, nf⟩ := r
    obtain ⟨_, _, _, _, h5, h6⟩ := main_config_some hc
    have hnf : 0 < nf := by rcases h6 with ⟨_, c⟩ | ⟨_, c⟩ <;> omega
    by_cases hl : collected.length = 0
    · refine ⟨Or.inl (by simp [main, hc, hl]), fun _ => by simp [main, hc, hl],
        fun h => absurd hl h⟩
    · obtain ⟨s, hs1, hs2⟩ := simulate_counters alg collected hnf h5
      have hm : main argc algorithm physical_address_bits collected
          = MainOutcome.reported s (s.pt.hits + s.pt.misses) := by
        simp [main, hc, hl, hs1]
      refine ⟨Or.inr ⟨s, _, hm, rfl, hs2, by omega⟩, fun h => absurd h hl,
        fun _ _ => ⟨s, _, hm, by omega⟩⟩


theorem main_config_none_iff (argc algorithm b : Int) :
    main_config argc algorithm b = none ↔
      (argc ≠ 3 ∨ algorithm < 0 ∨ algorithm > 4 ∨ (b ≠ 20 ∧ b ≠ 24)) := by
  unfold main_config
  by_cases h1 : argc ≠ 3
  · simp [h1]
  · by_cases h2 : algorithm < 0 ∨ algorithm > 4
    · rw [if_neg h1, if_pos h2]
      simp only [true_iff]
      rcases h2 with h | h
      · exact Or.inr (Or.inl h)
      · exact Or.inr (Or.inr (Or.inl h))
    · by_cases h3 : b ≠ 20 ∧ b ≠ 24
      · rw [if_neg h1, if_neg h2, if_pos h3]
        simp only [true_iff]
        exact Or.inr (Or.inr (Or.inr h3))
      · rw [if_neg h1, if_neg h2, if_neg h3]
        constructor
        · intro h; cases h
        · rintro (h | h | h | h)
          · exact absurd h h1
          · exact absurd (Or.inl h) h2
          · exact absurd (Or.inr h) h2
          · exact absurd h h3

theorem main_config_accepts (algorithm b : Int) (h0 : 0 ≤ algorithm) (h4 : algorithm ≤ 4) :
    (b = 20 → main_config 3 algorithm b = some (algorithm.toNat, 256)) ∧
    (b = 24 → main_config 3 algorithm b = some (algorithm.toNat, 4096)) := by
  have h2 : ¬ (algorithm < 0 ∨ algorithm > 4) := by omega
  constructor
  · intro hb
    subst hb
    unfold main_config
    rw [if_neg (by decide), if_neg h2, if_neg (by decide)]
    simp [PHYSICAL_MEMORY_SIZE_20BIT, PAGE_SIZE]
  · intro hb
    subst hb
    unfold main_config
    rw [if_neg (by decide), if_neg h2, if_neg (by decide)]
    simp [PHYSICAL_MEMORY_SIZE_24BIT, PAGE_SIZE]

theorem main_reports {argc algorithm b : Int} {alg nf : Nat}
    (h : main_config argc algorithm b = some (alg, nf)) (collected : List TraceEntry)
    (hne : collected.length ≠ 0) :
    ∃ s total, main argc algorithm b collected = MainOutcome.reported s total := by
  obtain ⟨_, _, _, _, h5, h6⟩ := main_config_some h
  have hnf : 0 < nf := by
    rcases h6 with ⟨_, c⟩ | ⟨_, c⟩ <;> omega
  obtain ⟨s, hs, _⟩ := simulate_counters alg collected hnf h5
  exact ⟨s, s.pt.hits + s.pt.misses, by simp [main, h, hne, hs]⟩

/-- C12: `main` returns 1, whatever trace would be collected and without building any
    state, for every invocation whose parsed `algorithm` is outside 0..4 or whose parsed
    `physical_address_bits` is neither 20 nor 24; when the checks pass, `algorithm` is
    in 0..4 and `num_frames` is 256 when the bits are 20 and 4096 when they are 24.  The
    checks fail exactly for `argc != 3`, `algorithm` outside 0..4 or bits other than 20
    and 24: every invocation with `argc = 3`, `algorithm` in 0..4 and bits 20 (24) is
    accepted with `num_frames = 256` (`4096`), and with a non-empty collected trace
    `main` goes on to the report. -/
theorem C12_main_rejects_bad_selectors (argc algorithm physical_address_bits : Int) :
    ((algorithm < 0 ∨ algorithm > 4 ∨
        (physical_address_bits ≠ 20 ∧ physical_address_bits ≠ 24)) →
      main_config argc algorithm physical_address_bits = none ∧
      ∀ collected, main argc algorithm physical_address_bits collected
        = MainOutcome.returned 1) ∧
    (∀ alg num_frames,
      main_config argc algorithm physical_address_bits = some (alg, num_frames) →
      (alg : Int) = algorithm ∧ alg ≤ 4 ∧
      (physical_address_bits = 20 ∨ physical_address_bits = 24) ∧
      (physical_address_bits = 20 → num_frames = 256) ∧
      (physical_address_bits = 24 → num_frames = 4096)) ∧
    (main_config argc algorithm physical_address_bits = none ↔
      (argc ≠ 3 ∨ algorithm < 0 ∨ algorithm > 4 ∨
        (physical_address_bits ≠ 20 ∧ physical_address_bits ≠ 24))) ∧
    (argc = 3 → 0 ≤ algorithm → algorithm ≤ 4 →
      (physical_address_bits = 20 →
        main_config argc algorithm physical_address_bits = some (algorithm.toNat, 256) ∧
        ∀ collected : List TraceEntry, collected.length ≠ 0 →
          ∃ s total, main argc algorithm physical_address_bits collected
            = MainOutcome.reported s total) ∧
      (physical_address_bits = 24 →
        main_config argc algorithm physical_address_bits = some (algorithm.toNat, 4096) ∧
        ∀ collected : List TraceEntry, collected.length ≠ 0 →
          ∃ s total, main argc algorithm physical_address_bits collected
            = MainOutcome.reported s total)) := by
  refine ⟨?_, ?_, main_config_none_iff argc algorithm physical_address_bits, ?_⟩
  · intro h
    have hc : main_config argc algorithm physical_address_bits = none :=
      (main_config_none_iff argc algorithm physical_address_bits).2 (Or.inr h)
    exact ⟨hc, fun collected => by simp [main, hc]⟩
  · intro alg nf h
    obtain ⟨_, _, _, h4, h5, h6⟩ := main_config_some h
    refine ⟨h4, h5, ?_, ?_, ?_⟩
    · rcases h6 with ⟨a, _⟩ | ⟨a, _⟩
      · exact Or.inl a
      · exact Or.inr a
    · intro hb
      rcases h6 with ⟨_, c⟩ | ⟨a, _⟩
      · exact c
      · omega
    · intro hb
      rcases h6 with ⟨a, _⟩ | ⟨_, c⟩
      · omega
      · exact c
  · intro ha h0 h4
    subst ha
    obtain ⟨a20, a24⟩ := main_config_accepts algorithm physical_address_bits h0 h4
    exact ⟨fun hb => ⟨a20 hb, fun collected hne => main_reports (a20 hb) collected hne⟩,
      fun hb => ⟨a24 hb, fun collected hne => main_reports (a24 hb) collected hne⟩⟩

/-- C12 at `argc = 3`: accepted with `algorithm = 2` and bits 20 and 24, rejected with
    `algorithm = 7` and with bits 32. -/
theorem C12_main_rejects_bad_selectors_witness :
    main_config 3 2 20 = some (2, 256) ∧ main_config 3 2 24 = some (2, 4096) ∧
    (∃ s total, main 3 2 20 (loads [1, 2, 1]) = MainOutcome.reported s total) ∧
    main_config 3 7 20 = none ∧
    (∀ collected, main 3 7 20 collected = MainOutcome.returned 1) ∧
    main_config 3 2 32 = none :=
  ⟨(((C12_main_rejects_bad_selectors 3 2 20).2.2.2 rfl (by decide) (by decide)).1 rfl).1,
    (((C12_main_rejects_bad_selectors 3 2 24).2.2.2 rfl (by decide) (by decide)).2 rfl).1,
    (((C12_main_rejects_bad_selectors 3 2 20).2.2.2 rfl (by decide) (by decide)).1 rfl).2
      (loads [1, 2, 1]) (by decide),
    ((C12_main_rejects_bad_selectors 3 7 20).1 (Or.inr (Or.inl (by decide)))).1,
    ((C12_main_rejects_bad_selectors 3 7 20).1 (Or.inr (Or.inl (by decide)))).2,
    ((C12_main_rejects_bad_selectors 3 2 32).1 (Or.inr (Or.inr ⟨by decide, by decide⟩))).1⟩

/-- C13 at `argc = 3`, FIFO, 20 bits and the collected trace of pages 1, 2, 1. -/
theorem C13_ratio_denominator_positive_witness :
    (main 3 0 20 (loads [1, 2, 1]) = MainOutcome.returned 1 ∨
      ∃ s total, main 3 0 20 (loads [1, 2, 1]) = MainOutcome.reported s total ∧
        total = s.pt.hits + s.pt.misses ∧ total = (loads [1, 2, 1]).length ∧ 0 < total) ∧
    ((loads [1, 2, 1]).length = 0 → main 3 0 20 (loads [1, 2, 1]) = MainOutcome.returned 1) ∧
    ((loads [1, 2, 1]).length ≠ 0 → main_config 3 0 20 ≠ none →
      ∃ s total, main 3 0 20 (loads [1, 2, 1]) = MainOutcome.reported s total ∧ 0 < total) :=
  C13_ratio_denominator_positive 3 0 20 (loads [1, 2, 1])

theorem zero_frames_undefined (alg : Nat) (tr : List TraceEntry) (halg : alg ≤ 4)
    (hne : 0 < tr.length) :
    ∃ t, tr[0]? = some t ∧ lookup (fresh 0).pt (page_of t) = none ∧
      ¬ ((fresh 0).pm.next_frame < (fresh 0).pm.size) ∧
      access alg tr tr.length 0 (fresh 0) = none ∧
      simulate_virtual_memory (fresh 0) alg tr tr.length = none := by
  have ht : tr[0]? = some tr[0] := List.getElem?_eq_getElem hne
  generalize tr[0] = t at ht
  have hl : lookup (fresh 0).pt (page_of t) = none := rfl
  have hacc : access alg tr tr.length 0 (fresh 0) = none := by
    have h5 : alg = 0 ∨ alg = 1 ∨ alg = 2 ∨ alg = 3 ∨ alg = 4 := by omega
    rcases h5 with rfl | rfl | rfl | rfl | rfl <;>
      simp [access, ht, lookup, find_from, fresh, create_page_table, create_physical_memory,
        create_fifo_queue, create_lru_queue, create_clock_queue, create_second_chance_queue,
        choose_victim, fifo_replace, lru_replace, lru_scan, min_replace, min_scan,
        second_chance_replace, second_chance_scan, clock_replace, clock_scan, install, store,
        invalidate, owner]
  refine ⟨t, ht, hl, by simp [fresh, create_physical_memory], hacc, ?_⟩
  obtain ⟨n, hn⟩ : ∃ n, tr.length = n + 1 := ⟨tr.length - 1, by omega⟩
  have : simulate_from alg tr tr.length (n + 1) 0 (fresh 0) = none := by
    simp [simulate_from, hacc]
  simp only [simulate_virtual_memory, simulate_virtual_memory_log, Option.map_eq_none']
  rw [← hn] at this
  exact this

/-- C11 (amended): a zero-frame configuration is not rejected at construction.  The
    `create_*` functions with size 0 return a state whose arrays are empty; a run on it
    over a non-empty trace, under any policy in 0..4, finds at its first access no hit
    and no free frame, calls the replace function, and is undefined there (a remainder
    modulo 0 in `fifo_replace`, a read or store outside the empty arrays otherwise).
    `N = 0` is excluded before construction by `main`, whose `num_frames` is 256 or
    4096. -/
theorem C11_zero_frames_not_rejected (alg : Nat) (tr : List TraceEntry) (halg : alg ≤ 4)
    (hne : 0 < tr.length) :
    (fresh 0).pt.entries = [] ∧ (fresh 0).pm.frames = [] ∧ (fresh 0).pm.size = 0 ∧
    (fresh 0).fifo.size = 0 ∧ (fresh 0).clock.size = 0 ∧ (fresh 0).sc.size = 0 ∧
    fifo_replace (fresh 0).fifo = none ∧ clock_replace (fresh 0).clock = none ∧
    second_chance_replace (fresh 0).sc = none ∧
    (∃ t, tr[0]? = some t ∧ lookup (fresh 0).pt (page_of t) = none ∧
      ¬ ((fresh 0).pm.next_frame < (fresh 0).pm.size) ∧
      access alg tr tr.length 0 (fresh 0) = none ∧
      simulate_virtual_memory (fresh 0) alg tr tr.length = none) ∧
    (∀ argc algorithm physical_address_bits a num_frames,
      main_config argc algorithm physical_address_bits = some (a, num_frames) →
      num_frames = 256 ∨ num_frames = 4096) := by
  refine ⟨rfl, rfl, rfl, rfl, rfl, rfl, rfl, rfl, rfl, zero_frames_undefined alg tr halg hne, ?_⟩
  intro argc algorithm b a nf h
  obtain ⟨_, _, _, _, _, h6⟩ := main_config_some h
  rcases h6 with ⟨_, c⟩ | ⟨_, c⟩
  · exact Or.inl c
  · exact Or.inr c

/-- C11 (amended) at FIFO and the trace of the single page 1. -/
theorem C11_zero_frames_not_rejected_witness :
    (fresh 0).pt.entries = [] ∧ (fresh 0).pm.frames = [] ∧ (fresh 0).pm.size = 0 ∧
    (fresh 0).fifo.size = 0 ∧ (fresh 0).clock.size = 0 ∧ (fresh 0).sc.size = 0 ∧
    fifo_replace (fresh 0).fifo = none ∧ clock_replace (fresh 0).clock = none ∧
    second_chance_replace (fresh 0).sc = none ∧
    (∃ t, (loads [1])[0]? = some t ∧ lookup (fresh 0).pt (page_of t) = none ∧
      ¬ ((fresh 0).pm.next_frame < (fresh 0).pm.size) ∧
      access 0 (loads [1]) (loads [1]).length 0 (fresh 0) = none ∧
      simulate_virtual_memory (fresh 0) 0 (loads [1]) (loads [1]).length = none) ∧
    (∀ argc algorithm physical_address_bits a num_frames,
      main_config argc algorithm physical_address_bits = some (a, num_frames) →
      num_frames = 256 ∨ num_frames = 4096) :=
  C11_zero_frames_not_rejected 0 (loads [1]) (by decide) (by decide)

/-- C11 as stated fails: construction with size 0 does not fail.  It returns the state
    with empty arrays, and the run of FIFO on it over the one-page trace does reach the
    replace call of the first access (no hit, no free frame), where `fifo_replace`
    computes a remainder modulo 0. -/
theorem C11_counterexample :
    create_page_table 0 =
      { entries := [], size := 0, page_faults := 0, hits := 0, misses := 0 } ∧
    create_physical_memory 0 = { frames := [], size := 0, next_frame := 0 } ∧
    create_fifo_queue 0 = { pages := [], frames := [], size := 0, next_index := 0 } ∧
    lookup (fresh 0).pt 1 = none ∧
    ¬ ((fresh 0).pm.next_frame < (fresh 0).pm.size) ∧
    fifo_replace (fresh 0).fifo = none ∧
    simulate_virtual_memory (fresh 0) 0 (loads [1]) 1 = none := by
  refine ⟨rfl, rfl, rfl, rfl, by decide, rfl, rfl⟩



theorem upd_getElem? {α : Type} (xs : List α) (j i : Nat) (f : α → α) :
    (upd xs j f)[i]? = if i = j then (xs[i]?).map f else xs[i]? := by
  unfold upd
  cases hj : xs[j]? with
  | none =>
    simp only
    split_ifs with h
    · subst h; simp [hj]
    · rfl
  | some x =>
    simp only
    have hlt : j < xs.length := by rw [List.getElem?_eq_some] at hj; exact hj.1
    split_ifs with h
    · subst h; rw [List.getElem?_set_self hlt, hj]; rfl
    · rw [List.getElem?_set_ne (Ne.symm h)]

theorem age_all_succ_occ (frames : List Int) (n j : Nat) (ages : List Int)
    (h : lru_occupied frames j = true) :
    age_all frames (n + 1) j ages = age_all frames n (j + 1) (upd ages j (fun a => a + 1)) := by
  unfold lru_occupied at h
  cases hf : frames[j]? with
  | none => rw [hf] at h; cases h
  | some f =>
    rw [hf] at h
    simp only at h
    simp only [age_all, hf, h, if_true]

theorem age_all_succ_free (frames : List Int) (n j : Nat) (ages : List Int)
    (h : ¬ lru_occupied frames j = true) :
    age_all frames (n + 1) j ages = age_all frames n (j + 1) ages := by
  unfold lru_occupied at h
  cases hf : frames[j]? with
  | none => simp only [age_all, hf]
  | some f =>
    rw [hf] at h
    simp only at h
    simp [age_all, hf, h]

theorem age_all_getElem? (frames : List Int) :
    ∀ (n j : Nat) (ages : List Int) (i : Nat),
      (age_all frames n j ages)[i]? =
        if j ≤ i ∧ i < j + n ∧ lru_occupied frames i = true
        then (ages[i]?).map (fun a => a + 1) else ages[i]? := by
  intro n
  induction n with
  | zero =>
    intro j ages i
    have : ¬ (j ≤ i ∧ i < j + 0 ∧ lru_occupied frames i = true) := by omega
    simp only [age_all, this, if_false]
  | succ n ih =>
    intro j ages i
    by_cases hocc : lru_occupied frames j = true
    · rw [age_all_succ_occ frames n j ages hocc, ih, upd_getElem?]
      by_cases hij : i = j
      · subst hij
        have h1 : ¬ (i + 1 ≤ i ∧ i < i + 1 + n ∧ lru_occupied frames i = true) := by omega
        have h2 : (i ≤ i ∧ i < i + (n + 1) ∧ lru_occupied frames i = true) :=
          ⟨le_refl _, by omega, hocc⟩
        rw [if_neg h1, if_pos h2, if_pos rfl]
      · rw [if_neg hij]
        by_cases hc : j + 1 ≤ i ∧ i < j + 1 + n ∧ lru_occupied frames i = true
        · have h2 : j ≤ i ∧ i < j + (n + 1) ∧ lru_occupied frames i = true :=
            ⟨by omega, by omega, hc.2.2⟩
          rw [if_pos hc, if_pos h2]
        · have h2 : ¬ (j ≤ i ∧ i < j + (n + 1) ∧ lru_occupied frames i = true) := by
            intro h
            exact hc ⟨by omega, by omega, h.2.2⟩
          rw [if_neg hc, if_neg h2]
    · rw [age_all_succ_free frames n j ages hocc, ih]
      by_cases hij : i = j
      · subst hij
        have h1 : ¬ (i + 1 ≤ i ∧ i < i + 1 + n ∧ lru_occupied frames i = true) := by omega
        have h2 : ¬ (i ≤ i ∧ i < i + (n + 1) ∧ lru_occupied frames i = true) :=
          fun h => hocc h.2.2
        rw [if_neg h1, if_neg h2]
      · by_cases hc : j + 1 ≤ i ∧ i < j + 1 + n ∧ lru_occupied frames i = true
        · have h2 : j ≤ i ∧ i < j + (n + 1) ∧ lru_occupied frames i = true :=
            ⟨by omega, by omega, hc.2.2⟩
          rw [if_pos hc, if_pos h2]
        · have h2 : ¬ (j ≤ i ∧ i < j + (n + 1) ∧ lru_occupied frames i = true) := by
            intro h
            exact hc ⟨by omega, by omega, h.2.2⟩
          rw [if_neg hc, if_neg h2]

theorem record_install_lru {N : Nat} {s s' : SimState} {v : Nat} {p : Int}
    (hs : Shape N s) (hv : v < N) (h : record_install 1 s v p = some s') :
    s'.lru.frames = s.lru.frames.set v (v : Int) ∧
    s'.lru.ages = age_all (s.lru.frames.set v (v : Int)) N 0 (s.lru.ages.set v 0) ∧
    s'.fifo = s.fifo ∧ s'.sc = s.sc ∧ s'.clock = s.clock := by
  unfold record_install at h
  simp only [show ¬ (1 = 0) by decide, if_false, if_true,
    store_eq _ (show v < s.lru.pages.length by rw [hs.lru_pages]; exact hv),
    store_eq _ (show v < s.lru.frames.length by rw [hs.lru_frames]; exact hv),
    store_eq _ (show v < s.lru.ages.length by rw [hs.lru_ages]; exact hv),
    Option.some.injEq] at h
  subst h
  exact ⟨rfl, by simp [hs.lru_size], rfl, rfl, rfl⟩


theorem choose_victim_lru {tr : List TraceEntry} {ts i : Nat} {s s2 : SimState}
    {v : Nat} {cl : List Nat} (h : choose_victim 1 tr ts i s = some (v, cl, s2)) :
    v = lru_replace s.lru ∧ cl = [] ∧ s2 = s := by
  simp only [choose_victim, Option.some.injEq, Prod.mk.injEq] at h
  exact ⟨h.1.symm, h.2.1.symm, h.2.2.symm⟩

/-- What an access of an LRU run does to the LRU queue. -/
theorem Stepped_lru {N : Nat} {tr : List TraceEntry} {ts i : Nat} {s s' : SimState}
    {e : Event} (hI : Inv N 1 s) (h : Stepped N 1 tr ts i s e s') :
    (e.is_evict = false ∧ (∀ f, e.installs f = false) ∧ s'.lru = s.lru ∧ s'.pm = s.pm) ∨
    (∃ v, v < N ∧ e.installs v = true ∧ (∀ f, e.installs f = true → f = v) ∧
      v < s'.pm.next_frame ∧ s.pm.next_frame ≤ s'.pm.next_frame ∧
      (e.is_evict = false → v = s.pm.next_frame ∧ s'.pm.next_frame = v + 1) ∧
      (e.is_evict = true → v = lru_replace s.lru ∧ s.pm.next_frame = N ∧
        s'.pm.next_frame = N) ∧
      s'.lru.frames = s.lru.frames.set v (v : Int) ∧
      s'.lru.ages = age_all (s.lru.frames.set v (v : Int)) N 0 (s.lru.ages.set v 0)) := by
  obtain ⟨t, ht, h | h | h⟩ := h
  · obtain ⟨j, _, rfl, rfl⟩ := h
    exact Or.inl ⟨rfl, fun f => rfl, rfl, rfl⟩
  · obtain ⟨_, hfree, rfl, hr⟩ := h
    obtain ⟨a, b, _⟩ := record_install_lru
      (Shape_miss_state hI.shape s.pm.next_frame (toInt32 t.address) (s.pm.next_frame + 1))
      hfree hr
    obtain ⟨_, k2⟩ := record_install_keeps hr
    have hnf : s'.pm.next_frame = s.pm.next_frame + 1 := by rw [k2]; rfl
    refine Or.inr ⟨s.pm.next_frame, hfree, by simp [Event.installs], ?_, by omega, by omega,
      fun _ => ⟨rfl, hnf⟩, fun hc => by simp [Event.is_evict] at hc, a, b⟩
    intro f hf
    simp only [Event.installs, beq_iff_eq] at hf
    exact hf.symm
  · obtain ⟨_, hfull, v, cl, s2, e0, hc, hv, _, rfl, hr⟩ := h
    obtain ⟨c1, _, rfl⟩ := choose_victim_lru hc
    obtain ⟨a, b, _⟩ := record_install_lru
      (Shape_miss_state hI.shape v (toInt32 t.address) N) hv hr
    obtain ⟨_, k2⟩ := record_install_keeps hr
    have hnf : s'.pm.next_frame = N := by rw [k2]; rfl
    refine Or.inr ⟨v, hv, by simp [Event.installs], ?_, by omega, by omega,
      fun hc => by simp [Event.is_evict] at hc, fun _ => ⟨c1, hfull, hnf⟩, a, b⟩
    intro f hf
    simp only [Event.installs, beq_iff_eq] at hf
    exact hf.symm

theorem LruLink_step {N : Nat} {tr : List TraceEntry} {ts i : Nat} {s s' : SimState}
    {e : Event} (hI : Inv N 1 s) (hL : LruLink N s) (h : Stepped N 1 tr ts i s e s') :
    LruLink N s' := by
  rcases Stepped_lru hI h with ⟨_, _, a, b⟩ | ⟨v, hv, _, _, h1, h2, h3, h4, a, _⟩
  · intro j hj
    rw [a, b]
    exact hL j hj
  · intro j hj
    rw [a]
    have hlen : v < s.lru.frames.length := by rw [hI.shape.lru_frames]; exact hv
    by_cases hjv : v = j
    · subst hjv
      rw [List.getElem?_set_self hlen, if_pos h1]
    · rw [List.getElem?_set_ne hjv, hL j hj]
      cases he : e.is_evict with
      | false =>
        obtain ⟨x, y⟩ := h3 he
        by_cases hlt : j < s.pm.next_frame
        · rw [if_pos hlt, if_pos (by omega)]
        · rw [if_neg hlt, if_neg (by omega)]
      | true =>
        obtain ⟨_, x, y⟩ := h4 he
        rw [x, y]

theorem LruLink_occupied {N : Nat} {s : SimState} (hL : LruLink N s) {j : Nat} (hj : j < N) :
    lru_occupied s.lru.frames j = true ↔ j < s.pm.next_frame := by
  unfold lru_occupied
  rw [hL j hj]
  by_cases hlt : j < s.pm.next_frame
  · simp only [hlt, if_true, iff_true]
    simp
  · simp [hlt]

theorem lru_run_prefix {N : Nat} (tr : List TraceEntry) (hN : 0 < N) {k : Nat}
    (hk : k ≤ tr.length) :
    ∃ es s, simulate_from 1 tr tr.length k 0 (fresh N) = some (es, s) ∧ Inv N 1 s ∧
      LruLink N s := by
  obtain ⟨es, s, h1, _, h3, h4⟩ := run_induction tr tr.length hN (by decide : 1 ≤ 4)
    (fun _ _ s => LruLink N s)
    (fun i es s e s' _ hI hP hS _ => LruLink_step hI hP hS)
    k 0 [] (fresh N) (Inv_fresh N 1 hN)
    (fun j hj => by simp [fresh, create_lru_queue, create_physical_memory, hj]) (by omega)
  exact ⟨es, s, h1, h3, h4⟩


/-- C14 (amended): under LRU (algorithm 1), immediately after a miss of a run from fresh
    state (`N >= 1`) installs a page into frame `f`, the age of frame `f` is 1 (line 475
    sets it to 0 and the ageing loop of lines 476-478, which runs over every occupied
    frame, `f` included, increments it), the age of every other occupied frame is
    exactly one greater than before the miss, and the ages of unoccupied frames are
    unchanged; the occupied frames, those with `lru->frames[j] != -1`, are the frames
    below `next_frame`. -/
theorem C14_lru_ages_after_install (N : Nat) (tr : List TraceEntry) (k : Nat) (hN : 1 ≤ N)
    (hk : k < tr.length) :
    ∃ es s, simulate_from 1 tr tr.length k 0 (fresh N) = some (es, s) ∧
      ∃ e s', access 1 tr tr.length k s = some (e, s') ∧
        (∀ j, j < N → (lru_occupied s'.lru.frames j = true ↔ j < s'.pm.next_frame)) ∧
        (∀ f, e.installs f = true →
          s'.lru.ages[f]? = some 1 ∧
          (∀ j, j < N → j ≠ f → j < s'.pm.next_frame →
            ∃ a, s.lru.ages[j]? = some a ∧ s'.lru.ages[j]? = some (a + 1)) ∧
          (∀ j, j < N → s'.pm.next_frame ≤ j → s'.lru.ages[j]? = s.lru.ages[j]?)) := by
  obtain ⟨es, s, h1, hI, hL⟩ := lru_run_prefix tr hN (le_of_lt hk)
  obtain ⟨e, s', h2, hS, _⟩ := access_step tr.length hN (by decide : 1 ≤ 4) hI hk
  have hL' := LruLink_step hI hL hS
  refine ⟨es, s, h1, e, s', h2, fun j hj => LruLink_occupied hL' hj, ?_⟩
  intro f hf
  rcases Stepped_lru hI hS with ⟨_, hno, _, _⟩ | ⟨v, hv, _, huniq, h1v, _, _, _, a, b⟩
  · rw [hno f] at hf; cases hf
  · have hfv := huniq f hf
    subst hfv
    have hlen : f < s.lru.ages.length := by rw [hI.shape.lru_ages]; exact hv
    have hocc : ∀ j, j < N →
        (lru_occupied (s.lru.frames.set f (f : Int)) j = true ↔ j < s'.pm.next_frame) := by
      intro j hj
      rw [← a]
      exact LruLink_occupied hL' hj
    refine ⟨?_, ?_, ?_⟩
    · rw [b, age_all_getElem?, if_pos ⟨Nat.zero_le _, by omega, (hocc f hv).2 h1v⟩,
        List.getElem?_set_self hlen]
      rfl
    · intro j hj hjf hjn
      have hjl : j < s.lru.ages.length := by rw [hI.shape.lru_ages]; exact hj
      refine ⟨s.lru.ages[j], List.getElem?_eq_getElem hjl, ?_⟩
      rw [b, age_all_getElem?, if_pos ⟨Nat.zero_le _, by omega, (hocc j hj).2 hjn⟩,
        List.getElem?_set_ne (Ne.symm hjf), List.getElem?_eq_getElem hjl]
      rfl
    · intro j hj hjn
      have hne : f ≠ j := by omega
      have hfree : ¬ (0 ≤ j ∧ j < 0 + N ∧ lru_occupied (s.lru.frames.set f (f : Int)) j = true) :=
        fun h => absurd ((hocc j hj).1 h.2.2) (by omega)
      rw [b, age_all_getElem?, if_neg hfree, List.getElem?_set_ne hne]

/-- C14 (amended) at `N = 2`, trace of pages 1, 2, 3, at the access of page 3. -/
theorem C14_lru_ages_after_install_witness :
    ∃ es s, simulate_from 1 (loads [1, 2, 3]) (loads [1, 2, 3]).length 2 0 (fresh 2)
        = some (es, s) ∧
      ∃ e s', access 1 (loads [1, 2, 3]) (loads [1, 2, 3]).length 2 s = some (e, s') ∧
        (∀ j, j < 2 → (lru_occupied s'.lru.frames j = true ↔ j < s'.pm.next_frame)) ∧
        (∀ f, e.installs f = true →
          s'.lru.ages[f]? = some 1 ∧
          (∀ j, j < 2 → j ≠ f → j < s'.pm.next_frame →
            ∃ a, s.lru.ages[j]? = some a ∧ s'.lru.ages[j]? = some (a + 1)) ∧
          (∀ j, j < 2 → s'.pm.next_frame ≤ j → s'.lru.ages[j]? = s.lru.ages[j]?)) :=
  C14_lru_ages_after_install 2 (loads [1, 2, 3]) 2 (by decide) (by decide)

/-- C14 as stated fails: with `N = 2` and the trace of the single page 1, the miss
    installs the page into frame 0 and leaves the age of frame 0 at 1, not 0. -/
theorem C14_counterexample :
    (simulate_virtual_memory_log (fresh 2) 1 (loads [1]) 1).map
        (fun r => (r.1, r.2.lru.ages, r.2.lru.ages[0]?)) =
      some ([Event.fill 1 0], [1, 0], some 1) := by
  decide



/-- What an access does to the miss counter, `next_frame`, the cursor and the hands. -/
theorem Stepped_cursors {N alg : Nat} {tr : List TraceEntry} {ts i : Nat} {s s' : SimState}
    {e : Event} (hI : Inv N alg s) (h : Stepped N alg tr ts i s e s') :
    (∃ p j, e = Event.hit p j ∧ s'.pt.misses = s.pt.misses ∧
        s'.pm.next_frame = s.pm.next_frame ∧ s'.fifo.next_index = s.fifo.next_index ∧
        s'.sc.hand = s.sc.hand ∧ s'.clock.hand = s.clock.hand) ∨
    (∃ p, e = Event.fill p s.pm.next_frame ∧ s.pm.next_frame < N ∧
        s'.pt.misses = s.pt.misses + 1 ∧
        s'.pm.next_frame = s.pm.next_frame + 1 ∧ s'.fifo.next_index = s.fifo.next_index ∧
        s'.sc.hand = s.sc.hand ∧ s'.clock.hand = s.clock.hand) ∨
    (∃ p v r cl, e = Event.evict p v r cl ∧ s.pm.next_frame = N ∧
        s'.pt.misses = s.pt.misses + 1 ∧ s'.pm.next_frame = N) := by
  obtain ⟨t, ht, h | h | h⟩ := h
  · obtain ⟨j, _, rfl, rfl⟩ := h
    exact Or.inl ⟨_, j, rfl, rfl, rfl, rfl, rfl, rfl⟩
  · obtain ⟨_, hfree, rfl, hr⟩ := h
    obtain ⟨s'', r1, r2, r3, r4, r5, r6, r7, _, _⟩ :=
      record_install_spec alg (toInt32 t.address)
        (Shape_miss_state hI.shape s.pm.next_frame (toInt32 t.address) (s.pm.next_frame + 1))
        hfree
    rw [hr] at r1
    simp only [Option.some.injEq] at r1
    subst r1
    exact Or.inr (Or.inl ⟨_, rfl, hfree, by rw [r2]; rfl, by rw [r3]; rfl, r5, r6, r7⟩)
  · obtain ⟨_, hfull, v, cl, s2, e0, hc, hv, _, rfl, hr⟩ := h
    obtain ⟨k1, k2⟩ := record_install_keeps hr
    obtain ⟨c1, _⟩ := choose_victim_keeps hc
    refine Or.inr (Or.inr ⟨_, v, _, cl, rfl, hfull, ?_, by rw [k2]; rfl⟩)
    rw [k1]; simp [miss_state, c1]

theorem FillFirst_step {N alg : Nat} {tr : List TraceEntry} {ts i : Nat} {s s' : SimState}
    {e : Event} {es : List Event} (hI : Inv N alg s) (hP : FillFirst N es s)
    (hS : Stepped N alg tr ts i s e s') : FillFirst N (es ++ [e]) s' := by
  obtain ⟨P1, P2, P3⟩ := hP
  rcases Stepped_cursors hI hS with ⟨p, j, rfl, a, b, c, d, f⟩ | ⟨p, rfl, hfree, a, b, c, d, f⟩ |
      ⟨p, v, r, cl, rfl, hfull, a, b⟩
  · refine ⟨?_, ?_, ?_⟩
    · rw [a, P1]; simp [List.filter_append, Event.is_miss]
    · rw [a, b, P2]
    · intro h; rw [a] at h; rw [c, d, f]; exact P3 h
  · have hm : s.pt.misses = s.pm.next_frame := by
      rw [P2] at hfree ⊢
      by_cases hle : s.pt.misses ≤ N
      · exact (min_eq_left hle).symm
      · rw [min_eq_right (by omega)] at hfree; omega
    refine ⟨?_, ?_, ?_⟩
    · rw [a, P1]; simp [List.filter_append, Event.is_miss]
    · rw [a, b, hm]; exact (min_eq_left (by omega)).symm
    · intro _; rw [c, d, f]; exact P3 (by omega)
  · have hm : N ≤ s.pt.misses := by
      rw [P2] at hfull
      by_cases hle : s.pt.misses ≤ N
      · rw [min_eq_left hle] at hfull; omega
      · omega
    refine ⟨?_, ?_, ?_⟩
    · rw [a, P1]; simp [List.filter_append, Event.is_miss]
    · rw [a, b]; exact (min_eq_right (by omega)).symm
    · intro h; rw [a] at h; omega

theorem passed_cons (N hand k : Nat) (hh : hand < N) :
    passed N hand (k + 1) = hand :: passed N ((hand + 1) % N) k := by
  unfold passed
  rw [List.range_succ_eq_map, List.map_cons, List.map_map]
  congr 1
  · exact Nat.mod_eq_of_lt hh
  · apply List.map_congr_left
    intro m _
    simp only [Function.comp, Nat.mod_add_mod]
    congr 1
    omega

theorem mem_passed {N hand k j : Nat} : j ∈ passed N hand k ↔ ∃ m, m < k ∧ (hand + m) % N = j := by
  unfold passed
  simp [List.mem_map, List.mem_range]

theorem clear_all_getElem? (l : List Nat) :
    ∀ (bits : List Int) (j : Nat), j < bits.length →
      (clear_all bits l)[j]? = if j ∈ l then some 0 else bits[j]? := by
  induction l with
  | nil => intro bits j _; simp [clear_all]
  | cons a l ih =>
    intro bits j hj
    have hstep : clear_all bits (a :: l) = clear_all (bits.set a 0) l := rfl
    rw [hstep, ih (bits.set a 0) j (by simpa using hj)]
    by_cases hjl : j ∈ l
    · simp [hjl]
    · by_cases hja : j = a
      · subst hja
        simp [hjl, List.getElem?_set_self hj]
      · have hne : a ≠ j := fun h => hja h.symm
        simp [hjl, hja, List.getElem?_set_ne hne]

theorem clear_all_length (l : List Nat) :
    ∀ (bits : List Int), (clear_all bits l).length = bits.length := by
  induction l with
  | nil => intro bits; rfl
  | cons a l ih =>
    intro bits
    have hstep : clear_all bits (a :: l) = clear_all (bits.set a 0) l := rfl
    rw [hstep, ih]; simp

/-- Passing over `k` slots whose bit is set: the scan clears them and goes on from the
    queue with the hand `k` slots further. -/
theorem clock_scan_pass (N : Nat) (hN : 0 < N) :
    ∀ (k : Nat) (q : ClockQueue), q.size = N → q.reference_bits.length = N → q.hand < N →
      k ≤ N →
      (∀ m, m < k → ∃ b, q.reference_bits[(q.hand + m) % N]? = some b ∧ b ≠ 0) →
      ∀ (fuel : Nat) (r : Nat × List Nat × ClockQueue),
        clock_scan fuel (pass_over q k) = some r →
        clock_scan (fuel + k) q = some (r.1, passed N q.hand k ++ r.2.1, r.2.2) := by
  intro k
  induction k with
  | zero =>
    intro q hs hl hh _ _ fuel r hr
    have e2 : pass_over q 0 = q := by
      cases q
      simp only [pass_over, passed, clear_all, List.range_zero, List.map_nil, List.foldl_nil,
        Nat.add_zero]
      simp only at hs hh
      rw [hs, Nat.mod_eq_of_lt hh]
    rw [e2] at hr
    have e1 : passed N q.hand 0 = [] := rfl
    rw [e1]
    simpa using hr
  | succ k ih =>
    intro q hs hl hh hk hset fuel r hr
    obtain ⟨b, hb, hb0⟩ := hset 0 (by omega)
    rw [Nat.add_zero, Nat.mod_eq_of_lt hh] at hb
    have hs0 : q.size ≠ 0 := by omega
    have hh1 : (q.hand + 1) % N < N := Nat.mod_lt _ hN
    have e2 : ((q.hand + 1) % N + k) % N = (q.hand + (k + 1)) % N := by
      rw [Nat.mod_add_mod]; congr 1; omega
    have epass : pass_over ⟨q.pages, q.frames, q.reference_bits.set q.hand 0, N,
        (q.hand + 1) % N⟩ k = pass_over q (k + 1) := by
      simp only [pass_over, hs, e2, passed_cons N q.hand k hh]
      rfl
    have key := ih ⟨q.pages, q.frames, q.reference_bits.set q.hand 0, N,
        (q.hand + 1) % N⟩ rfl (by simp [hl]) hh1 (by omega)
      (by
        intro m hm
        obtain ⟨b', hb', hb0'⟩ := hset (m + 1) (by omega)
        refine ⟨b', ?_, hb0'⟩
        show (q.reference_bits.set q.hand 0)[((q.hand + 1) % N + m) % N]? = some b'
        rw [Nat.mod_add_mod, show q.hand + 1 + m = q.hand + (m + 1) by omega,
          List.getElem?_set_ne]
        · exact hb'
        · have := @mod_ne_of_close N q.hand (q.hand + (m + 1))
            (by omega) (by omega)
          rw [Nat.mod_eq_of_lt hh] at this
          exact this)
      fuel r (by rw [epass]; exact hr)
    have e3 : fuel + (k + 1) = (fuel + k) + 1 := by omega
    rw [e3]
    unfold clock_scan
    simp only [hb, hs0, if_false, hb0, hs]
    have key' : clock_scan (fuel + k) ⟨q.pages, q.frames, q.reference_bits.set q.hand 0, N,
        (q.hand + 1) % N⟩ = some (r.1, passed N ((q.hand + 1) % N) k ++ r.2.1, r.2.2) := key
    rw [key', passed_cons N q.hand k hh]
    have hN0 : N ≠ 0 := by omega
    simp [hN0]


theorem pass_over_bits {q : ClockQueue} {k j : Nat} (hj : j < q.reference_bits.length) :
    (pass_over q k).reference_bits[j]? =
      if j ∈ passed q.size q.hand k then some 0 else q.reference_bits[j]? :=
  clear_all_getElem? _ _ _ hj

/-- One revolution is enough: from any queue of `size ≥ 1` slots whose hand is in range,
    the scan returns after passing over `k ≤ size` slots whose bit was set. -/
theorem clock_scan_revolution (q : ClockQueue) (hsize : 1 ≤ q.size)
    (hhand : q.hand < q.size) (hlen : q.reference_bits.length = q.size) :
    ∃ k, k ≤ q.size ∧
      (∀ m, m < k → ∃ b, q.reference_bits[(q.hand + m) % q.size]? = some b ∧ b ≠ 0) ∧
      (k < q.size → q.reference_bits[(q.hand + k) % q.size]? = some 0) ∧
      clock_scan (k + 1) q = some ((q.hand + k) % q.size, passed q.size q.hand k,
        ⟨q.pages, q.frames, clear_all q.reference_bits (passed q.size q.hand k), q.size,
          ((q.hand + k) % q.size + 1) % q.size⟩) := by
  have hN : 0 < q.size := hsize
  have hex : ∀ m, ∃ b, q.reference_bits[(q.hand + m) % q.size]? = some b := by
    intro m
    have : (q.hand + m) % q.size < q.reference_bits.length := by
      rw [hlen]; exact Nat.mod_lt _ hN
    exact ⟨_, List.getElem?_eq_getElem this⟩
  have fin : ∀ k, k ≤ q.size →
      (∀ m, m < k → ∃ b, q.reference_bits[(q.hand + m) % q.size]? = some b ∧ b ≠ 0) →
      (pass_over q k).reference_bits[(q.hand + k) % q.size]? = some 0 →
      clock_scan (k + 1) q = some ((q.hand + k) % q.size, passed q.size q.hand k,
        ⟨q.pages, q.frames, clear_all q.reference_bits (passed q.size q.hand k), q.size,
          ((q.hand + k) % q.size + 1) % q.size⟩) := by
    intro k hk hset hz
    have h1 := @clock_scan_now 0 (pass_over q k) (by show q.size ≠ 0; omega) hz
    have h2 := clock_scan_pass q.size hN k q rfl hlen hhand hk hset (0 + 1) _ h1
    rw [show 0 + 1 + k = k + 1 by omega] at h2
    rw [h2]
    simp [pass_over]
  by_cases h : ∃ m, m < q.size ∧ q.reference_bits[(q.hand + m) % q.size]? = some 0
  · classical
    have hk := Nat.find_spec h
    have hmin : ∀ m, m < Nat.find h →
        ∃ b, q.reference_bits[(q.hand + m) % q.size]? = some b ∧ b ≠ 0 := by
      intro m hm
      obtain ⟨b, hb⟩ := hex m
      refine ⟨b, hb, ?_⟩
      intro hb0
      exact Nat.find_min h hm ⟨by omega, by rw [hb, hb0]⟩
    refine ⟨Nat.find h, hk.1.le, hmin, fun _ => hk.2, ?_⟩
    apply fin _ hk.1.le hmin
    rw [pass_over_bits (by rw [hlen]; exact Nat.mod_lt _ hN)]
    have hnot : (q.hand + Nat.find h) % q.size ∉ passed q.size q.hand (Nat.find h) := by
      intro hm
      obtain ⟨m, hm, he⟩ := mem_passed.mp hm
      exact @mod_ne_of_close q.size (q.hand + m) (q.hand + Nat.find h)
        (by omega) (by omega) he
    rw [if_neg hnot]
    exact hk.2
  · have hall : ∀ m, m < q.size →
        ∃ b, q.reference_bits[(q.hand + m) % q.size]? = some b ∧ b ≠ 0 := by
      intro m hm
      obtain ⟨b, hb⟩ := hex m
      refine ⟨b, hb, ?_⟩
      intro hb0
      exact h ⟨m, hm, by rw [hb, hb0]⟩
    refine ⟨q.size, le_refl _, hall, fun hlt => absurd hlt (lt_irrefl _), ?_⟩
    apply fin _ (le_refl _) hall
    rw [pass_over_bits (by rw [hlen]; exact Nat.mod_lt _ hN)]
    have hin : (q.hand + q.size) % q.size ∈ passed q.size q.hand q.size := by
      apply mem_passed.mpr
      refine ⟨0, hN, ?_⟩
      rw [Nat.add_mod_right]
      rfl
    rw [if_pos hin]


/-- C15: one revolution of the hand.  For every clock queue with `size ≥ 1`, the hand in
    range and arbitrary reference bits, the scan of `clock_replace` returns after `k + 1`
    inspected slots with `k ≤ size`, and so does `second_chance_replace` on the same
    queue.  The `k` slots passed over all had their bit set, the victim
    `(hand + k) mod size` is the first slot from the hand whose bit is 0 (the hand itself
    when `k = size`, every bit being set), the bits cleared are exactly those of the
    slots passed over, and the hand is left at `(victim + 1) mod size`. -/
theorem C15_scan_within_one_revolution (q : ClockQueue) (hsize : 1 ≤ q.size)
    (hhand : q.hand < q.size) (hlen : q.reference_bits.length = q.size) :
    ∃ k v q', k ≤ q.size ∧ v = (q.hand + k) % q.size ∧
      clock_scan (k + 1) q = some (v, passed q.size q.hand k, q') ∧
      clock_replace q = some (v, passed q.size q.hand k, q') ∧
      second_chance_scan (k + 1) (clock_as_sc q) =
        some (v, passed q.size q.hand k, clock_as_sc q') ∧
      second_chance_replace (clock_as_sc q) =
        some (v, passed q.size q.hand k, clock_as_sc q') ∧
      (∀ m, m < k → ∃ b, q.reference_bits[(q.hand + m) % q.size]? = some b ∧ b ≠ 0) ∧
      (k < q.size → q.reference_bits[v]? = some 0) ∧
      (k = q.size → v = q.hand) ∧
      q'.hand = (v + 1) % q.size ∧ q'.size = q.size ∧ q'.pages = q.pages ∧
      q'.frames = q.frames ∧
      (∀ j, j < q.size → q'.reference_bits[j]? =
        if j ∈ passed q.size q.hand k then some 0 else q.reference_bits[j]?) := by
  obtain ⟨k, hk, hset, hz, hscan⟩ := clock_scan_revolution q hsize hhand hlen
  have hrep : clock_replace q = some ((q.hand + k) % q.size, passed q.size q.hand k,
      ⟨q.pages, q.frames, clear_all q.reference_bits (passed q.size q.hand k), q.size,
        ((q.hand + k) % q.size + 1) % q.size⟩) :=
    clock_scan_fuel _ _ _ hscan _ (by omega)
  refine ⟨k, _, _, hk, rfl, hscan, hrep, ?_, ?_, hset, hz, ?_, rfl, rfl, rfl, rfl, ?_⟩
  · rw [second_chance_scan_eq]
    have e : sc_as_clock (clock_as_sc q) = q := rfl
    rw [e, hscan]
    rfl
  · rw [second_chance_replace_eq]
    have e : sc_as_clock (clock_as_sc q) = q := rfl
    rw [e, hrep]
    rfl
  · intro hkn
    rw [hkn, Nat.add_mod_right, Nat.mod_eq_of_lt hhand]
  · intro j hj
    exact clear_all_getElem? _ _ _ (by rw [hlen]; exact hj)

theorem C15_scan_within_one_revolution_witness :
    1 ≤ (ClockQueue.mk [7, 8, 9] [0, 1, 2] [0, 1, 1] 3 1).size ∧
    (ClockQueue.mk [7, 8, 9] [0, 1, 2] [0, 1, 1] 3 1).hand <
      (ClockQueue.mk [7, 8, 9] [0, 1, 2] [0, 1, 1] 3 1).size ∧
    clock_replace (ClockQueue.mk [7, 8, 9] [0, 1, 2] [0, 1, 1] 3 1) =
      some (0, [1, 2], ClockQueue.mk [7, 8, 9] [0, 1, 2] [0, 0, 0] 3 1) ∧
    ∃ k v q', k ≤ 3 ∧ v = (1 + k) % 3 ∧
      clock_scan (k + 1) (ClockQueue.mk [7, 8, 9] [0, 1, 2] [0, 1, 1] 3 1) =
        some (v, passed 3 1 k, q') :=
  ⟨by decide, by decide, by decide,
    (C15_scan_within_one_revolution (ClockQueue.mk [7, 8, 9] [0, 1, 2] [0, 1, 1] 3 1)
      (by decide) (by decide) (by decide)).imp
      (fun _ h => h.imp (fun _ h' => h'.imp (fun _ h'' => ⟨h''.1, h''.2.1, h''.2.2.1⟩)))⟩



/-- With LRU or MIN the `*_replace` call of the display loop changes nothing, so its
    step is `simulate_virtual_memory_step`. -/
theorem visualize_step_pure (s : SimState) (alg : Nat) (halg : alg = 1 ∨ alg = 2)
    (tr : List TraceEntry) (ts step : Nat) :
    visualize_step s alg tr ts step = simulate_virtual_memory_step s alg tr ts step := by
  unfold visualize_step
  cases ht : tr[step]? with
  | none => simp [simulate_virtual_memory_step, ht]
  | some t =>
    rcases halg with rfl | rfl <;> simp

/-- C19: the pass as the display drives it is not the aggregate pass.  With 2 frames
    and the trace of pages 1, 2, 3, 1 the display-driven pass under FIFO,
    Second-Chance and Clock ends with 1 hit and 3 misses, the aggregate pass with 0 hits
    and 4 misses: the extra `*_replace` call of lines 654-665 moves the cursor, so the
    step replaces frame 1 where the aggregate pass replaces frame 0.  Under LRU and MIN,
    whose `*_replace` changes no state, the two passes agree on this trace. -/
theorem C19_display_pass_differs :
    (visualize_run 0 (loads [1, 2, 3, 1]) 4 4 0 (fresh 2)).map counters = some (1, 3, 3) ∧
    (simulate_virtual_memory (fresh 2) 0 (loads [1, 2, 3, 1]) 4).map counters
      = some (0, 4, 4) ∧
    (visualize_run 3 (loads [1, 2, 3, 1]) 4 4 0 (fresh 2)).map counters = some (1, 3, 3) ∧
    (simulate_virtual_memory (fresh 2) 3 (loads [1, 2, 3, 1]) 4).map counters
      = some (0, 4, 4) ∧
    (visualize_run 4 (loads [1, 2, 3, 1]) 4 4 0 (fresh 2)).map counters = some (1, 3, 3) ∧
    (simulate_virtual_memory (fresh 2) 4 (loads [1, 2, 3, 1]) 4).map counters
      = some (0, 4, 4) ∧
    (visualize_run 0 (loads [1, 2, 3, 1]) 4 4 0 (fresh 2)).map (fun s => s.pt.entries) ≠
      (simulate_virtual_memory (fresh 2) 0 (loads [1, 2, 3, 1]) 4).map (fun s => s.pt.entries) ∧
    visualize_run 1 (loads [1, 2, 3, 1]) 4 4 0 (fresh 2) =
      simulate_virtual_memory (fresh 2) 1 (loads [1, 2, 3, 1]) 4 ∧
    visualize_run 2 (loads [1, 2, 3, 1]) 4 4 0 (fresh 2) =
      simulate_virtual_memory (fresh 2) 2 (loads [1, 2, 3, 1]) 4 := by
  refine ⟨by decide, by decide, by decide, by decide, by decide, by decide, by decide,
    by decide, by decide⟩





theorem simulate_from_snoc (alg : Nat) (tr : List TraceEntry) (ts : Nat) :
    ∀ (n i0 : Nat) (s0 : SimState) (es : List Event) (s : SimState) (e : Event)
      (s' : SimState),
      simulate_from alg tr ts n i0 s0 = some (es, s) →
      access alg tr ts (i0 + n) s = some (e, s') →
      simulate_from alg tr ts (n + 1) i0 s0 = some (es ++ [e], s') := by
  intro n
  induction n with
  | zero =>
    intro i0 s0 es s e s' h ha
    simp only [simulate_from, Option.some.injEq, Prod.mk.injEq] at h
    obtain ⟨rfl, rfl⟩ := h
    rw [Nat.add_zero] at ha
    simp [simulate_from, ha]
  | succ n ih =>
    intro i0 s0 es s e s' h ha
    rw [simulate_from] at h
    cases h1 : access alg tr ts i0 s0 with
    | none => rw [h1] at h; cases h
    | some r1 =>
      obtain ⟨e1, s1⟩ := r1
      rw [h1] at h
      simp only at h
      cases h2 : simulate_from alg tr ts n (i0 + 1) s1 with
      | none => rw [h2] at h; cases h
      | some r2 =>
        obtain ⟨es2, s2⟩ := r2
        rw [h2] at h
        simp only [Option.some.injEq, Prod.mk.injEq] at h
        obtain ⟨rfl, rfl⟩ := h
        have ha' : access alg tr ts (i0 + 1 + n) s2 = some (e, s') := by
          rw [show i0 + 1 + n = i0 + (n + 1) by omega]; exact ha
        have := ih (i0 + 1) s1 es2 s2 e s' h2 ha'
        rw [simulate_from, h1]
        simp only [this]
        rfl

theorem choose_victim_fifo_cleared {tr : List TraceEntry} {ts i : Nat} {s s2 : SimState}
    {v : Nat} {cl : List Nat} (h : choose_victim 0 tr ts i s = some (v, cl, s2)) : cl = [] := by
  simp only [choose_victim] at h
  cases hf : fifo_replace s.fifo with
  | none => rw [hf] at h; cases h
  | some r =>
    rw [hf] at h
    simp only [Option.some.injEq, Prod.mk.injEq] at h
    exact h.2.1.symm

/-- Two accesses at the same index from states with the same page table and frames, one
    under FIFO, make the same decision and leave the same page table and frames, provided
    the other policy's victim is the frame at the FIFO cursor. -/
theorem Stepped_pair {N alg : Nat} {tr : List TraceEntry} {ts i : Nat}
    {s s' f f' : SimState} {e e0 : Event} (hF : Inv N 0 f) (hpt : s.pt = f.pt)
    (hpm : s.pm = f.pm) (hS : Stepped N alg tr ts i s e s')
    (hS0 : Stepped N 0 tr ts i f e0 f')
    (hv : ∀ p v r cl, e = Event.evict p v r cl → v = f.fifo.next_index) :
    e.decision = e0 ∧ s'.pt = f'.pt ∧ s'.pm = f'.pm := by
  obtain ⟨t, ht, h⟩ := hS
  obtain ⟨t0, ht0, h0⟩ := hS0
  rw [ht] at ht0
  cases ht0
  rcases h with ⟨j, hl, rfl, rfl⟩ | ⟨hl, hfree, rfl, hr⟩ |
    ⟨hl, hfull, v, cl, s2, e1, hc, hvN, he1, rfl, hr⟩
  · rw [hpt] at hl
    rcases h0 with ⟨j0, hl0, rfl, rfl⟩ | ⟨hl0, _⟩ | ⟨hl0, _⟩
    · rw [hl] at hl0
      cases hl0
      refine ⟨rfl, ?_, hpm⟩
      simp only [hpt]
    · rw [hl] at hl0; cases hl0
    · rw [hl] at hl0; cases hl0
  · rw [hpt] at hl
    rcases h0 with ⟨j0, hl0, _⟩ | ⟨hl0, hfree0, rfl, hr0⟩ | ⟨hl0, hfull0, _⟩
    · rw [hl] at hl0; cases hl0
    · obtain ⟨k1, k2⟩ := record_install_keeps hr
      obtain ⟨k10, k20⟩ := record_install_keeps hr0
      refine ⟨by rw [hpm]; rfl, ?_, ?_⟩
      · rw [k1, k10]; simp only [miss_state]; rw [hpt, hpm]
      · rw [k2, k20]; simp only [miss_state]; rw [hpm]
    · rw [hpm] at hfree; omega
  · rw [hpt] at hl
    rcases h0 with ⟨j0, hl0, _⟩ | ⟨hl0, hfree0, _⟩ |
      ⟨hl0, hfull0, v0, cl0, f2, e10, hc0, hvN0, he10, rfl, hr0⟩
    · rw [hl] at hl0; cases hl0
    · rw [hpm] at hfull; omega
    · obtain ⟨k1, k2⟩ := record_install_keeps hr
      obtain ⟨k10, k20⟩ := record_install_keeps hr0
      obtain ⟨c1, c2⟩ := choose_victim_keeps hc
      obtain ⟨c10, c20⟩ := choose_victim_keeps hc0
      have hcl := choose_victim_fifo_cleared hc0
      obtain ⟨hv0, _⟩ := choose_victim_fifo hF.shape.fifo_size hc0
      have hvv : v = v0 := by rw [hv0]; exact hv _ _ _ _ rfl
      subst hvv
      subst hcl
      rw [hpt, he10] at he1
      cases he1
      refine ⟨rfl, ?_, ?_⟩
      · rw [k1, k10]; simp only [miss_state]; rw [c1, c10, hpt]
      · rw [k2, k20]; simp only [miss_state]; rw [c2, c20, hpm]

theorem Stepped_hand {N alg : Nat} {tr : List TraceEntry} {ts i : Nat} {s s' : SimState}
    {e : Event} (hN : 0 < N) (halg : alg = 3 ∨ alg = 4) (hI : Inv N alg s)
    (hS : Stepped N alg tr ts i s e s') :
    (e.is_evict = false → policy_hand alg s' = policy_hand alg s) ∧
    (∀ p v r cl, e = Event.evict p v r cl →
      v = policy_hand alg s ∧ policy_hand alg s' = (policy_hand alg s + 1) % N) := by
  rcases Stepped_ring hN halg hI hS with ⟨p, j, rfl, _, hh, _⟩ | ⟨p, rfl, _, _, hh, _⟩ |
    ⟨p, r, hd, _, _, h1, hle, hand, _, rfl, _, hh⟩
  · exact ⟨fun _ => hh, fun _ _ _ _ he => by cases he⟩
  · exact ⟨fun _ => hh, fun _ _ _ _ he => by cases he⟩
  · refine ⟨fun he => by simp [Event.is_evict] at he, ?_⟩
    intro p' v r' cl he
    simp only [Event.evict.injEq] at he
    obtain ⟨_, hv, _, _⟩ := he
    rw [hh, hand, ← hv]
    by_cases hhN : hd = N
    · subst hhN
      simp
    · have hlt : hd < N := by omega
      simp [hhN, Nat.mod_eq_of_lt hlt]


theorem lru_victim_is_cursor {N c : Nat} {s : SimState} (hN : 0 < N) (hs : Shape N s)
    (hc : c < N) (hA : AgeOrder N N c s.lru.ages) : lru_replace s.lru = c := by
  obtain ⟨o, hr, hmax, _⟩ := lru_replace_spec hN hs.lru_size hs.lru_ages hs.lru_nonneg
  have hrN : lru_replace s.lru < N := by
    have := (List.getElem?_eq_some.mp hr).1
    rw [hs.lru_ages] at this
    exact this
  have h1 := hA (lru_replace s.lru) hrN
  rw [hr, if_pos hrN] at h1
  have h2 := hmax c _ (hA c hc)
  rw [if_pos hc, if_pos (le_refl c)] at h2
  simp only [Option.some.injEq] at h1
  split_ifs at h1 <;> omega

/-- After a free-frame fill the ages count down from the new `next_frame`. -/
theorem AgeOrder_fill {N : Nat} {s s' : SimState} (hs : Shape N s)
    (hnf : s.pm.next_frame < N) (hnf' : s'.pm.next_frame = s.pm.next_frame + 1)
    (hL' : LruLink N s') (hA : AgeOrder N s.pm.next_frame 0 s.lru.ages)
    (hfr : s'.lru.frames = s.lru.frames.set s.pm.next_frame (s.pm.next_frame : Int))
    (hag : s'.lru.ages = age_all (s.lru.frames.set s.pm.next_frame (s.pm.next_frame : Int)) N 0
      (s.lru.ages.set s.pm.next_frame 0)) :
    AgeOrder N s'.pm.next_frame 0 s'.lru.ages := by
  intro j hj
  have hocc : lru_occupied (s.lru.frames.set s.pm.next_frame (s.pm.next_frame : Int)) j = true ↔
      j < s'.pm.next_frame := by
    rw [← hfr]; exact LruLink_occupied hL' hj
  have hlen : s.pm.next_frame < s.lru.ages.length := by rw [hs.lru_ages]; exact hnf
  rw [hag, age_all_getElem?]
  by_cases hjn : j < s'.pm.next_frame
  · rw [if_pos ⟨Nat.zero_le _, by omega, hocc.2 hjn⟩, if_pos hjn, if_pos (Nat.zero_le _)]
    by_cases hjv : j = s.pm.next_frame
    · subst hjv
      rw [List.getElem?_set_self hlen, hnf']
      simp
    · rw [List.getElem?_set_ne (Ne.symm hjv), hA j hj, if_pos (by omega),
        if_pos (Nat.zero_le _), hnf']
      simp only [Option.map_some', Option.some.injEq]
      push_cast
      omega
  · have hno : ¬ (0 ≤ j ∧ j < 0 + N ∧
        lru_occupied (s.lru.frames.set s.pm.next_frame (s.pm.next_frame : Int)) j = true) :=
      fun h => hjn (hocc.1 h.2.2)
    rw [if_neg hno, if_neg hjn, List.getElem?_set_ne (by omega), hA j hj, if_neg (by omega)]

/-- After an eviction of the frame at the cursor the ages count down from the next frame
    in circular order. -/
theorem AgeOrder_evict {N c : Nat} {s s' : SimState} (hs : Shape N s) (hc : c < N)
    (hnf : s.pm.next_frame = N) (hnf' : s'.pm.next_frame = N)
    (hL' : LruLink N s') (hA : AgeOrder N N c s.lru.ages)
    (hfr : s'.lru.frames = s.lru.frames.set c (c : Int))
    (hag : s'.lru.ages = age_all (s.lru.frames.set c (c : Int)) N 0 (s.lru.ages.set c 0)) :
    AgeOrder N N ((c + 1) % N) s'.lru.ages := by
  intro j hj
  have hocc : lru_occupied (s.lru.frames.set c (c : Int)) j = true := by
    rw [← hfr]; exact (LruLink_occupied hL' hj).2 (by omega)
  have hlen : c < s.lru.ages.length := by rw [hs.lru_ages]; exact hc
  rw [hag, age_all_getElem?, if_pos ⟨Nat.zero_le _, by omega, hocc⟩, if_pos hj]
  have hc' : (c + 1) % N = if c + 1 = N then 0 else c + 1 := by
    split_ifs with h
    · rw [h, Nat.mod_self]
    · exact Nat.mod_eq_of_lt (by omega)
  rw [hc']
  by_cases hjv : j = c
  · subst hjv
    rw [List.getElem?_set_self hlen]
    simp only [Option.map_some', Option.some.injEq]
    split_ifs <;> push_cast <;> omega
  · rw [List.getElem?_set_ne (Ne.symm hjv), hA j hj, if_pos hj]
    simp only [Option.map_some', Option.some.injEq]
    split_ifs <;> push_cast <;> omega


/-- The cursor of each of the four policies stays on a hit or a fill and moves one
    frame on in circular order at an eviction, whose victim is the frame at the cursor. -/
theorem Cursor_step {N alg c : Nat} {tr : List TraceEntry} {ts i : Nat} {s s' : SimState}
    {e : Event} (hN : 0 < N) (halg : alg = 0 ∨ alg = 1 ∨ alg = 3 ∨ alg = 4)
    (hI : Inv N alg s) (hC : Cursor N alg s c) (hc : c < N)
    (h0 : s.pm.next_frame < N → c = 0) (hS : Stepped N alg tr ts i s e s') :
    (e.is_evict = false → Cursor N alg s' c) ∧
    (∀ p v r cl, e = Event.evict p v r cl → v = c ∧ Cursor N alg s' ((c + 1) % N)) := by
  rcases halg with rfl | rfl | rfl | rfl
  · obtain ⟨a, b⟩ := Stepped_fifo hI hS
    simp only [Cursor, if_true] at hC ⊢
    refine ⟨fun he => by rw [a he, hC], fun p v r cl he => ?_⟩
    obtain ⟨b1, b2⟩ := b p v r cl he
    rw [b1, b2, hC]
    exact ⟨rfl, rfl⟩
  · have hC1 : LruLink N s ∧ AgeOrder N s.pm.next_frame c s.lru.ages := by
      simpa [Cursor] using hC
    obtain ⟨hL, hA⟩ := hC1
    have hL' := LruLink_step hI hL hS
    have goal1 : ∀ c', AgeOrder N s'.pm.next_frame c' s'.lru.ages → Cursor N 1 s' c' := by
      intro c' h
      unfold Cursor
      rw [if_neg (by decide), if_pos rfl]
      exact ⟨hL', h⟩
    rcases Stepped_lru hI hS with ⟨hne, _, hl, hp⟩ | ⟨v, hv, _, _, _, _, hfill, hev, hfr, hag⟩
    · refine ⟨fun _ => goal1 c (by rw [hl, hp]; exact hA), fun p v r cl he => ?_⟩
      rw [he] at hne
      simp [Event.is_evict] at hne
    · refine ⟨fun he => ?_, fun p v' r cl he => ?_⟩
      · obtain ⟨hv1, hv2⟩ := hfill he
        have hfree : s.pm.next_frame < N := by omega
        have hc0 := h0 hfree
        subst hc0
        subst hv1
        exact goal1 0 (AgeOrder_fill hI.shape hfree hv2 hL' hA hfr hag)
      · have hte : e.is_evict = true := by rw [he]; rfl
        obtain ⟨hv1, hv2, hv3⟩ := hev hte
        rw [hv2] at hA
        have hvc : v = c := by rw [hv1]; exact lru_victim_is_cursor hN hI.shape hc hA
        subst hvc
        have hins : e.installs v = true := by assumption
        rw [he] at hins
        simp only [Event.installs, beq_iff_eq] at hins
        refine ⟨hins, goal1 _ ?_⟩
        rw [hv3]
        exact AgeOrder_evict hI.shape hc hv2 hv3 hL' hA hfr hag
  · obtain ⟨a, b⟩ := Stepped_hand hN (Or.inl rfl) hI hS
    have hC1 : s.sc.hand = c := by simpa [Cursor] using hC
    have e1 : ∀ x : SimState, policy_hand 3 x = x.sc.hand := fun _ => rfl
    simp only [e1] at a b
    refine ⟨fun he => ?_, fun p v r cl he => ?_⟩
    · have := a he
      simp [Cursor, this, hC1]
    · obtain ⟨b1, b2⟩ := b p v r cl he
      refine ⟨by rw [b1, hC1], ?_⟩
      simp [Cursor, b2, hC1]
  · obtain ⟨a, b⟩ := Stepped_hand hN (Or.inr rfl) hI hS
    have hC1 : s.clock.hand = c := by simpa [Cursor] using hC
    have e1 : ∀ x : SimState, policy_hand 4 x = x.clock.hand := fun _ => rfl
    simp only [e1] at a b
    refine ⟨fun he => ?_, fun p v r cl he => ?_⟩
    · have := a he
      simp [Cursor, this, hC1]
    · obtain ⟨b1, b2⟩ := b p v r cl he
      refine ⟨by rw [b1, hC1], ?_⟩
      simp [Cursor, b2, hC1]

theorem Cursor_fresh {N alg : Nat} (halg : alg = 0 ∨ alg = 1 ∨ alg = 3 ∨ alg = 4) :
    Cursor N alg (fresh N) 0 := by
  rcases halg with rfl | rfl | rfl | rfl
  · simp [Cursor, fresh, create_fifo_queue]
  · unfold Cursor
    rw [if_neg (by decide), if_pos rfl]
    refine ⟨fun j hj => ?_, fun j hj => ?_⟩
    · simp [fresh, create_lru_queue, create_physical_memory, hj]
    · simp [fresh, create_lru_queue, create_physical_memory, hj]
  · simp [Cursor, fresh, create_second_chance_queue]
  · simp [Cursor, fresh, create_clock_queue]

theorem decision_is_evict (e : Event) : e.decision.is_evict = e.is_evict := by
  cases e <;> rfl

theorem Paired_step {N alg : Nat} {tr : List TraceEntry} {ts i : Nat} {s s' : SimState}
    {e : Event} {es : List Event} (hN : 0 < N) (halg : alg = 0 ∨ alg = 1 ∨ alg = 3 ∨ alg = 4)
    (hi : i < tr.length) (hI : Inv N alg s) (hP : Paired N alg tr ts i es s)
    (hS : Stepped N alg tr ts i s e s') : Paired N alg tr ts (i + 1) (es ++ [e]) s' := by
  obtain ⟨es0, f, hrun, hF, hdec, hpt, hpm, hC, hz, hcyc, hlen⟩ := hP
  obtain ⟨e0, f', hacc, hS0, hF'⟩ := access_step ts hN (by decide : 0 ≤ 4) hF hi
  have hrun' := simulate_from_snoc 0 tr ts i 0 (fresh N) es0 f e0 f' hrun
    (by rw [Nat.zero_add]; exact hacc)
  have hcN : f.fifo.next_index < N := hF.shape.fifo_next
  obtain ⟨cs1, cs2⟩ := Cursor_step hN halg hI hC hcN (by rw [hpm]; exact hz) hS
  obtain ⟨pe, ppt, ppm⟩ := Stepped_pair hF hpt hpm hS hS0 (fun p v r cl he => (cs2 p v r cl he).1)
  obtain ⟨ff1, ff2⟩ := Stepped_fifo hF hS0
  refine ⟨es0 ++ [e0], f', hrun', hF', ?_, ppt, ppm, ?_, ?_, ?_⟩
  · rw [List.map_append, hdec, List.map_singleton, pe]
  · cases he : e with
    | hit p j =>
      have h1 : e.is_evict = false := by rw [he]; rfl
      have h2 : e0.is_evict = false := by rw [← pe, decision_is_evict]; exact h1
      rw [ff1 h2]
      exact cs1 h1
    | fill p g =>
      have h1 : e.is_evict = false := by rw [he]; rfl
      have h2 : e0.is_evict = false := by rw [← pe, decision_is_evict]; exact h1
      rw [ff1 h2]
      exact cs1 h1
    | evict p v r cl =>
      have h2 : e0 = Event.evict p v r [] := by rw [← pe, he]; rfl
      rw [(ff2 p v r [] h2).2]
      exact (cs2 p v r cl he).2
  · intro hlt
    rcases Stepped_cursors hF hS0 with ⟨_, _, _, _, a, b, _⟩ | ⟨_, _, hfree, _, a, b, _⟩ |
      ⟨_, _, _, _, _, _, _, a⟩
    · rw [b]; exact hz (by omega)
    · rw [b]; exact hz (by omega)
    · omega
  · cases he0 : e0 with
    | hit p j =>
      have h2 : e0.is_evict = false := by rw [he0]; rfl
      have hev : evictions (es0 ++ [Event.hit p j]) = evictions es0 := by
        rw [evictions_append]; simp [evictions]
      unfold CyclicVictims
      rw [hev, ff1 h2]
      exact ⟨hcyc, hlen⟩
    | fill p g =>
      have h2 : e0.is_evict = false := by rw [he0]; rfl
      have hev : evictions (es0 ++ [Event.fill p g]) = evictions es0 := by
        rw [evictions_append]; simp [evictions]
      unfold CyclicVictims
      rw [hev, ff1 h2]
      exact ⟨hcyc, hlen⟩
    | evict p v r cl =>
      obtain ⟨g1, g2⟩ := ff2 p v r cl he0
      have hev : evictions (es0 ++ [Event.evict p v r cl]) = evictions es0 ++ [(v, r)] := by
        rw [evictions_append]; simp [evictions]
      unfold CyclicVictims at hcyc ⊢
      rw [hev, g2, hlen]
      refine ⟨?_, ?_⟩
      · rw [List.map_append, List.length_append, hcyc]
        simp only [List.map_cons, List.map_nil, List.length_singleton]
        rw [List.range_succ, List.map_append, g1, hlen]
        rfl
      · rw [List.length_append, List.length_singleton, Nat.mod_add_mod]

/-- Each of FIFO, LRU, Second-Chance and Clock, run over the whole trace from fresh
    state, is paired with the FIFO run. -/
theorem run_paired {N : Nat} (alg : Nat) (tr : List TraceEntry) (hN : 0 < N)
    (halg : alg = 0 ∨ alg = 1 ∨ alg = 3 ∨ alg = 4) :
    ∃ es s, simulate_from alg tr tr.length tr.length 0 (fresh N) = some (es, s) ∧
      Paired N alg tr tr.length tr.length es s := by
  have h4 : alg ≤ 4 := by omega
  obtain ⟨es, s, h1, _, _, hP⟩ := run_induction tr tr.length hN h4
    (Paired N alg tr tr.length)
    (fun i es s e s' hi hI hP hS _ => Paired_step hN halg hi hI hP hS)
    tr.length 0 [] (fresh N) (Inv_fresh N alg hN)
    ⟨[], fresh N, rfl, Inv_fresh N 0 hN, rfl, rfl, rfl, Cursor_fresh halg, fun _ => rfl,
      rfl, by simp [evictions, fresh, create_fifo_queue]⟩
    (by omega)
  refine ⟨es, s, h1, ?_⟩
  simpa using hP


/-- C20: for every `N ≥ 1` and every trace, the runs of `simulate_virtual_memory` from
    fresh state under FIFO (0), LRU (1), Second-Chance (3) and Clock (4) all return, make
    the same decision at every access (hit on the same entry, fill of the same frame, or
    eviction of the same frame holding the same page), end with the same page table
    (entries, hits, misses, page faults) and the same frames, and the victims of their
    evictions are the frames `0, 1, ..., N-1, 0, 1, ...` in cyclic order.  MIN (2) can
    differ: with 2 frames and the pages 1, 2, 3, 1 it ends with other counters than FIFO. -/
theorem C20_four_policies_agree (N : Nat) (tr : List TraceEntry) (hN : 1 ≤ N) :
    ∃ es0 s0 es1 s1 es3 s3 es4 s4,
      simulate_virtual_memory_log (fresh N) 0 tr tr.length = some (es0, s0) ∧
      simulate_virtual_memory_log (fresh N) 1 tr tr.length = some (es1, s1) ∧
      simulate_virtual_memory_log (fresh N) 3 tr tr.length = some (es3, s3) ∧
      simulate_virtual_memory_log (fresh N) 4 tr tr.length = some (es4, s4) ∧
      es0.map Event.decision = es0 ∧ es1.map Event.decision = es0 ∧
      es3.map Event.decision = es0 ∧ es4.map Event.decision = es0 ∧
      s1.pt = s0.pt ∧ s3.pt = s0.pt ∧ s4.pt = s0.pt ∧
      s1.pm = s0.pm ∧ s3.pm = s0.pm ∧ s4.pm = s0.pm ∧
      CyclicVictims N es0 ∧
      (simulate_virtual_memory (fresh 2) 2 (loads [1, 2, 3, 1]) 4).map counters ≠
        (simulate_virtual_memory (fresh 2) 0 (loads [1, 2, 3, 1]) 4).map counters := by
  obtain ⟨es0, s0, h0, a0, f0, r0, _, d0, _, _, _, _, c0, _⟩ :=
    run_paired 0 tr hN (Or.inl rfl)
  obtain ⟨es1, s1, h1, a1, f1, r1, _, d1, p1, m1, _⟩ :=
    run_paired 1 tr hN (Or.inr (Or.inl rfl))
  obtain ⟨es3, s3, h3, a3, f3, r3, _, d3, p3, m3, _⟩ :=
    run_paired 3 tr hN (Or.inr (Or.inr (Or.inl rfl)))
  obtain ⟨es4, s4, h4, a4, f4, r4, _, d4, p4, m4, _⟩ :=
    run_paired 4 tr hN (Or.inr (Or.inr (Or.inr rfl)))
  rw [h0] at r0 r1 r3 r4
  cases r0
  cases r1
  cases r3
  cases r4
  exact ⟨es0, s0, es1, s1, es3, s3, es4, s4, h0, h1, h3, h4, d0, d1, d3, d4, p1, p3, p4,
    m1, m3, m4, c0, by decide⟩

/-- C20 at `N = 2` and the pages 1, 2, 3, 1: FIFO and LRU end with the same page table. -/
theorem C20_four_policies_agree_witness :
    ∃ es0 s0 es1 s1,
      simulate_virtual_memory_log (fresh 2) 0 (loads [1, 2, 3, 1]) (loads [1, 2, 3, 1]).length
        = some (es0, s0) ∧
      simulate_virtual_memory_log (fresh 2) 1 (loads [1, 2, 3, 1]) (loads [1, 2, 3, 1]).length
        = some (es1, s1) ∧
      es1.map Event.decision = es0 ∧ s1.pt = s0.pt ∧ CyclicVictims 2 es0 :=
  match C20_four_policies_agree 2 (loads [1, 2, 3, 1]) (by decide) with
  | ⟨es0, s0, es1, s1, _, _, _, _, h0, h1, _, _, _, d1, _, _, p1, _, _, _, _, _, c0, _⟩ =>
    ⟨es0, s0, es1, s1, h0, h1, d1, p1, c0⟩



/-- Under LRU and MIN the display-driven pass is the pass of
    `simulate_virtual_memory_step` calls. -/
theorem visualize_run_pure (alg : Nat) (halg : alg = 1 ∨ alg = 2) (tr : List TraceEntry)
    (ts : Nat) :
    ∀ (n i : Nat) (s : SimState),
      visualize_run alg tr ts n i s = run_steps alg tr ts n i s := by
  intro n
  induction n with
  | zero => intro i s; rfl
  | succ n ih =>
    intro i s
    unfold visualize_run run_steps
    rw [visualize_step_pure s alg halg]
    cases simulate_virtual_memory_step s alg tr ts i with
    | none => rfl
    | some s1 => exact ih (i + 1) s1



/-! ## No page resident twice -/

theorem DistinctFrames_step {N alg : Nat} {tr : List TraceEntry} {ts i : Nat}
    {s s' : SimState} {e : Event} (hI : Inv N alg s) (hD : DistinctFrames s)
    (hS : Stepped N alg tr ts i s e s') : DistinctFrames s' := by
  have key : ∀ (v : Nat) (p : Int), v ≤ s.pm.next_frame → v < s.pm.frames.length →
      (∀ j, j < s.pm.next_frame → s.pm.frames[j]? ≠ some p) →
      s'.pm.frames = s.pm.frames.set v p → s'.pm.next_frame ≤ max s.pm.next_frame (v + 1) →
      DistinctFrames s' := by
    intro v p hv hvl hnew hfr hnf a b q ha hb hqa hqb
    rw [hfr] at hqa hqb
    have hmax : ∀ j, j < s'.pm.next_frame → j ≠ v → j < s.pm.next_frame := by
      intro j hj hjv
      rcases le_max_iff.mp (le_trans (Nat.succ_le_of_lt hj) hnf) with h | h <;> omega
    by_cases hav : a = v
    · by_cases hbv : b = v
      · rw [hav, hbv]
      · exfalso
        rw [hav, List.getElem?_set_self hvl] at hqa
        rw [List.getElem?_set_ne (Ne.symm hbv)] at hqb
        cases hqa
        exact hnew b (hmax b hb hbv) hqb
    · by_cases hbv : b = v
      · exfalso
        rw [hbv, List.getElem?_set_self hvl] at hqb
        rw [List.getElem?_set_ne (Ne.symm hav)] at hqa
        cases hqb
        exact hnew a (hmax a ha hav) hqa
      · rw [List.getElem?_set_ne (Ne.symm hav)] at hqa
        rw [List.getElem?_set_ne (Ne.symm hbv)] at hqb
        exact hD a b q (hmax a ha hav) (hmax b hb hbv) hqa hqb
  obtain ⟨t, _, h | h | h⟩ := Stepped_pm hI hS
  · obtain ⟨j, _, _, hpm, _⟩ := h
    intro a b q ha hb hqa hqb
    rw [hpm] at ha hb hqa hqb
    exact hD a b q ha hb hqa hqb
  · obtain ⟨hl, hfree, _, hfr, hnf, _⟩ := h
    exact key s.pm.next_frame (page_of t) (le_refl _)
      (by rw [hI.shape.pm_len]; exact hfree) (lookup_none_resident hI hl) hfr
      (by rw [hnf]; exact le_max_right _ _)
  · obtain ⟨hl, hfull, v, cl, s2, old, _, hv, _, _, hfr, hnf, _⟩ := h
    exact key v (page_of t) (by omega) (by rw [hI.shape.pm_len]; exact hv)
      (lookup_none_resident hI hl) hfr (by rw [hnf, hfull]; exact le_max_left _ _)

theorem DistinctFrames_fresh (N : Nat) : DistinctFrames (fresh N) := by
  intro a b q ha
  simp [fresh, create_physical_memory] at ha

theorem NoTwice_of_distinct {N alg : Nat} {s : SimState} (hI : Inv N alg s)
    (hD : DistinctFrames s) : NoTwice s.pt := by
  intro i j ei ej hi hj hvi hvj hp
  have hlt : ∀ k e, s.pt.entries[k]? = some e → e.valid ≠ 0 → k < s.pm.next_frame := by
    intro k e he hv
    by_contra hc
    exact hv (hI.vacant k e he (by omega)).1
  have hli := hlt i ei hi hvi
  have hlj := hlt j ej hj hvj
  have h1 := (hI.resident i ei hi hli).2.2
  have h2 := (hI.resident j ej hj hlj).2.2
  rw [hp] at h1
  exact hD i j _ hli hlj h1 h2

theorem page_test_true {entries : List PageTableEntry} {p : Int} {j : Nat}
    (h : page_test entries p j = true) :
    ∃ e, entries[j]? = some e ∧ e.valid ≠ 0 ∧ e.page_number = p := by
  unfold page_test at h
  cases he : entries[j]? with
  | none => rw [he] at h; cases h
  | some e =>
    rw [he] at h
    simp only [Bool.and_eq_true, bne_iff_ne, ne_eq, beq_iff_eq] at h
    exact ⟨e, rfl, h.1, h.2⟩

/-- Every run from fresh state keeps the frames handed out pairwise different. -/
theorem run_distinct {N alg : Nat} (tr : List TraceEntry) (ts : Nat) (hN : 0 < N)
    (halg : alg ≤ 4) {k : Nat} (hk : k ≤ tr.length) :
    ∃ es s, simulate_from alg tr ts k 0 (fresh N) = some (es, s) ∧ Inv N alg s ∧
      DistinctFrames s := by
  obtain ⟨es, s, h1, _, h3, h4⟩ := run_induction tr ts hN halg
    (fun _ _ s => DistinctFrames s)
    (fun i es s e s' _ hI hP hS _ => DistinctFrames_step hI hP hS)
    k 0 [] (fresh N) (Inv_fresh N alg hN) (DistinctFrames_fresh N) (by omega)
  exact ⟨es, s, h1, h3, h4⟩

/-- C22: no page is resident twice.  In every state reachable from fresh state
    (`N >= 1`, any policy in 0..4, any trace, after any number `k` of accesses, by
    `simulate_virtual_memory` as by `simulate_virtual_memory_step`), two valid page-table
    entries with the same `page_number` are the same entry, so for every page number the
    test of the lookup scan (lines 429 and 498) holds at one index at most. -/
theorem C22_no_page_resident_twice (N alg : Nat) (tr : List TraceEntry) (k : Nat)
    (hN : 1 ≤ N) (halg : alg ≤ 4) (hk : k ≤ tr.length) :
    ∃ es s, simulate_from alg tr tr.length k 0 (fresh N) = some (es, s) ∧
      run_steps alg tr tr.length k 0 (fresh N) = some s ∧
      NoTwice s.pt ∧
      (∀ (p : Int) (i j : Nat), page_test s.pt.entries p i = true →
        page_test s.pt.entries p j = true → i = j) ∧
      (∀ (p : Int) (j : Nat), lookup s.pt p = some j →
        ∀ i, page_test s.pt.entries p i = true → i = j) := by
  obtain ⟨es, s, h1, hI, hD⟩ := run_distinct tr tr.length hN halg hk
  have hT := NoTwice_of_distinct hI hD
  have hpair : ∀ (p : Int) (i j : Nat), page_test s.pt.entries p i = true →
      page_test s.pt.entries p j = true → i = j := by
    intro p i j hi hj
    obtain ⟨ei, hei, hvi, hpi⟩ := page_test_true hi
    obtain ⟨ej, hej, hvj, hpj⟩ := page_test_true hj
    exact hT i j ei ej hei hej hvi hvj (by rw [hpi, hpj])
  refine ⟨es, s, h1, by rw [run_steps_eq, h1]; rfl, hT, hpair, ?_⟩
  intro p j hl i hi
  obtain ⟨_, e, he, hv, hp⟩ := lookup_some hl
  obtain ⟨ei, hei, hvi, hpi⟩ := page_test_true hi
  exact hT i j ei e hei he hvi hv (by rw [hpi, hp])

/-- C22 at `N = 2`, FIFO, trace of pages 1, 2, 1, 3, after all four accesses. -/
theorem C22_no_page_resident_twice_witness :
    ∃ es s, simulate_from 0 (loads [1, 2, 1, 3]) (loads [1, 2, 1, 3]).length 4 0 (fresh 2)
        = some (es, s) ∧
      run_steps 0 (loads [1, 2, 1, 3]) (loads [1, 2, 1, 3]).length 4 0 (fresh 2) = some s ∧
      NoTwice s.pt ∧
      (∀ (p : Int) (i j : Nat), page_test s.pt.entries p i = true →
        page_test s.pt.entries p j = true → i = j) ∧
      (∀ (p : Int) (j : Nat), lookup s.pt p = some j →
        ∀ i, page_test s.pt.entries p i = true → i = j) :=
  C22_no_page_resident_twice 2 0 (loads [1, 2, 1, 3]) 4 (by decide) (by decide) (by decide)



/-! ## Width of page numbers -/

theorem page_of_eq_iff (t1 t2 : TraceEntry) :
    page_of t1 = page_of t2 ↔ t1.address % 2 ^ 32 = t2.address % 2 ^ 32 := by
  unfold page_of toInt32
  have h1 := Nat.mod_lt t1.address (by norm_num : 0 < 2 ^ 32)
  have h2 := Nat.mod_lt t2.address (by norm_num : 0 < 2 ^ 32)
  split_ifs <;> constructor <;> intro h <;> omega

theorem min_match_eq {tr : List TraceEntry} {frames : List Int} {g j : Nat} :
    min_match tr frames g j = true ↔
      ∃ f t, frames[g]? = some f ∧ tr[j]? = some t ∧ t.address = toUInt64 f := by
  unfold min_match
  cases hf : frames[g]? with
  | none => simp
  | some f =>
    cases ht : tr[j]? with
    | none => simp
    | some t =>
      simp only [beq_iff_eq, Option.some.injEq, exists_and_left, exists_eq_left']
      exact ⟨fun h => h.symm, fun h => h.symm⟩

theorem toUInt64_toInt32_neg {p : Nat} (h : 2 ^ 31 ≤ p % 2 ^ 32) :
    toUInt64 (toInt32 p) = 2 ^ 64 - 2 ^ 32 + p % 2 ^ 32 := by
  unfold toUInt64 toInt32
  have h1 := Nat.mod_lt p (by norm_num : 0 < 2 ^ 32)
  rw [if_neg (by omega)]
  omega

theorem toUInt64_toInt32_pos {p : Nat} (h : p % 2 ^ 32 < 2 ^ 31) :
    toUInt64 (toInt32 p) = p % 2 ^ 32 := by
  unfold toUInt64 toInt32
  rw [if_pos h]
  omega

/-- The outer loop of `min_replace` returns the first frame whose inner loop ran to the
    end of the trace. -/
theorem min_scan_first_unmatched (tr : List TraceEntry) (ts ci : Nat) (frames : List Int)
    (g : Nat) (hci : ci ≤ ts) (hg : min_next_use tr ts ci frames g = none) :
    ∀ (n i farthest : Nat) (replaced_index : Int), i ≤ g → g < i + n →
      (∀ g', i ≤ g' → g' < g → min_next_use tr ts ci frames g' ≠ none) →
      min_scan tr ts ci frames n i farthest replaced_index = g := by
  intro n
  induction n with
  | zero => intro i _ _ h1 h2; omega
  | succ n ih =>
    intro i farthest replaced_index h1 h2 hlow
    unfold min_scan
    cases hm : min_next_use tr ts ci frames i with
    | none =>
      have hig : i = g := by
        by_contra hne
        exact hlow i (le_refl _) (by omega) hm
      simp only [hci, if_true]
      exact hig
    | some j =>
      have hig : i ≠ g := by
        intro h
        rw [h, hg] at hm
        cases hm
      have hnext : ∀ g', i + 1 ≤ g' → g' < g → min_next_use tr ts ci frames g' ≠ none :=
        fun g' a b => hlow g' (by omega) b
      simp only
      split_ifs
      · exact ih (i + 1) j i (by omega) (by omega) hnext
      · exact ih (i + 1) farthest replaced_index (by omega) (by omega) hnext

theorem add_trace_entry_lt (tr0 : List TraceEntry) (op : Char) (a : Nat) (ha : a < 2 ^ 64)
    (h0 : ∀ t, t ∈ tr0 → t.address < 2 ^ 52) :
    ∀ t, t ∈ add_trace_entry tr0 op a → t.address < 2 ^ 52 := by
  intro t ht
  unfold add_trace_entry at ht
  split_ifs at ht
  · rcases List.mem_append.mp ht with h | h
    · exact h0 t h
    · simp only [List.mem_singleton] at h
      subst h
      show a / PAGE_SIZE < 2 ^ 52
      unfold PAGE_SIZE
      omega
  · exact h0 t ht

/-- C23 (amended): page numbers are narrowed to 32-bit `int` for residency and compared
    at full width in the MIN lookahead.  Two trace entries have the same narrowed page
    number, and the test of the lookup scan treats them as one page, exactly when their
    page numbers are congruent modulo `2^32`; `min_replace` matches frame `g` against
    trace entry `j` exactly when the entry's 64-bit page number equals the sign
    extension of the stored `int`.  For a frame holding a page whose number `p` has
    `2^31 <= p mod 2^32`, on a trace of page numbers below `2^52` (as `add_trace_entry`
    produces), no entry matches, the inner loop finds no future use, and `min_replace`
    returns that frame if every lower-indexed frame is matched.  For `p` with
    `p mod 2^32 < 2^31` the frame is matched exactly against the entries whose page
    number is `p mod 2^32`. -/
theorem C23_narrow_residency_wide_lookahead (tr : List TraceEntry) (pt : PageTable)
    (pm : PhysicalMemory) (i g p : Nat) (hw : ∀ t, t ∈ tr → t.address < 2 ^ 52)
    (hg : pm.frames[g]? = some (toInt32 p)) :
    (∀ t1 t2 : TraceEntry,
      (page_of t1 = page_of t2 ↔ t1.address % 2 ^ 32 = t2.address % 2 ^ 32) ∧
      (page_test [PageTableEntry.mk (page_of t1) 0 1 1] (page_of t2) 0 = true ↔
        t1.address % 2 ^ 32 = t2.address % 2 ^ 32)) ∧
    (∀ j, min_match tr pm.frames g j = true ↔
      ∃ t, tr[j]? = some t ∧ t.address = toUInt64 (toInt32 p)) ∧
    (2 ^ 31 ≤ p % 2 ^ 32 →
      (∀ j, min_match tr pm.frames g j = false) ∧
      min_next_use tr tr.length i pm.frames g = none ∧
      (i ≤ tr.length → g < pm.size →
        (∀ g1, g1 < g → min_next_use tr tr.length i pm.frames g1 ≠ none) →
        min_replace tr tr.length i pt pm = g)) ∧
    (p % 2 ^ 32 < 2 ^ 31 →
      ∀ j, min_match tr pm.frames g j = true ↔
        ∃ t, tr[j]? = some t ∧ t.address = p % 2 ^ 32) ∧
    (∀ (tr0 : List TraceEntry) (op : Char) (a : Nat), a < 2 ^ 64 →
      (∀ t, t ∈ tr0 → t.address < 2 ^ 52) →
      ∀ t, t ∈ add_trace_entry tr0 op a → t.address < 2 ^ 52) := by
  have hmatch : ∀ j, min_match tr pm.frames g j = true ↔
      ∃ t, tr[j]? = some t ∧ t.address = toUInt64 (toInt32 p) := by
    intro j
    rw [min_match_eq]
    constructor
    · rintro ⟨f, t, hf, ht, he⟩
      rw [hg] at hf
      cases hf
      exact ⟨t, ht, he⟩
    · rintro ⟨t, ht, he⟩
      exact ⟨_, t, hg, ht, he⟩
  refine ⟨fun t1 t2 => ⟨page_of_eq_iff t1 t2, ?_⟩, hmatch, ?_, ?_,
    fun tr0 op a ha h0 => add_trace_entry_lt tr0 op a ha h0⟩
  · rw [← page_of_eq_iff]
    simp [page_test]
  · intro hneg
    have hfalse : ∀ j, min_match tr pm.frames g j = false := by
      intro j
      cases hm : min_match tr pm.frames g j with
      | false => rfl
      | true =>
        exfalso
        obtain ⟨t, ht, he⟩ := (hmatch j).1 hm
        have hlt := hw t (List.getElem?_mem ht)
        rw [toUInt64_toInt32_neg hneg] at he
        omega
    have hnone : min_next_use tr tr.length i pm.frames g = none :=
      find_from_eq_none (fun m _ _ => hfalse m)
    refine ⟨hfalse, hnone, ?_⟩
    intro hi hgs hlow
    unfold min_replace
    exact min_scan_first_unmatched tr tr.length i pm.frames g hi hnone pm.size 0 i (-1)
      (Nat.zero_le _) (by omega) (fun g1 _ h => hlow g1 h)
  · intro hpos j
    rw [hmatch, toUInt64_toInt32_pos hpos]

/-- C23 (amended) at the frames `[1, 2^31 + 5 narrowed]`, index 2 of the trace of pages
    1, 2^31 + 5, 7, 2^31 + 5, 1: frame 0 is matched, frame 1 is not and is returned. -/
theorem C23_narrow_residency_wide_lookahead_witness :
    min_next_use (loads [1, 2147483653, 7, 2147483653, 1]) 5 2
      [1, toInt32 2147483653] 1 = none ∧
    min_replace (loads [1, 2147483653, 7, 2147483653, 1]) 5 2 (create_page_table 2)
      { frames := [1, toInt32 2147483653], size := 2, next_frame := 2 } = 1 :=
  have h := C23_narrow_residency_wide_lookahead (loads [1, 2147483653, 7, 2147483653, 1])
    (create_page_table 2) { frames := [1, toInt32 2147483653], size := 2, next_frame := 2 }
    2 1 2147483653 (by decide) rfl
  ⟨(h.2.2.1 (by decide)).2.1,
    (h.2.2.1 (by decide)).2.2 (by decide) (by decide) (by decide)⟩

/-- C23 as stated fails: `p = 2^32 + 5` lies in `[2^31, 2^52)`, yet the frame that
    holds it (as the `int` 5) is matched against the later entry of page 5.  In the MIN
    run with 2 frames over the pages 1, 2^32 + 5, 7, 5, 1, 2^32 + 5 the third access
    finds frames `[1, 5]`; the inner loop of `min_replace` finds a future use of frame 1
    at index 3, and `min_replace` returns frame 0 although frame 0 is matched too. -/
theorem C23_counterexample :
    2 ^ 31 ≤ 4294967301 ∧ 4294967301 < 2 ^ 52 ∧
    (simulate_from 2 (loads [1, 4294967301, 7, 5, 1, 4294967301]) 6 2 0 (fresh 2)).map
        (fun r => (r.1, r.2.pm.frames)) = some ([Event.fill 1 0, Event.fill 5 1], [1, 5]) ∧
    min_next_use (loads [1, 4294967301, 7, 5, 1, 4294967301]) 6 2 [1, 5] 0 = some 4 ∧
    min_next_use (loads [1, 4294967301, 7, 5, 1, 4294967301]) 6 2 [1, 5] 1 = some 3 ∧
    min_replace (loads [1, 4294967301, 7, 5, 1, 4294967301]) 6 2 (create_page_table 2)
      { frames := [1, 5], size := 2, next_frame := 2 } = 0 ∧
    (simulate_from 2 (loads [1, 4294967301, 7, 5, 1, 4294967301]) 6 3 0 (fresh 2)).map
        (fun r => r.1) =
      some [Event.fill 1 0, Event.fill 5 1, Event.evict 7 0 (some 1) []] := by
  refine ⟨by decide, by decide, by decide, by decide, by decide, by decide, by decide⟩



/-! ## Optimality of the farthest-next-use rule -/

theorem NoLater_tail {p a b : Int} {w : List Int} (h : NoLater (p :: w) a b) (ha : p ≠ a) :
    NoLater w a b := by
  intro n hb
  have h1 := h (n + 1) (by rw [List.take_succ_cons]; exact List.mem_cons_of_mem _ hb)
  rw [List.take_succ_cons] at h1
  rcases List.mem_cons.mp h1 with h2 | h2
  · exact absurd h2.symm ha
  · exact h2

theorem NoLater_head {p a : Int} {w : List Int} (h : NoLater (p :: w) a p) : a = p := by
  have h1 := h 1 (by simp)
  simpa using h1

/-- Two memories that differ in one page: serving from the one costs at most one fault
    more than serving from the other. -/
theorem Sched_swap :
    ∀ (w : List Int) (S T : Finset Int) (a b : Int) (k : Nat), a ∈ S → b ∉ S →
      T = insert b (S.erase a) → Sched T w k → ∃ k', k' ≤ k + 1 ∧ Sched S w k' := by
  intro w
  induction w with
  | nil =>
    intro S T a b k _ _ _ hs
    cases hs
    exact ⟨0, by omega, Sched.done S⟩
  | cons p w ih =>
    intro S T a b k ha hb hT hs
    have hab : a ≠ b := fun h => hb (h ▸ ha)
    cases hs with
    | hit hp hk =>
      by_cases hpb : p = b
      · subst hpb
        exact ⟨k + 1, le_refl _, Sched.evict hb ha (hT ▸ hk)⟩
      · have hpS : p ∈ S := by
          rw [hT] at hp
          simp only [Finset.mem_insert, Finset.mem_erase] at hp
          rcases hp with h | h
          · exact absurd h hpb
          · exact h.2
        obtain ⟨k', hk', hs'⟩ := ih S T a b k ha hb hT hk
        exact ⟨k', hk', Sched.hit hpS hs'⟩
    | @evict _ _ q _ k0 hp hq hk =>
      have hbT : b ∈ T := by rw [hT]; exact Finset.mem_insert_self _ _
      have hpb : p ≠ b := fun h => hp (h ▸ hbT)
      by_cases hpa : p = a
      · subst hpa
        by_cases hqb : q = b
        · subst hqb
          have e : insert p (T.erase q) = S := by
            rw [hT]
            ext x
            simp only [Finset.mem_insert, Finset.mem_erase]
            by_cases hxp : x = p
            · subst hxp; simp [ha]
            · by_cases hxq : x = q
              · subst hxq; simp [hb, hxp]
              · simp [hxp, hxq]
          rw [e] at hk
          exact ⟨k0, by omega, Sched.hit ha hk⟩
        · have hqS : q ∈ S := by
            rw [hT] at hq
            simp only [Finset.mem_insert, Finset.mem_erase] at hq
            rcases hq with h | h
            · exact absurd h hqb
            · exact h.2
          have hqp : q ≠ p := by
            rw [hT] at hq
            simp only [Finset.mem_insert, Finset.mem_erase] at hq
            rcases hq with h | h
            · exact absurd h hqb
            · exact h.1
          have e : insert p (T.erase q) = insert b (S.erase q) := by
            rw [hT]
            ext x
            simp only [Finset.mem_insert, Finset.mem_erase]
            by_cases hxp : x = p
            · subst hxp; simp [ha, Ne.symm hqp]
            · by_cases hxb : x = b
              · subst hxb; simp [Ne.symm hqb]
              · simp [hxp, hxb]
          obtain ⟨k', hk', hs'⟩ := ih S _ q b k0 hqS hb e hk
          exact ⟨k', by omega, Sched.hit ha hs'⟩
      · have hpS : p ∉ S := by
          intro h
          apply hp
          rw [hT]
          simp only [Finset.mem_insert, Finset.mem_erase]
          exact Or.inr ⟨hpa, h⟩
        by_cases hqb : q = b
        · subst hqb
          have e : insert p (T.erase q) = insert p (S.erase a) := by
            rw [hT]
            ext x
            simp only [Finset.mem_insert, Finset.mem_erase]
            by_cases hxq : x = q
            · subst hxq; simp [hb]
            · simp [hxq]
          rw [e] at hk
          exact ⟨k0 + 1, by omega, Sched.evict hpS ha hk⟩
        · have hqS : q ∈ S ∧ q ≠ a := by
            rw [hT] at hq
            simp only [Finset.mem_insert, Finset.mem_erase] at hq
            rcases hq with h | h
            · exact absurd h hqb
            · exact ⟨h.2, h.1⟩
          have e : insert p (T.erase q) = insert b ((insert p (S.erase q)).erase a) := by
            rw [hT]
            ext x
            simp only [Finset.mem_insert, Finset.mem_erase]
            by_cases hxp : x = p
            · subst hxp; simp [hpa]
            · by_cases hxb : x = b
              · subst hxb; simp [Ne.symm hqb]
              · simp [hxp, hxb]
                tauto
          have haS' : a ∈ insert p (S.erase q) := by
            simp only [Finset.mem_insert, Finset.mem_erase]
            exact Or.inr ⟨Ne.symm hqS.2, ha⟩
          have hbS' : b ∉ insert p (S.erase q) := by
            simp only [Finset.mem_insert, Finset.mem_erase]
            rintro (h | h)
            · exact hpb h.symm
            · exact hb h.2
          obtain ⟨k', hk', hs'⟩ := ih _ _ a b k0 haS' hbS' e hk
          exact ⟨k' + 1, by omega, Sched.evict hpS hqS.1 hs'⟩

/-- Keeping the page that is used no later costs no more: if `S` holds `a` where `T`
    holds `b`, and `a` is used no later than `b`, then whatever can be done from `T` can
    be done from `S` with no more faults. -/
theorem Sched_exchange :
    ∀ (w : List Int) (S T : Finset Int) (a b : Int) (k : Nat), a ∈ S → b ∉ S →
      T = insert b (S.erase a) → NoLater w a b → Sched T w k →
      ∃ k', k' ≤ k ∧ Sched S w k' := by
  intro w
  induction w with
  | nil =>
    intro S T a b k _ _ _ _ hs
    cases hs
    exact ⟨0, le_refl _, Sched.done S⟩
  | cons p w ih =>
    intro S T a b k ha hb hT hL hs
    have hab : a ≠ b := fun h => hb (h ▸ ha)
    have hbT : b ∈ T := by rw [hT]; exact Finset.mem_insert_self _ _
    cases hs with
    | hit hp hk =>
      have hpb : p ≠ b := by
        intro h
        subst h
        exact hab (NoLater_head hL)
      have hpS : p ∈ S ∧ p ≠ a := by
        rw [hT] at hp
        simp only [Finset.mem_insert, Finset.mem_erase] at hp
        rcases hp with h | h
        · exact absurd h hpb
        · exact ⟨h.2, h.1⟩
      obtain ⟨k', hk', hs'⟩ := ih S T a b k ha hb hT (NoLater_tail hL hpS.2) hk
      exact ⟨k', hk', Sched.hit hpS.1 hs'⟩
    | @evict _ _ q _ k0 hp hq hk =>
      have hpb : p ≠ b := fun h => hp (h ▸ hbT)
      by_cases hpa : p = a
      · subst hpa
        by_cases hqb : q = b
        · subst hqb
          have e : insert p (T.erase q) = S := by
            rw [hT]
            ext x
            simp only [Finset.mem_insert, Finset.mem_erase]
            by_cases hxp : x = p
            · subst hxp; simp [ha]
            · by_cases hxq : x = q
              · subst hxq; simp [hb, hxp]
              · simp [hxp, hxq]
          rw [e] at hk
          exact ⟨k0, by omega, Sched.hit ha hk⟩
        · have hqS : q ∈ S ∧ q ≠ p := by
            rw [hT] at hq
            simp only [Finset.mem_insert, Finset.mem_erase] at hq
            rcases hq with h | h
            · exact absurd h hqb
            · exact ⟨h.2, h.1⟩
          have e : insert p (T.erase q) = insert b (S.erase q) := by
            rw [hT]
            ext x
            simp only [Finset.mem_insert, Finset.mem_erase]
            by_cases hxp : x = p
            · subst hxp; simp [ha, Ne.symm hqS.2]
            · by_cases hxb : x = b
              · subst hxb; simp [Ne.symm hqb]
              · simp [hxp, hxb]
          obtain ⟨k', hk', hs'⟩ := Sched_swap w S _ q b k0 hqS.1 hb e hk
          exact ⟨k', by omega, Sched.hit ha hs'⟩
      · have hpS : p ∉ S := by
          intro h
          apply hp
          rw [hT]
          simp only [Finset.mem_insert, Finset.mem_erase]
          exact Or.inr ⟨hpa, h⟩
        by_cases hqb : q = b
        · subst hqb
          have e : insert p (T.erase q) = insert p (S.erase a) := by
            rw [hT]
            ext x
            simp only [Finset.mem_insert, Finset.mem_erase]
            by_cases hxq : x = q
            · subst hxq; simp [hb]
            · simp [hxq]
          rw [e] at hk
          exact ⟨k0 + 1, by omega, Sched.evict hpS ha hk⟩
        · have hqS : q ∈ S ∧ q ≠ a := by
            rw [hT] at hq
            simp only [Finset.mem_insert, Finset.mem_erase] at hq
            rcases hq with h | h
            · exact absurd h hqb
            · exact ⟨h.2, h.1⟩
          have e : insert p (T.erase q) = insert b ((insert p (S.erase q)).erase a) := by
            rw [hT]
            ext x
            simp only [Finset.mem_insert, Finset.mem_erase]
            by_cases hxp : x = p
            · subst hxp; simp [hpa]
            · by_cases hxb : x = b
              · subst hxb; simp [Ne.symm hqb]
              · simp [hxp, hxb]
                tauto
          have haS' : a ∈ insert p (S.erase q) := by
            simp only [Finset.mem_insert, Finset.mem_erase]
            exact Or.inr ⟨Ne.symm hqS.2, ha⟩
          have hbS' : b ∉ insert p (S.erase q) := by
            simp only [Finset.mem_insert, Finset.mem_erase]
            rintro (h | h)
            · exact hpb h.symm
            · exact hb h.2
          obtain ⟨k', hk', hs'⟩ := ih _ _ a b k0 haS' hbS' e (NoLater_tail hL hpa) hk
          exact ⟨k' + 1, by omega, Sched.evict hpS hqS.1 hs'⟩



theorem mem_take_iff {l : List Int} {a : Int} {n : Nat} :
    a ∈ l.take n ↔ ∃ m, m < n ∧ l[m]? = some a := by
  rw [List.mem_iff_getElem?]
  constructor
  · rintro ⟨m, hm⟩
    rw [List.getElem?_take] at hm
    by_cases h : m < n
    · rw [if_pos h] at hm
      exact ⟨m, h, hm⟩
    · rw [if_neg h] at hm
      cases hm
  · rintro ⟨m, h, hm⟩
    exact ⟨m, by rw [List.getElem?_take, if_pos h]; exact hm⟩

theorem toFinset_set {l : List Int} {v : Nat} {old p : Int} (hd : l.Nodup)
    (hv : l[v]? = some old) : (l.set v p).toFinset = insert p (l.toFinset.erase old) := by
  have hvl : v < l.length := (List.getElem?_eq_some.mp hv).1
  ext x
  simp only [List.mem_toFinset, Finset.mem_insert, Finset.mem_erase]
  rw [List.mem_iff_getElem?, List.mem_iff_getElem?]
  constructor
  · rintro ⟨j, hj⟩
    by_cases hjv : j = v
    · subst hjv
      rw [List.getElem?_set_self hvl] at hj
      cases hj
      exact Or.inl rfl
    · rw [List.getElem?_set_ne (Ne.symm hjv)] at hj
      refine Or.inr ⟨?_, j, hj⟩
      intro hx
      subst hx
      have hjl : j < l.length := (List.getElem?_eq_some.mp hj).1
      rcases Nat.lt_or_gt_of_ne hjv with h | h
      · exact (List.nodup_iff_getElem?_ne_getElem?.mp hd) j v h hvl (by rw [hj, hv])
      · exact (List.nodup_iff_getElem?_ne_getElem?.mp hd) v j h hjl (by rw [hj, hv])
  · rintro (h | ⟨hne, j, hj⟩)
    · exact ⟨v, by rw [List.getElem?_set_self hvl, h]⟩
    · have hjv : j ≠ v := by
        intro h
        rw [h, hv] at hj
        cases hj
        exact hne rfl
      exact ⟨j, by rw [List.getElem?_set_ne (Ne.symm hjv)]; exact hj⟩

theorem full_nodup {N alg : Nat} {s : SimState} (hI : Inv N alg s)
    (hfull : s.pm.next_frame = N) (hD : DistinctFrames s) : s.pm.frames.Nodup := by
  rw [List.nodup_iff_getElem?_ne_getElem?]
  intro i j hij hj heq
  have hjN : j < N := by rw [← hI.shape.pm_len]; exact hj
  have := hD i j (s.pm.frames[j]) (by omega) (by omega)
    (by rw [heq]; exact List.getElem?_eq_getElem hj) (List.getElem?_eq_getElem hj)
  omega

theorem mem_frames_full {N alg : Nat} {s : SimState} (hI : Inv N alg s)
    (hfull : s.pm.next_frame = N) {p : Int} :
    p ∈ s.pm.frames.toFinset ↔ ∃ j, j < s.pm.next_frame ∧ s.pm.frames[j]? = some p := by
  rw [List.mem_toFinset, List.mem_iff_getElem?]
  constructor
  · rintro ⟨j, hj⟩
    have hjl : j < s.pm.frames.length := (List.getElem?_eq_some.mp hj).1
    rw [hI.shape.pm_len] at hjl
    exact ⟨j, by omega, hj⟩
  · rintro ⟨j, _, hj⟩
    exact ⟨j, hj⟩

theorem exists_first_use {tr : List TraceEntry} {i : Nat} {p : Int}
    (h : ¬ never_used tr i p) : ∃ j, first_use tr i p j := by
  classical
  have hex : ∃ j, i ≤ j ∧ occurs_at tr p j := by
    by_contra hc
    apply h
    intro j hj ho
    exact hc ⟨j, hj, ho⟩
  refine ⟨Nat.find hex, (Nat.find_spec hex).1, (Nat.find_spec hex).2, ?_⟩
  intro m hm hlt ho
  exact Nat.find_min hex hlt ⟨hm, ho⟩

theorem PagesInRange_step {N alg : Nat} {tr : List TraceEntry} {ts i : Nat}
    {s s' : SimState} {e : Event} (hp : ∀ t, t ∈ tr → t.address < 2 ^ 31)
    (hI : Inv N alg s) (hR : PagesInRange s) (hS : Stepped N alg tr ts i s e s') :
    PagesInRange s' := by
  have hpage : ∀ t, t ∈ tr → 0 ≤ page_of t ∧ page_of t < 2 ^ 31 := by
    intro t ht
    have := hp t ht
    unfold page_of
    rw [toInt32_of_lt this]
    omega
  have key : ∀ (v : Nat) (p : Int), v ≤ s.pm.next_frame → v < s.pm.frames.length →
      (0 ≤ p ∧ p < 2 ^ 31) →
      s'.pm.frames = s.pm.frames.set v p → s'.pm.next_frame ≤ max s.pm.next_frame (v + 1) →
      PagesInRange s' := by
    intro v p hv hvl hpr hfr hnf a q ha hqa
    rw [hfr] at hqa
    by_cases hav : a = v
    · rw [hav, List.getElem?_set_self hvl] at hqa
      cases hqa
      exact hpr
    · rw [List.getElem?_set_ne (Ne.symm hav)] at hqa
      have : a < s.pm.next_frame := by
        rcases le_max_iff.mp (le_trans (Nat.succ_le_of_lt ha) hnf) with h | h <;> omega
      exact hR a q this hqa
  obtain ⟨t, ht, h | h | h⟩ := Stepped_pm hI hS
  · obtain ⟨j, _, _, hpm, _⟩ := h
    intro a q ha hqa
    rw [hpm] at ha hqa
    exact hR a q ha hqa
  · obtain ⟨hl, hfree, _, hfr, hnf, _⟩ := h
    exact key s.pm.next_frame (page_of t) (le_refl _)
      (by rw [hI.shape.pm_len]; exact hfree) (hpage t (List.getElem?_mem ht)) hfr
      (by rw [hnf]; exact le_max_right _ _)
  · obtain ⟨hl, hfull, v, cl, s2, old, _, hv, _, _, hfr, hnf, _⟩ := h
    exact key v (page_of t) (by omega) (by rw [hI.shape.pm_len]; exact hv)
      (hpage t (List.getElem?_mem ht)) hfr (by rw [hnf, hfull]; exact le_max_left _ _)

theorem PagesInRange_fresh (N : Nat) : PagesInRange (fresh N) := by
  intro a q ha
  simp [fresh, create_physical_memory] at ha

theorem page_of_cast {tr : List TraceEntry} (hp : ∀ t, t ∈ tr → t.address < 2 ^ 31)
    {t : TraceEntry} (ht : t ∈ tr) : page_of t = (t.address : Int) := by
  unfold page_of
  exact toInt32_of_lt (hp t ht)

/-- The frame `min_replace` picks holds a page used no earlier than the page of any
    other frame, in the accesses after the current one. -/
theorem min_victim_no_later {tr : List TraceEntry} {i v g : Nat} {frames : List Int}
    {qs q : Int} (hp : ∀ t, t ∈ tr → t.address < 2 ^ 31) (hM : MinVictim tr i frames v)
    (hv : frames[v]? = some qs) (hg : frames[g]? = some q) (hgv : g ≠ v)
    (hnot : ∀ t, tr[i]? = some t → ∀ g1 : Nat, frames[g1]? ≠ some (page_of t)) :
    NoLater ((tr.drop (i + 1)).map page_of) q qs := by
  intro n hmem
  obtain ⟨m, hm, hwm⟩ := mem_take_iff.mp hmem
  rw [List.getElem?_map, List.getElem?_drop] at hwm
  cases htm : tr[i + 1 + m]? with
  | none => rw [htm] at hwm; cases hwm
  | some t' =>
    rw [htm] at hwm
    simp only [Option.map_some', Option.some.injEq] at hwm
    have ho : occurs_at tr qs (i + 1 + m) :=
      ⟨t', htm, by rw [← page_of_cast hp (List.getElem?_mem htm)]; exact hwm⟩
    obtain ⟨pr, hpr, hcase⟩ := hM
    rw [hv] at hpr
    cases hpr
    rcases hcase with ⟨hnever, _⟩ | ⟨hall, jr, hjr, hfar⟩
    · exact absurd ho (hnever _ (by omega))
    · obtain ⟨jg, hjg⟩ := exists_first_use (hall g q hg)
      have hlt := hfar g q jg hgv hg hjg
      have hjr_le : jr ≤ i + 1 + m := by
        by_contra hc
        exact hjr.2.2 (i + 1 + m) (by omega) (by omega) ho
      obtain ⟨t, ht, hq⟩ := hjg.2.1
      have hpq : page_of t = q := by rw [page_of_cast hp (List.getElem?_mem ht)]; exact hq
      have hne : jg ≠ i := by
        intro h
        rw [h] at ht
        exact hnot t ht g (by rw [hg, hpq])
      have hge := hjg.1
      apply mem_take_iff.mpr
      refine ⟨jg - (i + 1), by omega, ?_⟩
      rw [List.getElem?_map, List.getElem?_drop, show i + 1 + (jg - (i + 1)) = jg by omega, ht]
      simp [hpq]

theorem simulate_from_succ {alg : Nat} {tr : List TraceEntry} {ts n i : Nat}
    {s s' : SimState} {es : List Event}
    (h : simulate_from alg tr ts (n + 1) i s = some (es, s')) :
    ∃ e s1 es1, access alg tr ts i s = some (e, s1) ∧
      simulate_from alg tr ts n (i + 1) s1 = some (es1, s') ∧ es = e :: es1 := by
  rw [simulate_from] at h
  cases h1 : access alg tr ts i s with
  | none => rw [h1] at h; cases h
  | some r1 =>
    obtain ⟨e1, s1⟩ := r1
    rw [h1] at h
    simp only at h
    cases h2 : simulate_from alg tr ts n (i + 1) s1 with
    | none => rw [h2] at h; cases h
    | some r2 =>
      obtain ⟨es2, s2⟩ := r2
      rw [h2] at h
      simp only [Option.some.injEq, Prod.mk.injEq] at h
      obtain ⟨rfl, rfl⟩ := h
      exact ⟨e1, s1, es2, rfl, h2, rfl⟩

theorem drop_pages {tr : List TraceEntry} {i : Nat} {t : TraceEntry} (ht : tr[i]? = some t) :
    (tr.drop i).map page_of = page_of t :: (tr.drop (i + 1)).map page_of := by
  obtain ⟨hlt, he⟩ := List.getElem?_eq_some.mp ht
  rw [List.drop_eq_getElem_cons hlt, List.map_cons, he]

/-- The run of any policy from a full memory is a schedule over its set of frames. -/
theorem run_sched {N alg : Nat} (tr : List TraceEntry) (ts : Nat) (hN : 0 < N)
    (halg : alg ≤ 4) :
    ∀ (n i : Nat) (s s' : SimState) (es : List Event), Inv N alg s →
      s.pm.next_frame = N → DistinctFrames s → i + n = tr.length →
      simulate_from alg tr ts n i s = some (es, s') →
      Sched s.pm.frames.toFinset ((tr.drop i).map page_of) (faults es) := by
  intro n
  induction n with
  | zero =>
    intro i s s' es _ _ _ hi h
    simp only [simulate_from, Option.some.injEq, Prod.mk.injEq] at h
    obtain ⟨rfl, _⟩ := h
    rw [List.drop_of_length_le (by omega)]
    exact Sched.done _
  | succ n ih =>
    intro i s s' es hI hfull hD hi h
    obtain ⟨e, s1, es1, ha, hrest, rfl⟩ := simulate_from_succ h
    obtain ⟨e', s1', ha', hS, hI1⟩ := access_step ts hN halg hI (by omega : i < tr.length)
    rw [ha] at ha'
    cases ha'
    have hD1 := DistinctFrames_step hI hD hS
    obtain ⟨t, ht, hc | hc | hc⟩ := Stepped_pm hI hS
    · obtain ⟨j, hl, rfl, hpm, _⟩ := hc
      obtain ⟨hj, hfj⟩ := lookup_some_resident hI hl
      have hmem : page_of t ∈ s.pm.frames.toFinset :=
        (mem_frames_full hI hfull).2 ⟨j, hj, hfj⟩
      have hrec := ih (i + 1) s1 s' es1 hI1 (by rw [hpm]; exact hfull) hD1 (by omega) hrest
      rw [hpm] at hrec
      rw [drop_pages ht]
      have hf : faults (Event.hit (page_of t) j :: es1) = faults es1 := by
        simp [faults, Event.is_miss]
      rw [hf]
      exact Sched.hit hmem hrec
    · omega
    · obtain ⟨hl, _, v, cl, s2, old, _, hv, hold, rfl, hfr, hnf, _⟩ := hc
      have hnm : page_of t ∉ s.pm.frames.toFinset := by
        intro hm
        obtain ⟨j, hj, hfj⟩ := (mem_frames_full hI hfull).1 hm
        exact lookup_none_resident hI hl j hj hfj
      have hom : old ∈ s.pm.frames.toFinset :=
        (mem_frames_full hI hfull).2 ⟨v, by omega, hold⟩
      have hrec := ih (i + 1) s1 s' es1 hI1 hnf hD1 (by omega) hrest
      rw [hfr, toFinset_set (full_nodup hI hfull hD) hold] at hrec
      rw [drop_pages ht]
      have hf : faults (Event.evict (page_of t) v (some old) cl :: es1) = faults es1 + 1 := by
        simp [faults, Event.is_miss]
      rw [hf]
      exact Sched.evict hnm hom hrec

/-- The MIN run from a full memory has no more faults than any schedule from the same
    set of frames. -/
theorem min_opt {N : Nat} (tr : List TraceEntry) (hN : 0 < N)
    (hp : ∀ t, t ∈ tr → t.address < 2 ^ 31) :
    ∀ (n i : Nat) (s s' : SimState) (es : List Event), Inv N 2 s →
      s.pm.next_frame = N → DistinctFrames s → PagesInRange s → i + n = tr.length →
      simulate_from 2 tr tr.length n i s = some (es, s') →
      ∀ k, Sched s.pm.frames.toFinset ((tr.drop i).map page_of) k → faults es ≤ k := by
  intro n
  induction n with
  | zero =>
    intro i s s' es _ _ _ _ _ h k _
    simp only [simulate_from, Option.some.injEq, Prod.mk.injEq] at h
    obtain ⟨rfl, _⟩ := h
    exact Nat.zero_le _
  | succ n ih =>
    intro i s s' es hI hfull hD hR hi h k hk
    obtain ⟨e, s1, es1, ha, hrest, rfl⟩ := simulate_from_succ h
    obtain ⟨e', s1', ha', hS, hI1⟩ :=
      access_step tr.length hN (by decide : 2 ≤ 4) hI (by omega : i < tr.length)
    rw [ha] at ha'
    cases ha'
    have hD1 := DistinctFrames_step hI hD hS
    have hR1 := PagesInRange_step hp hI hR hS
    obtain ⟨t, ht, hc | hc | hc⟩ := Stepped_pm hI hS
    · obtain ⟨j, hl, rfl, hpm, _⟩ := hc
      obtain ⟨hj, hfj⟩ := lookup_some_resident hI hl
      have hmem : page_of t ∈ s.pm.frames.toFinset :=
        (mem_frames_full hI hfull).2 ⟨j, hj, hfj⟩
      have hf : faults (Event.hit (page_of t) j :: es1) = faults es1 := by
        simp [faults, Event.is_miss]
      rw [hf]
      rw [drop_pages ht] at hk
      cases hk with
      | hit _ hk1 =>
        exact ih (i + 1) s1 s' es1 hI1 (by rw [hpm]; exact hfull) hD1 hR1 (by omega) hrest k
          (by rw [hpm]; exact hk1)
      | evict hnp _ _ => exact absurd hmem hnp
    · omega
    · obtain ⟨hl, _, v, cl, s2, old, hcv, hv, hold, rfl, hfr, hnf, _⟩ := hc
      have hnm : page_of t ∉ s.pm.frames.toFinset := by
        intro hm
        obtain ⟨j, hj, hfj⟩ := (mem_frames_full hI hfull).1 hm
        exact lookup_none_resident hI hl j hj hfj
      have hom : old ∈ s.pm.frames.toFinset :=
        (mem_frames_full hI hfull).2 ⟨v, by omega, hold⟩
      have hnd := full_nodup hI hfull hD
      have hf : faults (Event.evict (page_of t) v (some old) cl :: es1) = faults es1 + 1 := by
        simp [faults, Event.is_miss]
      rw [hf]
      have hS1 : s1.pm.frames.toFinset = insert (page_of t) (s.pm.frames.toFinset.erase old) := by
        rw [hfr, toFinset_set hnd hold]
      have hvm : v = min_replace tr tr.length i s.pt s.pm := by
        simp only [choose_victim, Option.some.injEq, Prod.mk.injEq] at hcv
        exact hcv.1.symm
      have hM : MinVictim tr i s.pm.frames v := by
        rw [hvm]
        refine min_replace_spec tr i s.pt s.pm (by omega)
          (by rw [hI.shape.pm_size, hI.shape.pm_len]) (by rw [hI.shape.pm_size]; exact hN)
          ?_ hnd
        intro f hfm
        obtain ⟨j, hj⟩ := List.mem_iff_getElem?.mp hfm
        have hjl : j < s.pm.frames.length := (List.getElem?_eq_some.mp hj).1
        rw [hI.shape.pm_len] at hjl
        exact hR j f (by omega) hj
      rw [drop_pages ht] at hk
      cases hk with
      | hit hin _ => exact absurd hin hnm
      | @evict _ _ q _ k0 _ hq hk1 =>
        obtain ⟨g, hg, hfg⟩ := (mem_frames_full hI hfull).1 hq
        have goal : ∃ k', k' ≤ k0 ∧ Sched s1.pm.frames.toFinset
            ((tr.drop (i + 1)).map page_of) k' := by
          rw [hS1]
          by_cases hgv : g = v
          · rw [hgv, hold] at hfg
            cases hfg
            exact ⟨k0, le_refl _, hk1⟩
          · have hqo : q ≠ old := by
              intro h
              rw [h] at hfg
              exact hgv (hD g v old hg (by omega) hfg hold)
            have hop : old ≠ page_of t := fun h => hnm (h ▸ hom)
            have hqp : q ≠ page_of t := fun h => hnm (h ▸ hq)
            have hL : NoLater ((tr.drop (i + 1)).map page_of) q old :=
              min_victim_no_later hp hM hold hfg hgv (by
                intro t0 ht0 g1 hg1
                rw [ht] at ht0
                cases ht0
                have hg1l : g1 < s.pm.frames.length := (List.getElem?_eq_some.mp hg1).1
                rw [hI.shape.pm_len] at hg1l
                exact lookup_none_resident hI hl g1 (by omega) hg1)
            refine Sched_exchange _ _ _ q old k0 ?_ ?_ ?_ hL hk1
            · simp only [Finset.mem_insert, Finset.mem_erase]
              exact Or.inr ⟨hqo, hq⟩
            · simp only [Finset.mem_insert, Finset.mem_erase]
              rintro (h1 | h1)
              · exact hop h1
              · exact h1.1 rfl
            · ext x
              simp only [Finset.mem_insert, Finset.mem_erase]
              by_cases hxp : x = page_of t
              · subst hxp; simp [Ne.symm hqp]
              · by_cases hxo : x = old
                · subst hxo; simp [Ne.symm hqo, hom]
                · simp [hxp, hxo]
        obtain ⟨k', hk', hs'⟩ := goal
        have := ih (i + 1) s1 s' es1 hI1 hnf hD1 hR1 (by omega) hrest k' hs'
        omega

theorem pm_eq {a b : PhysicalMemory} (h1 : a.frames = b.frames) (h2 : a.size = b.size)
    (h3 : a.next_frame = b.next_frame) : a = b := by
  cases a
  cases b
  simp only at h1 h2 h3
  rw [h1, h2, h3]

theorem run_exists {N alg : Nat} (tr : List TraceEntry) (ts : Nat) (hN : 0 < N)
    (halg : alg ≤ 4) (n i : Nat) (s : SimState) (hI : Inv N alg s) (hi : i + n ≤ tr.length) :
    ∃ es s', simulate_from alg tr ts n i s = some (es, s') := by
  obtain ⟨es, s', h, _⟩ := run_induction tr ts hN halg (fun _ _ _ => True)
    (fun _ _ _ _ _ _ _ _ _ _ => trivial) n i [] s hI trivial hi
  exact ⟨es, s', h⟩

/-- From states with the same frames, the MIN run has no more faults than the run of any
    policy. -/
theorem min_le_from {N alg : Nat} (tr : List TraceEntry) (hN : 0 < N) (halg : alg ≤ 4)
    (hp : ∀ t, t ∈ tr → t.address < 2 ^ 31) :
    ∀ (n i : Nat) (s f : SimState), Inv N 2 s → Inv N alg f → s.pm = f.pm →
      DistinctFrames s → PagesInRange s → i + n = tr.length →
      ∃ esM sM esF sF, simulate_from 2 tr tr.length n i s = some (esM, sM) ∧
        simulate_from alg tr tr.length n i f = some (esF, sF) ∧
        faults esM ≤ faults esF := by
  intro n
  induction n with
  | zero =>
    intro i s f _ _ _ _ _ _
    exact ⟨[], s, [], f, rfl, rfl, le_refl _⟩
  | succ n ih =>
    intro i s f hI hF hpm hD hR hi
    by_cases hfull : s.pm.next_frame = N
    · obtain ⟨esM, sM, hM⟩ := run_exists tr tr.length hN (by decide : 2 ≤ 4) (n + 1) i s hI
        (by omega)
      obtain ⟨esF, sF, hrF⟩ := run_exists tr tr.length hN halg (n + 1) i f hF (by omega)
      have hDf : DistinctFrames f := by
        intro a b q ha hb hqa hqb
        rw [← hpm] at ha hb hqa hqb
        exact hD a b q ha hb hqa hqb
      have hsch := run_sched tr tr.length hN halg (n + 1) i f sF esF hF
        (by rw [← hpm]; exact hfull) hDf hi hrF
      rw [← hpm] at hsch
      exact ⟨esM, sM, esF, sF, hM, hrF,
        min_opt tr hN hp (n + 1) i s sM esM hI hfull hD hR hi hM _ hsch⟩
    · have hlt : s.pm.next_frame < N := lt_of_le_of_ne hI.next_le hfull
      obtain ⟨e, s1, ha, hS, hI1⟩ :=
        access_step tr.length hN (by decide : 2 ≤ 4) hI (by omega : i < tr.length)
      obtain ⟨e0, f1, ha0, hS0, hF1⟩ :=
        access_step tr.length hN halg hF (by omega : i < tr.length)
      have hD1 := DistinctFrames_step hI hD hS
      have hR1 := PagesInRange_step hp hI hR hS
      have hsz : s1.pm.size = f1.pm.size := by
        rw [hI1.shape.pm_size, hF1.shape.pm_size]
      obtain ⟨t, ht, hc | hc | hc⟩ := Stepped_pm hI hS
      · obtain ⟨j, hl, rfl, hpm1, _⟩ := hc
        obtain ⟨hj, hfj⟩ := lookup_some_resident hI hl
        obtain ⟨t0, ht0, hc0 | hc0 | hc0⟩ := Stepped_pm hF hS0
        · obtain ⟨j0, _, rfl, hpm0, _⟩ := hc0
          obtain ⟨esM, sM, esF, sF, h1, h2, h3⟩ := ih (i + 1) s1 f1 hI1 hF1
            (by rw [hpm1, hpm0, hpm]) hD1 hR1 (by omega)
          refine ⟨Event.hit (page_of t) j :: esM, sM, Event.hit (page_of t0) j0 :: esF, sF,
            by simp [simulate_from, ha, h1], by simp [simulate_from, ha0, h2], ?_⟩
          simpa [faults, Event.is_miss] using h3
        · exfalso
          obtain ⟨hl0, _⟩ := hc0
          rw [ht] at ht0
          cases ht0
          rw [hpm] at hj hfj
          exact lookup_none_resident hF hl0 j hj hfj
        · exfalso
          obtain ⟨_, hfull0, _⟩ := hc0
          rw [hpm] at hlt
          omega
      · obtain ⟨hl, _, rfl, hfr, hnf, _⟩ := hc
        obtain ⟨t0, ht0, hc0 | hc0 | hc0⟩ := Stepped_pm hF hS0
        · exfalso
          obtain ⟨j0, hl0, _⟩ := hc0
          rw [ht] at ht0
          cases ht0
          obtain ⟨hj, hfj⟩ := lookup_some_resident hF hl0
          rw [← hpm] at hj hfj
          exact lookup_none_resident hI hl j0 hj hfj
        · obtain ⟨_, _, rfl, hfr0, hnf0, _⟩ := hc0
          rw [ht] at ht0
          cases ht0
          obtain ⟨esM, sM, esF, sF, h1, h2, h3⟩ := ih (i + 1) s1 f1 hI1 hF1
            (pm_eq (by rw [hfr, hfr0, hpm]) hsz (by rw [hnf, hnf0, hpm])) hD1 hR1 (by omega)
          refine ⟨Event.fill (page_of t) s.pm.next_frame :: esM, sM,
            Event.fill (page_of t) f.pm.next_frame :: esF, sF,
            by simp [simulate_from, ha, h1], by simp [simulate_from, ha0, h2], ?_⟩
          simpa [faults, Event.is_miss] using h3
        · exfalso
          obtain ⟨_, hfull0, _⟩ := hc0
          rw [hpm] at hlt
          omega
      · exfalso
        obtain ⟨_, hfull1, _⟩ := hc
        omega

/-- The page-fault counter of a run from fresh state is the number of its misses. -/
theorem run_faults {N alg : Nat} (tr : List TraceEntry) (hN : 0 < N) (halg : alg ≤ 4)
    {es : List Event} {s : SimState}
    (h : simulate_from alg tr tr.length tr.length 0 (fresh N) = some (es, s)) :
    s.pt.page_faults = faults es := by
  obtain ⟨es', s', h1, _, hI, P1, _⟩ := run_induction tr tr.length hN halg
    (fun _ es s => FillFirst N es s)
    (fun i es s e s' _ hI hP hS _ => FillFirst_step hI hP hS)
    tr.length 0 [] (fresh N) (Inv_fresh N alg hN)
    ⟨rfl, by simp [fresh, create_physical_memory, create_page_table],
      fun _ => ⟨rfl, rfl, rfl⟩⟩ (by omega)
  rw [h] at h1
  cases h1
  simp only [List.nil_append] at P1
  rw [← hI.faults, P1]
  rfl

/-- C21: MIN is optimal among the implemented policies.  For every `N >= 1` and every
    trace whose page numbers are below `2^31`, `simulate_virtual_memory` with algorithm 2
    on fresh state returns, and for every algorithm in 0..4 the run on the same trace and
    `N` returns with a `page_faults` count that is at least that of algorithm 2. -/
theorem C21_min_is_optimal (N : Nat) (tr : List TraceEntry) (hN : 1 ≤ N)
    (hp : ∀ t, t ∈ tr → t.address < 2 ^ 31) :
    ∃ s2, simulate_virtual_memory (fresh N) 2 tr tr.length = some s2 ∧
      ∀ alg, alg ≤ 4 →
        ∃ s, simulate_virtual_memory (fresh N) alg tr tr.length = some s ∧
          s2.pt.page_faults ≤ s.pt.page_faults := by
  obtain ⟨es2, s2, h2⟩ := run_exists tr tr.length hN (by decide : 2 ≤ 4) tr.length 0 (fresh N)
    (Inv_fresh N 2 hN) (by omega)
  refine ⟨s2, by simp [simulate_virtual_memory, simulate_virtual_memory_log, h2], ?_⟩
  intro alg halg
  obtain ⟨esM, sM, esF, sF, a, b, c⟩ := min_le_from tr hN halg hp tr.length 0 (fresh N)
    (fresh N) (Inv_fresh N 2 hN) (Inv_fresh N alg hN) rfl (DistinctFrames_fresh N)
    (PagesInRange_fresh N) (by omega)
  rw [h2] at a
  cases a
  refine ⟨sF, by simp [simulate_virtual_memory, simulate_virtual_memory_log, b], ?_⟩
  rw [run_faults tr hN (by decide : 2 ≤ 4) h2, run_faults tr hN halg b]
  exact c

/-- C21 at `N = 2` and the pages 1, 2, 3, 1, against FIFO. -/
theorem C21_min_is_optimal_witness :
    ∃ s2, simulate_virtual_memory (fresh 2) 2 (loads [1, 2, 3, 1]) (loads [1, 2, 3, 1]).length
        = some s2 ∧
      ∃ s, simulate_virtual_memory (fresh 2) 0 (loads [1, 2, 3, 1]) (loads [1, 2, 3, 1]).length
          = some s ∧
        s2.pt.page_faults ≤ s.pt.page_faults :=
  match C21_min_is_optimal 2 (loads [1, 2, 3, 1]) (by decide) (by decide) with
  | ⟨s2, h2, hall⟩ => ⟨s2, h2, hall 0 (by decide)⟩

end VMSim
